import Mathlib

/-!
Listing decoder (`src/list.c`): shallow embedding and verification.

The program maps two files into memory (the listing and the output file) and
prints one report line per assembly record.  The embedding below models

* a byte as `Fin 256`, an object in memory as a `List Byte`, a pointer into an
  object as a `Nat` index;
* a C `int` as an `Int`, with two's complement wrap-around (`wrap32`) at the
  places where the source computes a value that may leave the `int` range;
* a run of C code as an `Outcome`: it returns a value, or its behaviour is
  undefined in C (an access outside the object, a negative `memcpy` size);
* `char` as a signed type (x86-64 System V), which only matters for the
  identifier length `tlen = *tokens++`.
-/

namespace ListC

/-- One byte of memory. -/
abbrev Byte := Fin 256

/-- Result of running a piece of C code. -/
inductive Outcome (α : Type) where
  /-- the code ran to its end and produced `a` -/
  | ret (a : α) : Outcome α
  /-- the behaviour is undefined in C -/
  | undefined : Outcome α
  /-- the fuel of a loop model ran out (never the case for the top-level functions) -/
  | outOfFuel : Outcome α
  deriving DecidableEq, Repr

/-- Sequencing of two pieces of code. -/
def Outcome.bind {α β : Type} (x : Outcome α) (f : α → Outcome β) : Outcome β :=
  match x with
  | .ret a => f a
  | .undefined => .undefined
  | .outOfFuel => .outOfFuel

/-- Reduce an integer to the range of a 32-bit two's complement `int`. -/
def wrap32 (x : Int) : Int := (x + 2147483648) % 4294967296 - 2147483648

/-- Value of a byte read through a (signed) `char`. -/
def sx8 (b : Byte) : Int := if b.val < 128 then (b.val : Int) else (b.val : Int) - 256

/-- Read one byte: `*p`. -/
def load (mem : List Byte) (p : Nat) : Outcome Byte :=
  match mem[p]? with
  | some b => .ret b
  | none => .undefined

/-- Write one byte: `*p = v`. -/
def store (mem : List Byte) (p : Nat) (v : Byte) : Outcome (List Byte) :=
  if p < mem.length then .ret (mem.set p v) else .undefined

/-- Little-endian value of a run of bytes. -/
def le_value : List Byte → Nat
  | [] => 0
  | b :: bs => b.val + 256 * le_value bs

/-- Read `n` bytes starting at `p`. -/
def load_bytes (mem : List Byte) (p n : Nat) : Outcome (List Byte) :=
  if p + n ≤ mem.length then .ret ((mem.drop p).take n) else .undefined

/-- Read a `dd` (little-endian `uint32_t`) at `p`. -/
def load_dd (mem : List Byte) (p : Nat) : Outcome Nat :=
  (load_bytes mem p 4).bind fun bs => .ret (le_value bs)

/-- Read a `dq` (little-endian `uint64_t`) at `p`. -/
def load_dq (mem : List Byte) (p : Nat) : Outcome Nat :=
  (load_bytes mem p 8).bind fun bs => .ret (le_value bs)

/-- Read an `int` at `p`: `*(int*)p`. -/
def load_int (mem : List Byte) (p : Nat) : Outcome Int :=
  (load_dd mem p).bind fun v => .ret (wrap32 v)

/-- The call `memcpy (dst + d, src + s, n)` with `n` an `int` converted to `size_t`:
a negative `n` becomes a size larger than any object. -/
def memcpy (dst : List Byte) (d : Nat) (src : List Byte) (s : Nat) (n : Int) :
    Outcome (List Byte) :=
  if n < 0 then .undefined
  else if s + n.toNat ≤ src.length ∧ d + n.toNat ≤ dst.length then
    .ret (dst.take d ++ (src.drop s).take n.toNat ++ dst.drop (d + n.toNat))
  else .undefined

/-- The call `memset (dst, v, n)` with `n` an `int` converted to `size_t`. -/
def memset (dst : List Byte) (v : Byte) (n : Int) : Outcome (List Byte) :=
  if n < 0 then .undefined
  else if n.toNat ≤ dst.length then .ret (List.replicate n.toNat v ++ dst.drop n.toNat)
  else .undefined

/-- What `fmt_preprocessed` leaves behind when it returns: the `bool` it returns,
the destination object, and the final value of its local pointer `buf`. -/
structure Decoded where
  ok : Bool
  buf : List Byte
  pos : Nat
  deriving DecidableEq, Repr

/-- The `for (;;)` loop of `fmt_preprocessed`; one unit of fuel per iteration.
`buf` is the destination object and `pos` the index the pointer `buf` is at,
`tokens` the index into `src` the pointer `tokens` is at. -/
def fmt_preprocessed_loop (src : List Byte) :
    Nat → List Byte → Nat → Int → Nat → Outcome Decoded
  | 0, _, _, _, _ => .outOfFuel
  | fuel + 1, buf, pos, len, tokens =>
    (load src tokens).bind fun c =>
    if c = 0x1a then
      (load src (tokens + 1)).bind fun l =>
      let tlen : Int := sx8 l
      if tlen + 1 ≥ len then .ret ⟨false, buf, pos⟩
      else
        (store buf pos 0x20).bind fun buf1 =>
        (memcpy buf1 (pos + 1) src (tokens + 2) tlen).bind fun buf2 =>
        fmt_preprocessed_loop src fuel buf2 (pos + 1 + tlen.toNat)
          (wrap32 (len - (tlen + 1))) (tokens + 2 + tlen.toNat)
    else if c = 0x22 then
      (load_int src (tokens + 1)).bind fun tlen =>
      if wrap32 (tlen + 2) ≥ len then .ret ⟨false, buf, pos⟩
      else
        (store buf pos 0x20).bind fun buf1 =>
        (store buf1 (pos + 1) 0x22).bind fun buf2 =>
        (memcpy buf2 (pos + 2) src (tokens + 5) tlen).bind fun buf3 =>
        (store buf3 (pos + 2 + tlen.toNat) 0x22).bind fun buf4 =>
        fmt_preprocessed_loop src fuel buf4 (pos + 2 + tlen.toNat + 1)
          (wrap32 (len - wrap32 (tlen + 3))) (tokens + 5 + tlen.toNat)
    else if c = 0x3b ∨ c = 0 then
      (store buf pos 0).bind fun buf1 => .ret ⟨true, buf1, pos⟩
    else if len ≤ 2 then .ret ⟨false, buf, pos⟩
    else if c ≠ 0x2c ∧ c ≠ 0x3a then
      (store buf pos 0x20).bind fun buf1 =>
      (store buf1 (pos + 1) c).bind fun buf2 =>
      fmt_preprocessed_loop src fuel buf2 (pos + 2) (wrap32 (wrap32 (len - 1) - 1)) (tokens + 1)
    else
      (store buf pos c).bind fun buf1 =>
      fmt_preprocessed_loop src fuel buf1 (pos + 1) (wrap32 (len - 1)) (tokens + 1)

/-- The call `fmt_preprocessed (buf, len, p)` where `p->tokenised` is at index `tokens` of
the object `src`.  Every iteration reads at least one byte of `src`, so the
loop makes at most `src.length - tokens + 1` iterations (the last one reads
past the end when no terminator was found). -/
def fmt_preprocessed (buf : List Byte) (len : Int) (src : List Byte) (tokens : Nat) :
    Outcome Decoded :=
  fmt_preprocessed_loop src (src.length - tokens + 1) buf 0 len tokens

/-- The table `hex` of `fmt_bytes`: the string literal `"0123456789abcdef"`. -/
def hex_table : List Byte :=
  [0x30, 0x31, 0x32, 0x33, 0x34, 0x35, 0x36, 0x37, 0x38, 0x39, 0x61, 0x62, 0x63, 0x64, 0x65, 0x66]

/-- The read `hex[i]`; index 16 is the terminator of the string literal. -/
def hex (i : Nat) : Byte := hex_table.getD i 0

/-- The `while (count --> 0)` loop of `fmt_bytes`; the first argument is the
number of iterations the counter still allows.  `pos` is the index the pointer
`buf` is at, `s` the index into `src` the pointer `src` is at. -/
def fmt_bytes_loop (src : List Byte) :
    Nat → List Byte → Nat → Int → Nat → Outcome (List Byte)
  | 0, buf, _, _, _ => .ret buf
  | count + 1, buf, pos, buflen, s =>
    (load src s).bind fun b =>
    if buflen < 2 then .ret buf
    else if buflen = 2 then
      (store buf pos (hex (b.val / 16))).bind fun buf1 =>
      (store buf1 (pos + 1) (hex (b.val % 16))).bind fun buf2 =>
      .ret buf2
    else
      (store buf pos (hex (b.val / 16))).bind fun buf1 =>
      (store buf1 (pos + 1) (hex (b.val % 16))).bind fun buf2 =>
      (store buf2 (pos + 2) 0x20).bind fun buf3 =>
      fmt_bytes_loop src count buf3 (pos + 3) (buflen - 3) (s + 1)

/-- The call `fmt_bytes (buf, buflen, src + s, count)`: the destination object is `buf`,
the bytes are read from index `s` of the object `src`. -/
def fmt_bytes (buf : List Byte) (buflen : Int) (src : List Byte) (s : Nat) (count : Int) :
    Outcome (List Byte) :=
  (memset buf 0x20 buflen).bind fun buf1 =>
  let buflen1 := wrap32 (buflen - 1)
  if buflen1 < 0 then .undefined
  else
    (store buf1 buflen1.toNat 0).bind fun buf2 =>
    fmt_bytes_loop src count.toNat buf2 0 buflen1 s

/-- The zero-terminated string that starts at the beginning of `buf`, as `%s`
reads it; reading on past the end of the object is undefined. -/
def cstr : List Byte → Outcome (List Byte)
  | [] => .undefined
  | b :: bs => if b = 0 then .ret [] else (cstr bs).bind fun t => .ret (b :: t)

/-- The text `<line too long>`. -/
def placeholder : List Byte :=
  [0x3c, 0x6c, 0x69, 0x6e, 0x65, 0x20, 0x74, 0x6f, 0x6f, 0x20, 0x6c, 0x6f, 0x6e, 0x67, 0x3e]

/-- The call `strcpy (dst, text)`: the text and its zero terminator are written
at the beginning of `dst`. -/
def strcpy (dst : List Byte) (text : List Byte) : Outcome (List Byte) :=
  if text.length + 1 ≤ dst.length then .ret (text ++ 0 :: dst.drop (text.length + 1))
  else .undefined

/-- Digits of `n` in the given base, least significant first; `fuel` bounds the
number of digits. -/
def digits_rev (base : Nat) : Nat → Nat → List Nat
  | 0, _ => []
  | fuel + 1, n => if n < base then [n] else (n % base) :: digits_rev base fuel (n / base)

/-- Digits of a number below `2 ^ 64`, most significant first, as characters. -/
def digit_chars (base n : Nat) : List Byte :=
  ((digits_rev base 64 n).reverse).map hex

/-- Pad on the left to a minimum field width. -/
def pad_left (c : Byte) (width : Nat) (s : List Byte) : List Byte :=
  List.replicate (width - s.length) c ++ s

/-- The arguments of one `printf` call of `print_assembly`, the two strings
being the texts `%s` reads from `obuf` and `pbuf`. -/
structure ReportLine where
  index : Nat
  virtual_address : Nat
  obuf : List Byte
  pbuf : List Byte
  deriving DecidableEq, Repr

/-- The text of the call `printf ("%8u %08zx | %s | %s\n", i, a->virtual_address,
obuf, pbuf)`, by the C library's rules for the conversions: `%8u` is the decimal
number in a field of at least 8 characters, padded with blanks on the left,
`%08zx` the lowercase hex number in a field of at least 8 characters, padded
with zeros; a longer number takes the room it needs. -/
def printf_line (l : ReportLine) : List Byte :=
  pad_left 0x20 8 (digit_chars 10 l.index) ++ [0x20] ++
  pad_left 0x30 8 (digit_chars 16 l.virtual_address) ++ [0x20, 0x7c, 0x20] ++
  l.obuf ++ [0x20, 0x7c, 0x20] ++ l.pbuf ++ [0x0a]

/-- The static buffers `pbuf` and `obuf` of `print_assembly`. -/
structure Scratch where
  pbuf : List Byte
  obuf : List Byte
  deriving DecidableEq, Repr

/-- The static buffers at program start: 80 and 24 zero bytes. -/
def Scratch.initial : Scratch := ⟨List.replicate 80 0, List.replicate 24 0⟩

/-- The value given to `output_len` for the record at listing offset `a`, index
`i` of `len`: the difference of two `dd` offsets, converted to `int`, when there
is a next record, else 0. -/
def output_len (listing_file : List Byte) (a len i : Nat) (output_file_offset : Nat) :
    Outcome Int :=
  if i + 1 < len then
    (load_dd listing_file (a + 28)).bind fun next_offset =>
    .ret (wrap32 (((next_offset : Int) - output_file_offset) % 4294967296))
  else .ret 0

/-- One iteration of the `for` loop of `print_assembly`, for the record at index
`i` of `len`: the arguments of its `printf` call and the static buffers
afterwards.  `as_off` is `hd->assembly.offset`. -/
def print_assembly_step (listing_file output_file : List Byte) (as_off len i : Nat)
    (st : Scratch) : Outcome (ReportLine × Scratch) :=
  let a := as_off + 28 * i
  (load_dd listing_file 32).bind fun pp_off =>
  (load_dd listing_file (a + 4)).bind fun offset_preprocessed =>
  let p := pp_off + offset_preprocessed
  (fmt_preprocessed st.pbuf 80 listing_file (p + 16)).bind fun d =>
  (if d.ok then Outcome.ret d.buf else strcpy d.buf placeholder).bind fun pbuf =>
  (load_dd listing_file a).bind fun output_file_offset =>
  (output_len listing_file a len i output_file_offset).bind fun count =>
  (fmt_bytes st.obuf 24 output_file output_file_offset count).bind fun obuf =>
  (load_dq listing_file (a + 8)).bind fun virtual_address =>
  (cstr obuf).bind fun otext =>
  (cstr pbuf).bind fun ptext =>
  .ret (⟨i, virtual_address, otext, ptext⟩, ⟨pbuf, obuf⟩)

/-- The `for (dd i = 0; i < len; i++)` loop of `print_assembly`, from index `i`
with `rem = len - i` iterations to go: the `printf` calls in order. -/
def print_assembly_loop (listing_file output_file : List Byte) (as_off len : Nat) :
    Nat → Nat → Scratch → Outcome (List ReportLine)
  | 0, _, _ => .ret []
  | rem + 1, i, st =>
    (print_assembly_step listing_file output_file as_off len i st).bind fun r =>
    (print_assembly_loop listing_file output_file as_off len rem (i + 1) r.2).bind fun rest =>
    .ret (r.1 :: rest)

/-- The report line of the record at index `i`, computed on its own with the
static buffers as they are at program start. -/
def record_line (listing_file output_file : List Byte) (as_off len i : Nat) :
    Outcome ReportLine :=
  (print_assembly_step listing_file output_file as_off len i Scratch.initial).bind fun r =>
    .ret r.1

/-- The number of records `hd->assembly.length / sizeof(struct assembly)`. -/
def record_count (listing_file : List Byte) : Outcome Nat :=
  (load_dd listing_file 44).bind fun length => .ret (length / 28)

/-- The call `print_assembly ()` on the two mapped files: the `printf` calls it makes, in
order. -/
def print_assembly (listing_file output_file : List Byte) : Outcome (List ReportLine) :=
  (load_dd listing_file 40).bind fun as_off =>
  (record_count listing_file).bind fun len =>
  print_assembly_loop listing_file output_file as_off len len 0 Scratch.initial

/-- What `print_assembly ()` writes to the standard output. -/
def print_assembly_text (listing_file output_file : List Byte) : Outcome (List Byte) :=
  (print_assembly listing_file output_file).bind fun ls => .ret (ls.map printf_line).flatten

/-- Little-endian bytes of a number, `n` of them. -/
def le_bytes : Nat → Nat → List Byte
  | 0, _ => []
  | n + 1, v => Fin.ofNat (v % 256) :: le_bytes n (v / 256)

/-- A token of a preprocessed line (spec, data model): the terminator is kept
apart. -/
inductive Token where
  | identifier (bytes : List Byte) : Token
  | stringLiteral (bytes : List Byte) : Token
  | literalChar (c : Byte) : Token
  deriving DecidableEq, Repr

/-- Encoding of a token as the spec gives it: `0x1A`, one length byte and the
bytes for an identifier; `0x22`, a 4-byte little-endian length and the bytes for
a string literal; the byte itself for a literal character. -/
def Token.encode : Token → List Byte
  | .identifier bytes => 0x1a :: Fin.ofNat bytes.length :: bytes
  | .stringLiteral bytes => 0x22 :: (le_bytes 4 bytes.length ++ bytes)
  | .literalChar c => [c]

/-- Rendering of a token as the spec gives it. -/
def Token.render : Token → List Byte
  | .identifier bytes => 0x20 :: bytes
  | .stringLiteral bytes => 0x20 :: 0x22 :: (bytes ++ [0x22])
  | .literalChar c => if c = 0x2c ∨ c = 0x3a then [c] else [0x20, c]

/-- The tokens the round trip is about: an identifier of at most 127 bytes, any
string literal, a literal character that is not one of the four marker bytes. -/
def Token.wf : Token → Prop
  | .identifier bytes => bytes.length ≤ 127
  | .stringLiteral _ => True
  | .literalChar c => c ≠ 0x1a ∧ c ≠ 0x22 ∧ c ≠ 0x3b ∧ c ≠ 0

instance (t : Token) : Decidable t.wf := by
  cases t <;> unfold Token.wf <;> infer_instance

/-- Encoding of a list of tokens, one after the other. -/
def encode_tokens : List Token → List Byte
  | [] => []
  | t :: ts => t.encode ++ encode_tokens ts

/-- Rendering of a list of tokens, one after the other. -/
def render_tokens : List Token → List Byte
  | [] => []
  | t :: ts => t.render ++ render_tokens ts

/-- A hex digit as the spec words it: lowercase, `0`..`9` then `a`..`f`. -/
def hex_digit (d : Nat) : Byte := if d < 10 then Fin.ofNat (0x30 + d) else Fin.ofNat (0x61 + (d - 10))

/-- A byte as two lowercase hex digits, high nibble first. -/
def hex_pair (b : Byte) : List Byte := [hex_digit (b.val / 16), hex_digit (b.val % 16)]

/-- Hex pairs joined by single spaces. -/
def hex_pairs_spaced : List Byte → List Byte
  | [] => []
  | [b] => hex_pair b
  | b :: b2 :: bs => hex_pair b ++ 0x20 :: hex_pairs_spaced (b2 :: bs)

/-- Hex pairs, each followed by one space. -/
def hex_pairs_followed : List Byte → List Byte
  | [] => []
  | b :: bs => hex_pair b ++ 0x20 :: hex_pairs_followed bs

/-- Reference definition of the byte column (spec, Byte-Column Formatter): the
bytes shown as hex pairs joined by single spaces, left-justified, padded with
blanks to `width - 1` characters. -/
def byte_column (width : Nat) (shown : List Byte) : List Byte :=
  hex_pairs_spaced shown ++
    List.replicate (width - 1 - (hex_pairs_spaced shown).length) 0x20

/-- What the loop of `fmt_bytes` writes into `room` character slots for the
given bytes (proof device: the loop as a function of the bytes alone). -/
def column_rec : Nat → List Byte → List Byte
  | room, [] => List.replicate room 0x20
  | room, b :: bs =>
    if room < 2 then List.replicate room 0x20
    else if room = 2 then hex_pair b
    else hex_pair b ++ 0x20 :: column_rec (room - 3) bs

/-- The object `buf` with `data` written at index `pos`. -/
def splice (buf : List Byte) (pos : Nat) (data : List Byte) : List Byte :=
  buf.take pos ++ data ++ buf.drop (pos + data.length)

/-- The loop of `fmt_preprocessed` as a function of the room left in the
destination object (proof device): the `bool` returned and the characters
written before the terminator.  `room` is the number of bytes of the object from
the pointer `buf` on. -/
def decode_loop (src : List Byte) : Nat → Nat → Int → Nat → Outcome (Bool × List Byte)
  | 0, _, _, _ => .outOfFuel
  | fuel + 1, room, len, tokens =>
    (load src tokens).bind fun c =>
    if c = 0x1a then
      (load src (tokens + 1)).bind fun l =>
      let tlen : Int := sx8 l
      if tlen + 1 ≥ len then .ret (false, [])
      else if room < 1 then .undefined
      else if tlen < 0 then .undefined
      else if tokens + 2 + tlen.toNat ≤ src.length ∧ 1 + tlen.toNat ≤ room then
        (decode_loop src fuel (room - (1 + tlen.toNat)) (wrap32 (len - (tlen + 1)))
          (tokens + 2 + tlen.toNat)).bind fun r =>
        .ret (r.1, 0x20 :: ((src.drop (tokens + 2)).take tlen.toNat ++ r.2))
      else .undefined
    else if c = 0x22 then
      (load_int src (tokens + 1)).bind fun tlen =>
      if wrap32 (tlen + 2) ≥ len then .ret (false, [])
      else if room < 2 then .undefined
      else if tlen < 0 then .undefined
      else if tokens + 5 + tlen.toNat ≤ src.length ∧ 2 + tlen.toNat + 1 ≤ room then
        (decode_loop src fuel (room - (2 + tlen.toNat + 1)) (wrap32 (len - wrap32 (tlen + 3)))
          (tokens + 5 + tlen.toNat)).bind fun r =>
        .ret (r.1, 0x20 :: 0x22 :: ((src.drop (tokens + 5)).take tlen.toNat ++ 0x22 :: r.2))
      else .undefined
    else if c = 0x3b ∨ c = 0 then
      if room < 1 then .undefined else .ret (true, [])
    else if len ≤ 2 then .ret (false, [])
    else if c ≠ 0x2c ∧ c ≠ 0x3a then
      if room < 2 then .undefined
      else
        (decode_loop src fuel (room - 2) (wrap32 (wrap32 (len - 1) - 1)) (tokens + 1)).bind
          fun r => .ret (r.1, 0x20 :: c :: r.2)
    else
      if room < 1 then .undefined
      else
        (decode_loop src fuel (room - 1) (wrap32 (len - 1)) (tokens + 1)).bind
          fun r => .ret (r.1, c :: r.2)

/-- What `fmt_preprocessed` does to its destination, given the outcome of
`decode_loop`: the characters are written from `pos` on, followed by the zero
terminator when the decoder returns `true`. -/
def written (buf : List Byte) (pos : Nat) (r : Bool × List Byte) : Decoded :=
  ⟨r.1, splice buf pos (r.2 ++ if r.1 then [0] else []), pos + r.2.length⟩

/-- The source text printed for an outcome of `decode_loop`: the characters up
to the first zero byte, or the placeholder when the decoder returned `false`. -/
def line_text (r : Bool × List Byte) : List Byte :=
  if r.1 then r.2.takeWhile (fun b => b ≠ 0) else placeholder

/-- The buffer `pbuf` after `fmt_preprocessed` and, when it returned `false`,
the `strcpy` of the placeholder. -/
def pbuf_after (pbuf : List Byte) (r : Bool × List Byte) : List Byte :=
  if r.1 then splice pbuf 0 (r.2 ++ [0])
  else placeholder ++ 0 :: (splice pbuf 0 r.2).drop 16

/-- A small listing used as a concrete instance: a 64-byte header (preprocessed
table at 120, assembly table at 64 with length 56), two assembly records with
output offsets `0x10` and `0x13`, and their preprocessed records with the token
streams `mov` and `mov eax , 1`. -/
def sample_listing : List Byte :=
  List.replicate 32 0 ++ le_bytes 4 120 ++ le_bytes 4 0 ++ le_bytes 4 64 ++ le_bytes 4 56 ++
  List.replicate 16 0 ++
  le_bytes 4 0x10 ++ le_bytes 4 0 ++ le_bytes 8 0x401000 ++ List.replicate 12 0 ++
  le_bytes 4 0x13 ++ le_bytes 4 22 ++ le_bytes 8 0x401003 ++ List.replicate 12 0 ++
  List.replicate 16 0 ++ [0x1a, 3, 0x6d, 0x6f, 0x76, 0] ++
  List.replicate 16 0 ++ [0x1a, 3, 0x6d, 0x6f, 0x76, 0x1a, 3, 0x65, 0x61, 0x78, 0x2c, 0x31, 0x3b]

/-- The output file that goes with `sample_listing`: `B8 00 00 00` at `0x10`. -/
def sample_output : List Byte := List.replicate 0x10 0 ++ [0xb8, 0, 0, 0]

/-- The two report lines of `sample_listing`. -/
def sample_lines : List ReportLine :=
  [⟨0, 0x401000, [0x62, 0x38, 0x20, 0x30, 0x30, 0x20, 0x30, 0x30] ++ List.replicate 15 0x20,
      [0x20, 0x6d, 0x6f, 0x76]⟩,
   ⟨1, 0x401003, List.replicate 23 0x20,
      [0x20, 0x6d, 0x6f, 0x76, 0x20, 0x65, 0x61, 0x78, 0x2c, 0x20, 0x31]⟩]

/-- Whether a piece of code returned. -/
def Outcome.isRet {α : Type} : Outcome α → Bool
  | .ret _ => true
  | _ => false

/-- A listing whose two records have the output offsets `0` and `0x80000000`;
both use the preprocessed record at 120, an empty line. -/
def wide_span_listing : List Byte :=
  List.replicate 32 0 ++ le_bytes 4 120 ++ le_bytes 4 0 ++ le_bytes 4 64 ++ le_bytes 4 56 ++
  List.replicate 16 0 ++
  le_bytes 4 0 ++ le_bytes 4 0 ++ le_bytes 8 0x401000 ++ List.replicate 12 0 ++
  le_bytes 4 0x80000000 ++ le_bytes 4 0 ++ le_bytes 8 0x401003 ++ List.replicate 12 0 ++
  List.replicate 16 0 ++ [0]

/-- An output file of eight bytes. -/
def wide_span_output : List Byte := [0xb8, 0, 0, 0, 0, 0, 0, 0]

/-- A listing with one record whose `offset_preprocessed` is `0x7fffffff`, far
beyond the end of the listing. -/
def far_offset_listing : List Byte :=
  List.replicate 32 0 ++ le_bytes 4 92 ++ le_bytes 4 0 ++ le_bytes 4 64 ++ le_bytes 4 28 ++
  List.replicate 16 0 ++
  le_bytes 4 0 ++ le_bytes 4 0x7fffffff ++ le_bytes 8 0x401000 ++ List.replicate 12 0 ++
  List.replicate 16 0 ++ [0x1a, 3, 0x6d, 0x6f, 0x76, 0]

/-- A listing with two records: the token stream of record 0 is an identifier
of 100 bytes, which does not fit the 80-byte line buffer, that of record 1 is
`mov`. -/
def long_line_listing : List Byte :=
  List.replicate 32 0 ++ le_bytes 4 120 ++ le_bytes 4 0 ++ le_bytes 4 64 ++ le_bytes 4 56 ++
  List.replicate 16 0 ++
  le_bytes 4 0x10 ++ le_bytes 4 0 ++ le_bytes 8 0x401000 ++ List.replicate 12 0 ++
  le_bytes 4 0x13 ++ le_bytes 4 119 ++ le_bytes 8 0x401003 ++ List.replicate 12 0 ++
  List.replicate 16 0 ++ [0x1a, 100] ++ List.replicate 100 0x41 ++ [0] ++
  List.replicate 16 0 ++ [0x1a, 3, 0x6d, 0x6f, 0x76, 0]

/-- A listing whose assembly table has the length 29: one record of 28 bytes and
one more byte.  The preprocessed table is at 93, the token stream is `mov`. -/
def partial_table_listing : List Byte :=
  List.replicate 32 0 ++ le_bytes 4 93 ++ le_bytes 4 0 ++ le_bytes 4 64 ++ le_bytes 4 29 ++
  List.replicate 16 0 ++
  le_bytes 4 0x10 ++ le_bytes 4 0 ++ le_bytes 8 0x401000 ++ List.replicate 12 0 ++
  [0xee] ++
  List.replicate 16 0 ++ [0x1a, 3, 0x6d, 0x6f, 0x76, 0]

/-- The members of `struct header`, the two members of each `struct table`
written out. -/
inductive HeaderMember where
  | signature | version_major | version_minor | header_length
  | input_file_string_offset | output_file_string_offset
  | strings_offset | strings_length | symbols_offset | symbols_length
  | preprocessed_offset | preprocessed_length | assembly_offset | assembly_length
  | section_names_offset | section_names_length
  | symbol_references_offset | symbol_references_length
  deriving DecidableEq, Repr

/-- Size in bytes of a member: `dd` is 4, `db` is 1, `dw` is 2. -/
def HeaderMember.size : HeaderMember → Nat
  | .version_major => 1
  | .version_minor => 1
  | .header_length => 2
  | _ => 4

/-- The members of `struct header` in the order of the declaration. -/
def header_members : List HeaderMember :=
  [.signature, .version_major, .version_minor, .header_length,
   .input_file_string_offset, .output_file_string_offset,
   .strings_offset, .strings_length, .symbols_offset, .symbols_length,
   .preprocessed_offset, .preprocessed_length, .assembly_offset, .assembly_length,
   .section_names_offset, .section_names_length,
   .symbol_references_offset, .symbol_references_length]

/-- Round `n` up to a multiple of `a`. -/
def align_up (n a : Nat) : Nat := (n + a - 1) / a * a

/-- Offset of a member in a struct laid out by the C rules: every member (a
scalar here) is placed at the next multiple of its size.  The second argument
is the offset reached so far. -/
def member_offset (m : HeaderMember) : List HeaderMember → Nat → Nat
  | [], off => off
  | x :: xs, off =>
    if x = m then align_up off x.size else member_offset m xs (align_up off x.size + x.size)

/-- The value of `offsetof (struct header, m)`. -/
def header_offsetof (m : HeaderMember) : Nat := member_offset m header_members 0

/-- The value of `sizeof (struct header)`: the end of the last member, rounded up to the
alignment of the struct, 4. -/
def header_sizeof : Nat :=
  align_up (header_offsetof .symbol_references_length + HeaderMember.size .symbol_references_length) 4

/-- The argument `output_fname` of the second `mmap_open` in `main`: the string
at `listing_file + hd->strings.offset + hd->output_file_string_offset`, as
`open` reads it. -/
def output_fname (listing_file : List Byte) : Outcome (List Byte) :=
  (load_dd listing_file (header_offsetof .strings_offset)).bind fun strings_offset =>
  (load_dd listing_file (header_offsetof .output_file_string_offset)).bind fun name_offset =>
  cstr (listing_file.drop (strings_offset + name_offset))

/-- A listing like `sample_listing` whose symbols table descriptor is
`(0xffffffff, 0xffffffff)`, far outside the 171 bytes of the listing. -/
def unchecked_header_listing : List Byte :=
  List.replicate 24 0 ++ le_bytes 4 0xffffffff ++ le_bytes 4 0xffffffff ++
  le_bytes 4 120 ++ le_bytes 4 0 ++ le_bytes 4 64 ++ le_bytes 4 56 ++
  List.replicate 16 0 ++
  le_bytes 4 0x10 ++ le_bytes 4 0 ++ le_bytes 8 0x401000 ++ List.replicate 12 0 ++
  le_bytes 4 0x13 ++ le_bytes 4 22 ++ le_bytes 8 0x401003 ++ List.replicate 12 0 ++
  List.replicate 16 0 ++ [0x1a, 3, 0x6d, 0x6f, 0x76, 0] ++
  List.replicate 16 0 ++ [0x1a, 3, 0x6d, 0x6f, 0x76, 0x1a, 3, 0x65, 0x61, 0x78, 0x2c, 0x31, 0x3b]

/-- A listing with one record whose token stream, the last four bytes of the
listing, is an identifier that declares 5 bytes where 2 are left. -/
def truncated_listing : List Byte :=
  List.replicate 32 0 ++ le_bytes 4 92 ++ le_bytes 4 0 ++ le_bytes 4 64 ++ le_bytes 4 28 ++
  List.replicate 16 0 ++
  le_bytes 4 0x10 ++ le_bytes 4 0 ++ le_bytes 8 0x401000 ++ List.replicate 12 0 ++
  List.replicate 16 0 ++ [0x1a, 5, 0x41, 0x41]

/-- Whether a token is a `,` or `:` literal, the characters printed without a
leading space. -/
def Token.is_punct : Token → Bool
  | .literalChar c => decide (c = 0x2c ∨ c = 0x3a)
  | _ => false

/-- Whether a line of tokens ends with a `,` or `:` literal. -/
def ends_with_punct : List Token → Bool
  | [] => false
  | [t] => t.is_punct
  | _ :: t :: ts => ends_with_punct (t :: ts)

/-- What the decoder answers for a line of tokens whose rendering, with the
terminator, fits the capacity `len`: `false` and the text before the last
token when the rendering takes `len - 1` characters and ends with a `,` or `:`
literal, else `true` and the rendering. -/
def expected_decode (ts : List Token) (len : Int) : Bool × List Byte :=
  if ((render_tokens ts).length : Int) + 1 = len ∧ ends_with_punct ts = true then
    (false, render_tokens ts.dropLast)
  else (true, render_tokens ts)

/-- A listing with three records: record 0 (output offset 8) has an identifier of
100 bytes as its token stream, which does not fit the line buffer; records 1 and
2 (output offsets `0x10` and `0x13`) both use the token stream `mov`. -/
def repeated_listing : List Byte :=
  List.replicate 32 0 ++ le_bytes 4 148 ++ le_bytes 4 0 ++ le_bytes 4 64 ++ le_bytes 4 84 ++
  List.replicate 16 0 ++
  le_bytes 4 0x08 ++ le_bytes 4 0 ++ le_bytes 8 0x401000 ++ List.replicate 12 0 ++
  le_bytes 4 0x10 ++ le_bytes 4 119 ++ le_bytes 8 0x401008 ++ List.replicate 12 0 ++
  le_bytes 4 0x13 ++ le_bytes 4 119 ++ le_bytes 8 0x40100b ++ List.replicate 12 0 ++
  List.replicate 16 0 ++ [0x1a, 100] ++ List.replicate 100 0x41 ++ [0] ++
  List.replicate 16 0 ++ [0x1a, 3, 0x6d, 0x6f, 0x76, 0]

/-- The three report lines of `repeated_listing` with `sample_output`. -/
def repeated_lines : List ReportLine :=
  [⟨0, 0x401000,
      [0x30, 0x30, 0x20, 0x30, 0x30, 0x20, 0x30, 0x30, 0x20, 0x30, 0x30, 0x20,
        0x30, 0x30, 0x20, 0x30, 0x30, 0x20, 0x30, 0x30, 0x20, 0x30, 0x30],
      placeholder⟩,
   ⟨1, 0x401008, [0x62, 0x38, 0x20, 0x30, 0x30, 0x20, 0x30, 0x30] ++ List.replicate 15 0x20,
      [0x20, 0x6d, 0x6f, 0x76]⟩,
   ⟨2, 0x40100b, List.replicate 23 0x20, [0x20, 0x6d, 0x6f, 0x76]⟩]

/-! ## Memory lemmas -/

@[simp] theorem Outcome.bind_ret {α β : Type} (a : α) (f : α → Outcome β) :
    (Outcome.ret a).bind f = f a := rfl

@[simp] theorem Outcome.bind_undefined {α β : Type} (f : α → Outcome β) :
    (Outcome.undefined : Outcome α).bind f = .undefined := rfl

@[simp] theorem Outcome.bind_outOfFuel {α β : Type} (f : α → Outcome β) :
    (Outcome.outOfFuel : Outcome α).bind f = .outOfFuel := rfl

theorem Outcome.bind_eq_ret {α β : Type} {x : Outcome α} {f : α → Outcome β} {b : β}
    (h : x.bind f = .ret b) : ∃ a, x = .ret a ∧ f a = .ret b := by
  cases x with
  | ret a => exact ⟨a, rfl, h⟩
  | undefined => cases h
  | outOfFuel => cases h

theorem wrap32_of_range (x : Int) (h1 : -2147483648 ≤ x) (h2 : x < 2147483648) :
    wrap32 x = x := by
  unfold wrap32; omega

theorem load_of_drop {src : List Byte} {p : Nat} {x : Byte} {r : List Byte}
    (h : src.drop p = x :: r) : load src p = .ret x := by
  have h0 : (src.drop p)[0]? = some x := by rw [h]; simp
  rw [List.getElem?_drop] at h0
  simp only [Nat.add_zero] at h0
  simp [load, h0]

theorem length_of_drop {src : List Byte} {p : Nat} {l : List Byte}
    (h : src.drop p = l) : l.length = src.length - p := by
  rw [← h, List.length_drop]

theorem drop_add_of_drop {src : List Byte} {p : Nat} {b r : List Byte}
    (h : src.drop p = b ++ r) : src.drop (p + b.length) = r := by
  rw [← List.drop_drop, h, List.drop_left]

theorem load_bytes_of_drop {src : List Byte} {p : Nat} {b : List Byte} {x : Byte}
    {r : List Byte} (h : src.drop p = b ++ x :: r) :
    load_bytes src p b.length = .ret b := by
  have hl := length_of_drop h
  simp only [List.length_append, List.length_cons] at hl
  have : p + b.length ≤ src.length := by omega
  simp [load_bytes, this, h]

theorem splice_length (buf : List Byte) (pos : Nat) (data : List Byte)
    (h : pos + data.length ≤ buf.length) : (splice buf pos data).length = buf.length := by
  simp only [splice, List.length_append, List.length_take, List.length_drop]
  omega

theorem splice_splice (buf : List Byte) (pos : Nat) (a b : List Byte)
    (h : pos + a.length ≤ buf.length) :
    splice (splice buf pos a) (pos + a.length) b = splice buf pos (a ++ b) := by
  have h1 : (buf.take pos ++ a).length = pos + a.length := by
    simp only [List.length_append, List.length_take]; omega
  have e1 : (splice buf pos a).take (pos + a.length) = buf.take pos ++ a := by
    unfold splice
    rw [← h1, List.take_left]
  have e2 : (splice buf pos a).drop (pos + a.length + b.length) =
      buf.drop (pos + (a ++ b).length) := by
    unfold splice
    rw [← h1, List.drop_append, List.drop_drop, h1, List.length_append]
    congr 1; omega
  unfold splice at e1 e2 ⊢
  rw [e1, e2]
  simp [List.append_assoc]

theorem store_eq_splice (buf : List Byte) (pos : Nat) (v : Byte) (h : pos < buf.length) :
    store buf pos v = .ret (splice buf pos [v]) := by
  simp [store, h, splice, List.set_eq_take_append_cons_drop]

theorem memcpy_of_drop {src : List Byte} {p : Nat} {b r : List Byte}
    (h : src.drop p = b ++ r) (hp : p ≤ src.length) (dst : List Byte) (d : Nat)
    (hd : d + b.length ≤ dst.length) :
    memcpy dst d src p (b.length : Int) = .ret (splice dst d b) := by
  have hl := length_of_drop h
  simp only [List.length_append] at hl
  have : p + b.length ≤ src.length := by omega
  simp [memcpy, this, hd, h, splice]

theorem lt_length_of_drop {src : List Byte} {p : Nat} {x : Byte} {r : List Byte}
    (h : src.drop p = x :: r) : p < src.length := by
  have := length_of_drop h
  simp only [List.length_cons] at this
  omega

theorem encode_tokens_tail_ne_nil (ts : List Token) (term : Byte) (trailing : List Byte) :
    ∃ x r, encode_tokens ts ++ term :: trailing = x :: r := by
  cases h : encode_tokens ts ++ term :: trailing with
  | nil => simp at h
  | cons x r => exact ⟨x, r, rfl⟩

theorem le_bytes_length (n v : Nat) : (le_bytes n v).length = n := by
  induction n generalizing v with
  | zero => rfl
  | succ n ih => simp [le_bytes, ih]

theorem le_value_le_bytes (n v : Nat) : le_value (le_bytes n v) = v % 256 ^ n := by
  induction n generalizing v with
  | zero => simp [le_bytes, le_value, Nat.mod_one]
  | succ n ih =>
    simp only [le_bytes, le_value, ih, Fin.ofNat, Nat.mod_mod]
    rw [pow_succ, Nat.mul_comm (256 ^ n) 256, Nat.mod_mul]

/-- One pass of the decoder loop over an encoded token list followed by a
terminator: the rendering is written at `pos` and the zero terminator after it. -/
theorem fmt_preprocessed_loop_tokens (src : List Byte) (term : Byte) (trailing : List Byte)
    (hterm : term = 0x3b ∨ term = 0) :
    ∀ (ts : List Token) (fuel : Nat) (buf : List Byte) (pos : Nat) (len : Int) (tokens : Nat),
      (∀ t ∈ ts, t.wf) → ts.length < fuel → len < 2147483648 →
      ((render_tokens ts).length : Int) + 3 ≤ len →
      (pos : Int) + len ≤ buf.length →
      src.drop tokens = encode_tokens ts ++ term :: trailing →
      fmt_preprocessed_loop src fuel buf pos len tokens =
        .ret ⟨true, splice buf pos (render_tokens ts ++ [0]),
          pos + (render_tokens ts).length⟩ := by
  intro ts
  induction ts with
  | nil =>
    intro fuel buf pos len tokens _ hfuel hlen hr hbuf hsrc
    obtain ⟨fuel, rfl⟩ : ∃ f, fuel = f + 1 := ⟨fuel - 1, by simp at hfuel; omega⟩
    simp only [encode_tokens, List.nil_append] at hsrc
    simp only [render_tokens, List.length_nil] at hr ⊢
    have hp : pos < buf.length := by omega
    rw [fmt_preprocessed_loop, load_of_drop hsrc]
    rcases hterm with rfl | rfl
    · simp [store_eq_splice _ _ _ hp]
    · simp [store_eq_splice _ _ _ hp]
  | cons t ts ih =>
    intro fuel buf pos len tokens hwf hfuel hlen hr hbuf hsrc
    obtain ⟨fuel, rfl⟩ : ∃ f, fuel = f + 1 := ⟨fuel - 1, by simp at hfuel; omega⟩
    have hwf' : ∀ t ∈ ts, t.wf := fun t ht => hwf t (List.mem_cons_of_mem _ ht)
    have hfuel' : ts.length < fuel := by simp at hfuel; omega
    have hwt := hwf t (List.mem_cons_self _ _)
    obtain ⟨x, r, hxr⟩ := encode_tokens_tail_ne_nil ts term trailing
    cases t with
    | identifier b =>
      simp only [Token.wf] at hwt
      simp only [encode_tokens, Token.encode, List.cons_append] at hsrc
      simp only [render_tokens, Token.render, List.cons_append, List.length_cons,
        List.length_append] at hr ⊢
      have h1 : src.drop (tokens + 1) =
          Fin.ofNat b.length :: (b ++ (encode_tokens ts ++ term :: trailing)) := by
        have := drop_add_of_drop (b := [0x1a]) (by simpa using hsrc)
        simpa [List.append_assoc] using this
      have h2 : src.drop (tokens + 2) = b ++ (encode_tokens ts ++ term :: trailing) := by
        have := drop_add_of_drop (b := [0x1a, Fin.ofNat b.length]) (by simpa using hsrc)
        simpa [List.append_assoc] using this
      have h3 : src.drop (tokens + 2 + b.length) = encode_tokens ts ++ term :: trailing :=
        drop_add_of_drop h2
      have hsx : sx8 (Fin.ofNat b.length : Byte) = (b.length : Int) := by
        have : b.length % 256 = b.length := by omega
        simp [sx8, Fin.ofNat, this]
        omega
      have hp : pos < buf.length := by omega
      have hlt2 : tokens + 2 ≤ src.length := by
        have := lt_length_of_drop h1; omega
      rw [fmt_preprocessed_loop, load_of_drop hsrc]
      simp only [Outcome.bind_ret, if_true]
      rw [load_of_drop h1]
      simp only [Outcome.bind_ret, hsx]
      rw [if_neg (by omega), store_eq_splice _ _ _ hp]
      simp only [Outcome.bind_ret]
      rw [memcpy_of_drop h2 hlt2 _ _ (by rw [splice_length _ _ _ (by simpa using hp)]; omega)]
      simp only [Outcome.bind_ret, Int.toNat_ofNat]
      rw [wrap32_of_range _ (by omega) (by omega)]
      have hb1 : (splice buf pos [0x20]).length = buf.length :=
        splice_length _ _ _ (by simpa using hp)
      have hb2 : (splice (splice buf pos [0x20]) (pos + 1) b).length = buf.length := by
        rw [splice_length _ _ _ (by rw [hb1]; omega), hb1]
      rw [ih fuel _ _ _ _ hwf' hfuel' (by omega) (by omega)
        (by rw [hb2]; push_cast; omega) h3]
      have e := splice_splice buf pos [0x20] b (by simpa using hp)
      simp only [List.length_singleton] at e
      rw [e]
      have e2 := splice_splice buf pos ([0x20] ++ b) (render_tokens ts ++ [0])
        (by simp only [List.length_append, List.length_singleton]; omega)
      simp only [List.length_append, List.length_singleton] at e2
      rw [show pos + 1 + b.length = pos + (1 + b.length) by omega, e2]
      simp only [List.singleton_append, List.cons_append, List.append_assoc]
      congr 2
      omega
    | stringLiteral b =>
      simp only [encode_tokens, Token.encode, List.cons_append] at hsrc
      simp only [render_tokens, Token.render, List.cons_append, List.length_cons,
        List.length_append, List.length_singleton, List.length_nil] at hr ⊢
      have h1 : src.drop (tokens + 1) =
          le_bytes 4 b.length ++ (b ++ (encode_tokens ts ++ term :: trailing)) := by
        have := drop_add_of_drop (b := [0x22]) (by simpa using hsrc)
        simpa [List.append_assoc] using this
      have h2 : src.drop (tokens + 5) = b ++ (encode_tokens ts ++ term :: trailing) := by
        have := drop_add_of_drop h1
        rw [le_bytes_length] at this
        exact this
      have h3 : src.drop (tokens + 5 + b.length) = encode_tokens ts ++ term :: trailing :=
        drop_add_of_drop h2
      have hlt1 : tokens + 1 ≤ src.length := by
        have := lt_length_of_drop hsrc; omega
      have hlt5 : tokens + 5 ≤ src.length := by
        have := length_of_drop h1
        simp only [List.length_append, le_bytes_length] at this
        omega
      have hld : load_int src (tokens + 1) = .ret (b.length : Int) := by
        have hl4 : load_bytes src (tokens + 1) 4 = .ret (le_bytes 4 b.length) := by
          have hlen4 := length_of_drop h1
          simp only [List.length_append, le_bytes_length] at hlen4
          have hle : tokens + 1 + 4 ≤ src.length := by omega
          have ht : (src.drop (tokens + 1)).take 4 = le_bytes 4 b.length := by
            rw [h1]
            have := List.take_left (le_bytes 4 b.length)
              (b ++ (encode_tokens ts ++ term :: trailing))
            rw [le_bytes_length] at this
            exact this
          simp [load_bytes, hle, ht]
        have hmod : b.length % 256 ^ 4 = b.length := by
          apply Nat.mod_eq_of_lt
          norm_num
          omega
        simp only [load_int, load_dd, hl4, Outcome.bind_ret, le_value_le_bytes, hmod]
        rw [wrap32_of_range _ (by omega) (by omega)]
      have hp : pos + 1 < buf.length := by omega
      have hp0 : pos < buf.length := by omega
      rw [fmt_preprocessed_loop, load_of_drop hsrc]
      simp only [Outcome.bind_ret]
      rw [if_neg (by decide), if_pos trivial, hld, Outcome.bind_ret]
      rw [wrap32_of_range ((b.length : Int) + 2) (by omega) (by omega),
        wrap32_of_range ((b.length : Int) + 3) (by omega) (by omega),
        wrap32_of_range (len - ((b.length : Int) + 3)) (by omega) (by omega)]
      rw [if_neg (by omega), store_eq_splice _ _ _ hp0]
      simp only [Outcome.bind_ret]
      have hb1 : (splice buf pos [0x20]).length = buf.length :=
        splice_length _ _ _ (by simpa using hp0)
      rw [store_eq_splice _ _ _ (by rw [hb1]; exact hp)]
      simp only [Outcome.bind_ret]
      have e1 := splice_splice buf pos [0x20] [0x22] (by simpa using hp0)
      simp only [List.length_singleton] at e1
      rw [e1]
      have hb2 : (splice buf pos ([0x20] ++ [0x22])).length = buf.length :=
        splice_length _ _ _ (by simp only [List.length_append, List.length_singleton]; omega)
      rw [memcpy_of_drop h2 hlt5 _ _ (by rw [hb2]; omega)]
      simp only [Outcome.bind_ret, Int.toNat_ofNat]
      have e2 := splice_splice buf pos ([0x20] ++ [0x22]) b
        (by simp only [List.length_append, List.length_singleton]; omega)
      simp only [List.length_append, List.length_singleton] at e2
      rw [show pos + 2 = pos + (1 + 1) by omega, e2]
      have hb3 : (splice buf pos ([0x20] ++ [0x22] ++ b)).length = buf.length :=
        splice_length _ _ _ (by simp only [List.length_append, List.length_singleton]; omega)
      rw [store_eq_splice _ _ _ (by rw [hb3]; omega)]
      simp only [Outcome.bind_ret]
      have e3 := splice_splice buf pos ([0x20] ++ [0x22] ++ b) [0x22]
        (by simp only [List.length_append, List.length_singleton]; omega)
      simp only [List.length_append, List.length_singleton] at e3
      rw [show pos + (1 + 1) + b.length = pos + (1 + 1 + b.length) by omega, e3]
      have hb4 : (splice buf pos ([0x20] ++ [0x22] ++ b ++ [0x22])).length = buf.length :=
        splice_length _ _ _ (by simp only [List.length_append, List.length_singleton]; omega)
      rw [ih fuel _ _ _ _ hwf' hfuel' (by omega) (by omega)
        (by rw [hb4]; push_cast; omega) h3]
      have e4 := splice_splice buf pos ([0x20] ++ [0x22] ++ b ++ [0x22]) (render_tokens ts ++ [0])
        (by simp only [List.length_append, List.length_singleton]; omega)
      simp only [List.length_append, List.length_singleton] at e4
      rw [show pos + (1 + 1 + b.length) + 1 = pos + (1 + 1 + b.length + 1) by omega, e4]
      simp only [List.singleton_append, List.cons_append, List.append_assoc, List.nil_append]
      congr 2
      omega
    | literalChar c =>
      simp only [Token.wf] at hwt
      obtain ⟨hc1, hc2, hc3, hc4⟩ := hwt
      simp only [encode_tokens, Token.encode, List.cons_append, List.nil_append] at hsrc
      have h3 : src.drop (tokens + 1) = encode_tokens ts ++ term :: trailing := by
        have := drop_add_of_drop (b := [c]) (by simpa using hsrc)
        simpa using this
      have hrl : 1 ≤ (Token.literalChar c).render.length := by
        simp only [Token.render]; split <;> simp
      simp only [render_tokens, List.length_append] at hr
      have hp0 : pos < buf.length := by omega
      rw [fmt_preprocessed_loop, load_of_drop hsrc]
      simp only [Outcome.bind_ret]
      rw [if_neg hc1, if_neg hc2, if_neg (by simp [hc3, hc4]), if_neg (by omega)]
      by_cases hpunct : c = 0x2c ∨ c = 0x3a
      · have hnp : ¬ (c ≠ 0x2c ∧ c ≠ 0x3a) := by
          rcases hpunct with h | h <;> simp [h]
        have hrd : (Token.literalChar c).render = [c] := by simp [Token.render, hpunct]
        rw [hrd] at hr
        simp only [List.length_singleton] at hr
        rw [if_neg hnp, store_eq_splice _ _ _ hp0]
        simp only [Outcome.bind_ret]
        rw [wrap32_of_range _ (by omega) (by omega)]
        have hb1 : (splice buf pos [c]).length = buf.length :=
          splice_length _ _ _ (by simpa using hp0)
        rw [ih fuel _ _ _ _ hwf' hfuel' (by omega) (by omega)
          (by rw [hb1]; omega) h3]
        have e1 := splice_splice buf pos [c] (render_tokens ts ++ [0]) (by simpa using hp0)
        simp only [List.length_singleton] at e1
        rw [e1]
        simp only [render_tokens, hrd, List.singleton_append, List.cons_append,
          List.length_cons, List.append_assoc, List.nil_append]
        congr 2
        omega
      · have hnp : c ≠ 0x2c ∧ c ≠ 0x3a := by
          constructor
          · intro h; exact hpunct (Or.inl h)
          · intro h; exact hpunct (Or.inr h)
        have hrd : (Token.literalChar c).render = [0x20, c] := by simp [Token.render, hpunct]
        rw [hrd] at hr
        simp only [List.length_cons, List.length_nil] at hr
        have hp1 : pos + 1 < buf.length := by omega
        rw [if_pos hnp, store_eq_splice _ _ _ hp0]
        simp only [Outcome.bind_ret]
        have hb1 : (splice buf pos [0x20]).length = buf.length :=
          splice_length _ _ _ (by simpa using hp0)
        rw [store_eq_splice _ _ _ (by rw [hb1]; exact hp1)]
        simp only [Outcome.bind_ret]
        have e1 := splice_splice buf pos [0x20] [c] (by simpa using hp0)
        simp only [List.length_singleton] at e1
        rw [e1]
        rw [wrap32_of_range (len - 1) (by omega) (by omega),
          wrap32_of_range _ (by omega) (by omega)]
        have hb2 : (splice buf pos ([0x20] ++ [c])).length = buf.length :=
          splice_length _ _ _ (by simp only [List.length_append, List.length_singleton]; omega)
        rw [ih fuel _ _ _ _ hwf' hfuel' (by omega) (by omega)
          (by rw [hb2]; push_cast; omega) h3]
        have e2 := splice_splice buf pos ([0x20] ++ [c]) (render_tokens ts ++ [0])
          (by simp only [List.length_append, List.length_singleton]; omega)
        simp only [List.length_append, List.length_singleton] at e2
        rw [show pos + 2 = pos + (1 + 1) by omega, e2]
        simp only [render_tokens, hrd, List.singleton_append, List.cons_append,
          List.length_cons, List.append_assoc, List.nil_append, List.length_nil]
        congr 2
        omega

theorem encode_tokens_length_ge (ts : List Token) : ts.length ≤ (encode_tokens ts).length := by
  induction ts with
  | nil => simp [encode_tokens]
  | cons t ts ih =>
    have : 1 ≤ t.encode.length := by cases t <;> simp [Token.encode]
    simp only [encode_tokens, List.length_cons, List.length_append]
    omega

/-- C1. Round trip of `fmt_preprocessed`: for every list of well-formed tokens
whose rendering has at most `cap - 3` characters, every terminator `0x3B` or
`0x00`, every trailing bytes (and whatever comes before the token stream in the
object), decoding the encoded stream with capacity `cap` returns `true`, the
bytes written at the start of the buffer are exactly the concatenation of the
token renderings followed by the zero terminator, and nothing else of the buffer
is changed. -/
theorem fmt_preprocessed_round_trip (ts : List Token) (term : Byte)
    (before trailing buf : List Byte) (cap : Nat)
    (hwf : ∀ t ∈ ts, t.wf) (hterm : term = 0x3b ∨ term = 0)
    (hcap : cap < 2147483648) (hbuf : cap ≤ buf.length)
    (hfit : (render_tokens ts).length + 3 ≤ cap) :
    fmt_preprocessed buf cap (before ++ (encode_tokens ts ++ term :: trailing)) before.length =
      .ret ⟨true,
        render_tokens ts ++ 0 :: buf.drop ((render_tokens ts).length + 1),
        (render_tokens ts).length⟩ := by
  have hsrc : (before ++ (encode_tokens ts ++ term :: trailing)).drop before.length =
      encode_tokens ts ++ term :: trailing := List.drop_left _ _
  have hfuel : ts.length <
      (before ++ (encode_tokens ts ++ term :: trailing)).length - before.length + 1 := by
    have := encode_tokens_length_ge ts
    simp only [List.length_append, List.length_cons]
    omega
  unfold fmt_preprocessed
  rw [fmt_preprocessed_loop_tokens _ term trailing hterm ts _ buf 0 cap before.length hwf hfuel
    (by omega) (by omega) (by omega) hsrc]
  simp [splice, List.append_assoc]

/-- C1, witness: the tokens `mov` `,` `eax`, encoded as
`1A 03 6D 6F 76 2C 1A 03 65 61 78`, then `3B` and a trailing byte, decode to
` mov, eax` in a buffer of 16 bytes. -/
theorem fmt_preprocessed_round_trip_witness :
    fmt_preprocessed (List.replicate 16 0xff) 16
        [0x1a, 3, 0x6d, 0x6f, 0x76, 0x2c, 0x1a, 3, 0x65, 0x61, 0x78, 0x3b, 0x41] 0 =
      .ret ⟨true, [0x20, 0x6d, 0x6f, 0x76, 0x2c, 0x20, 0x65, 0x61, 0x78, 0,
        0xff, 0xff, 0xff, 0xff, 0xff, 0xff], 9⟩ :=
  fmt_preprocessed_round_trip
    [.identifier [0x6d, 0x6f, 0x76], .literalChar 0x2c, .identifier [0x65, 0x61, 0x78]]
    0x3b [] [0x41] (List.replicate 16 0xff) 16
    (by decide) (by decide) (by decide) (by decide) (by decide)

/-- C2, the code at the failing input: a string literal of 77 bytes followed by
a terminator, decoded with capacity 80.  The check `tlen + 2 >= len` lets the
80 characters of the expansion through, and the zero terminator is written at
index 80: into the byte after the capacity when the object is larger (here 81
bytes, the last one `0xff` before the call), outside the object when it has
exactly 80 bytes like `pbuf`. -/
theorem fmt_preprocessed_terminator_past_capacity :
    fmt_preprocessed (List.replicate 81 0xff) 80
        (0x22 :: (le_bytes 4 77 ++ (List.replicate 77 0x41 ++ [0]))) 0 =
      .ret ⟨true, 0x20 :: 0x22 :: (List.replicate 77 0x41 ++ [0x22, 0]), 80⟩ ∧
    fmt_preprocessed (List.replicate 80 0xff) 80
        (0x22 :: (le_bytes 4 77 ++ (List.replicate 77 0x41 ++ [0]))) 0 = .undefined := by
  constructor <;> decide

/-! ## The decoder as a function of the room left -/

theorem Outcome.bind_assoc {α β γ : Type} (x : Outcome α) (f : α → Outcome β)
    (g : β → Outcome γ) : (x.bind f).bind g = x.bind fun a => (f a).bind g := by
  cases x <;> rfl

theorem splice_nil (buf : List Byte) (pos : Nat) : splice buf pos [] = buf := by
  simp [splice]

theorem store_eq (buf : List Byte) (pos : Nat) (v : Byte) :
    store buf pos v =
      if buf.length - pos < 1 then .undefined else .ret (splice buf pos [v]) := by
  by_cases h : pos < buf.length
  · rw [store_eq_splice _ _ _ h, if_neg (by omega)]
  · rw [if_pos (by omega)]
    simp [store, h]

theorem memcpy_eq (dst : List Byte) (d : Nat) (src : List Byte) (s : Nat) (n : Int) :
    memcpy dst d src s n =
      if n < 0 then .undefined
      else if s + n.toNat ≤ src.length ∧ d + n.toNat ≤ dst.length then
        .ret (splice dst d ((src.drop s).take n.toNat))
      else .undefined := by
  unfold memcpy
  by_cases h : n < 0
  · rw [if_pos h, if_pos h]
  · rw [if_neg h, if_neg h]
    by_cases h2 : s + n.toNat ≤ src.length ∧ d + n.toNat ≤ dst.length
    · rw [if_pos h2, if_pos h2]
      have : ((src.drop s).take n.toNat).length = n.toNat := by
        rw [List.length_take, List.length_drop]; omega
      simp only [splice, this]
    · rw [if_neg h2, if_neg h2]

/-- The loop of `fmt_preprocessed` writes what `decode_loop` says, from `pos` on. -/
theorem fmt_preprocessed_loop_eq_decode (src : List Byte) :
    ∀ (fuel : Nat) (buf : List Byte) (pos : Nat) (len : Int) (tokens : Nat),
      pos ≤ buf.length →
      fmt_preprocessed_loop src fuel buf pos len tokens =
        (decode_loop src fuel (buf.length - pos) len tokens).bind fun r =>
          .ret (written buf pos r) := by
  intro fuel
  induction fuel with
  | zero => intro buf pos len tokens _; rfl
  | succ fuel ih =>
    intro buf pos len tokens hpos
    rw [fmt_preprocessed_loop, decode_loop]
    cases hc : load src tokens with
    | undefined => rfl
    | outOfFuel => rfl
    | ret c =>
      rw [Outcome.bind_ret, Outcome.bind_ret]
      by_cases h1 : c = 0x1a
      · rw [if_pos h1, if_pos h1]
        cases hl : load src (tokens + 1) with
        | undefined => rfl
        | outOfFuel => rfl
        | ret l =>
          rw [Outcome.bind_ret, Outcome.bind_ret]
          generalize sx8 l = tlen
          by_cases h2 : tlen + 1 ≥ len
          · rw [if_pos h2, if_pos h2, Outcome.bind_ret]
            simp [written, splice_nil]
          · rw [if_neg h2, if_neg h2, store_eq]
            by_cases h3 : buf.length - pos < 1
            · rw [if_pos h3, if_pos h3]; rfl
            · rw [if_neg h3, if_neg h3, Outcome.bind_ret, memcpy_eq]
              by_cases h4 : tlen < 0
              · rw [if_pos h4, if_pos h4]; rfl
              · rw [if_neg h4, if_neg h4]
                have hb1 : (splice buf pos [0x20]).length = buf.length :=
                  splice_length _ _ _ (by simp only [List.length_singleton]; omega)
                rw [hb1]
                by_cases h5 : tokens + 2 + tlen.toNat ≤ src.length ∧
                    1 + tlen.toNat ≤ buf.length - pos
                · have h5' : tokens + 2 + tlen.toNat ≤ src.length ∧
                      pos + 1 + tlen.toNat ≤ buf.length := ⟨h5.1, by omega⟩
                  have hcl : ((src.drop (tokens + 2)).take tlen.toNat).length = tlen.toNat := by
                    rw [List.length_take, List.length_drop]; omega
                  rw [if_pos h5, if_pos h5', Outcome.bind_ret, Outcome.bind_assoc]
                  have e1 := splice_splice buf pos [0x20] ((src.drop (tokens + 2)).take tlen.toNat)
                    (by simp only [List.length_singleton]; omega)
                  simp only [List.length_singleton] at e1
                  rw [e1]
                  have hb2 : (splice buf pos
                      ([0x20] ++ (src.drop (tokens + 2)).take tlen.toNat)).length = buf.length :=
                    splice_length _ _ _ (by
                      simp only [List.length_append, List.length_singleton, hcl]; omega)
                  rw [ih _ _ _ _ (by rw [hb2]; omega), hb2]
                  rw [show buf.length - (pos + 1 + tlen.toNat) =
                    buf.length - pos - (1 + tlen.toNat) by omega]
                  congr 1
                  funext r
                  rw [Outcome.bind_ret]
                  congr 1
                  unfold written
                  have e2 := splice_splice buf pos
                    ([0x20] ++ (src.drop (tokens + 2)).take tlen.toNat)
                    (r.2 ++ if r.1 = true then [0] else [])
                    (by simp only [List.length_append, List.length_singleton, hcl]; omega)
                  simp only [List.length_append, List.length_singleton, hcl] at e2
                  rw [show pos + 1 + tlen.toNat = pos + (1 + tlen.toNat) by omega, e2]
                  simp only [List.singleton_append, List.cons_append, List.append_assoc,
                    List.length_cons, List.length_append, hcl]
                  congr 1
                  omega
                · have h5' : ¬ (tokens + 2 + tlen.toNat ≤ src.length ∧
                      pos + 1 + tlen.toNat ≤ buf.length) := by
                    intro h; exact h5 ⟨h.1, by omega⟩
                  rw [if_neg h5, if_neg h5']; rfl
      · rw [if_neg h1, if_neg h1]
        by_cases h2 : c = 0x22
        · rw [if_pos h2, if_pos h2]
          cases hl : load_int src (tokens + 1) with
          | undefined => rfl
          | outOfFuel => rfl
          | ret tlen =>
            rw [Outcome.bind_ret, Outcome.bind_ret]
            generalize wrap32 (tlen + 2) = w2
            generalize wrap32 (len - wrap32 (tlen + 3)) = len2
            by_cases h3 : w2 ≥ len
            · rw [if_pos h3, if_pos h3, Outcome.bind_ret]
              simp [written, splice_nil]
            · rw [if_neg h3, if_neg h3, store_eq]
              by_cases h4 : buf.length - pos < 2
              · rw [if_pos h4]
                by_cases h4' : buf.length - pos < 1
                · rw [if_pos h4']; rfl
                · have hb1 : (splice buf pos [0x20]).length = buf.length :=
                    splice_length _ _ _ (by simp only [List.length_singleton]; omega)
                  rw [if_neg h4', Outcome.bind_ret, store_eq, hb1, if_pos (by omega)]; rfl
              · have hb1 : (splice buf pos [0x20]).length = buf.length :=
                  splice_length _ _ _ (by simp only [List.length_singleton]; omega)
                rw [if_neg h4, if_neg (by omega), Outcome.bind_ret, store_eq, hb1,
                  if_neg (by omega), Outcome.bind_ret, memcpy_eq]
                have e1 := splice_splice buf pos [0x20] [0x22]
                  (by simp only [List.length_singleton]; omega)
                simp only [List.length_singleton] at e1
                rw [e1]
                have hb2 : (splice buf pos ([0x20] ++ [0x22])).length = buf.length :=
                  splice_length _ _ _ (by
                    simp only [List.length_append, List.length_singleton]; omega)
                rw [hb2]
                by_cases h5 : tlen < 0
                · rw [if_pos h5, if_pos h5]; rfl
                · rw [if_neg h5, if_neg h5]
                  by_cases h6 : tokens + 5 + tlen.toNat ≤ src.length ∧
                      2 + tlen.toNat + 1 ≤ buf.length - pos
                  · have hcl : ((src.drop (tokens + 5)).take tlen.toNat).length =
                        tlen.toNat := by
                      rw [List.length_take, List.length_drop]; omega
                    rw [if_pos h6, if_pos ⟨h6.1, by omega⟩, Outcome.bind_ret, Outcome.bind_assoc]
                    have e2 := splice_splice buf pos ([0x20] ++ [0x22])
                      ((src.drop (tokens + 5)).take tlen.toNat)
                      (by simp only [List.length_append, List.length_singleton]; omega)
                    simp only [List.length_append, List.length_singleton] at e2
                    rw [show pos + 2 = pos + (1 + 1) by omega, e2]
                    have hb3 : (splice buf pos ([0x20] ++ [0x22] ++
                        (src.drop (tokens + 5)).take tlen.toNat)).length = buf.length :=
                      splice_length _ _ _ (by
                        simp only [List.length_append, List.length_singleton, hcl]; omega)
                    rw [store_eq, hb3, if_neg (by omega), Outcome.bind_ret]
                    have e3 := splice_splice buf pos ([0x20] ++ [0x22] ++
                        (src.drop (tokens + 5)).take tlen.toNat) [0x22]
                      (by simp only [List.length_append, List.length_singleton, hcl]; omega)
                    simp only [List.length_append, List.length_singleton, hcl] at e3
                    rw [show pos + (1 + 1) + tlen.toNat = pos + (1 + 1 + tlen.toNat) by omega, e3]
                    have hb4 : (splice buf pos ([0x20] ++ [0x22] ++
                        (src.drop (tokens + 5)).take tlen.toNat ++ [0x22])).length =
                        buf.length :=
                      splice_length _ _ _ (by
                        simp only [List.length_append, List.length_singleton, hcl]; omega)
                    rw [ih _ _ _ _ (by rw [hb4]; omega), hb4]
                    rw [show buf.length - (pos + (1 + 1 + tlen.toNat) + 1) =
                      buf.length - pos - (2 + tlen.toNat + 1) by omega]
                    congr 1
                    funext r
                    rw [Outcome.bind_ret]
                    congr 1
                    unfold written
                    have e4 := splice_splice buf pos ([0x20] ++ [0x22] ++
                        (src.drop (tokens + 5)).take tlen.toNat ++ [0x22])
                      (r.2 ++ if r.1 = true then [0] else [])
                      (by simp only [List.length_append, List.length_singleton, hcl]; omega)
                    simp only [List.length_append, List.length_singleton, hcl] at e4
                    rw [show pos + (1 + 1 + tlen.toNat) + 1 = pos + (1 + 1 + tlen.toNat + 1)
                      by omega, e4]
                    simp only [List.singleton_append, List.cons_append, List.append_assoc,
                      List.length_cons, List.length_append, hcl, List.nil_append]
                    congr 1
                    omega
                  · have h6' : ¬ (tokens + 5 + tlen.toNat ≤ src.length ∧
                        pos + 2 + tlen.toNat ≤ buf.length) ∨
                        (pos + 2 + tlen.toNat ≤ buf.length ∧ tokens + 5 + tlen.toNat ≤ src.length
                          ∧ buf.length - (pos + 2 + tlen.toNat) < 1) := by
                      by_cases hx : tokens + 5 + tlen.toNat ≤ src.length ∧
                          pos + 2 + tlen.toNat ≤ buf.length
                      · right
                        refine ⟨hx.2, hx.1, ?_⟩
                        by_contra hcon
                        exact h6 ⟨hx.1, by omega⟩
                      · left; exact hx
                    rw [if_neg h6]
                    rcases h6' with h7 | ⟨h7, h8, h9⟩
                    · rw [if_neg h7]; rfl
                    · have hcl : ((src.drop (tokens + 5)).take tlen.toNat).length =
                          tlen.toNat := by
                        rw [List.length_take, List.length_drop]; omega
                      have hb3 : (splice (splice buf pos ([0x20] ++ [0x22])) (pos + 2)
                          ((src.drop (tokens + 5)).take tlen.toNat)).length = buf.length := by
                        rw [splice_length _ _ _ (by rw [hb2, hcl]; omega), hb2]
                      rw [if_pos ⟨h8, h7⟩, Outcome.bind_ret, store_eq, hb3, if_pos h9]; rfl
        · rw [if_neg h2, if_neg h2]
          by_cases h3 : c = 0x3b ∨ c = 0
          · rw [if_pos h3, if_pos h3, store_eq]
            by_cases h4 : buf.length - pos < 1
            · rw [if_pos h4, if_pos h4]; rfl
            · rw [if_neg h4, if_neg h4, Outcome.bind_ret, Outcome.bind_ret]
              simp [written]
          · rw [if_neg h3, if_neg h3]
            by_cases h4 : len ≤ 2
            · rw [if_pos h4, if_pos h4, Outcome.bind_ret]
              simp [written, splice_nil]
            · rw [if_neg h4, if_neg h4]
              generalize wrap32 (wrap32 (len - 1) - 1) = len2
              generalize wrap32 (len - 1) = len1
              by_cases h5 : c ≠ 0x2c ∧ c ≠ 0x3a
              · rw [if_pos h5, if_pos h5, store_eq]
                by_cases h6 : buf.length - pos < 2
                · rw [if_pos h6]
                  by_cases h6' : buf.length - pos < 1
                  · rw [if_pos h6']; rfl
                  · have hb1 : (splice buf pos [0x20]).length = buf.length :=
                      splice_length _ _ _ (by simp only [List.length_singleton]; omega)
                    rw [if_neg h6', Outcome.bind_ret, store_eq, hb1, if_pos (by omega)]; rfl
                · have hb1 : (splice buf pos [0x20]).length = buf.length :=
                    splice_length _ _ _ (by simp only [List.length_singleton]; omega)
                  rw [if_neg h6, if_neg (by omega), Outcome.bind_ret, store_eq, hb1,
                    if_neg (by omega), Outcome.bind_ret, Outcome.bind_assoc]
                  have e1 := splice_splice buf pos [0x20] [c]
                    (by simp only [List.length_singleton]; omega)
                  simp only [List.length_singleton] at e1
                  rw [e1]
                  have hb2 : (splice buf pos ([0x20] ++ [c])).length = buf.length :=
                    splice_length _ _ _ (by
                      simp only [List.length_append, List.length_singleton]; omega)
                  rw [ih _ _ _ _ (by rw [hb2]; omega), hb2]
                  rw [show buf.length - (pos + 2) = buf.length - pos - 2 by omega]
                  congr 1
                  funext r
                  rw [Outcome.bind_ret]
                  congr 1
                  unfold written
                  have e2 := splice_splice buf pos ([0x20] ++ [c])
                    (r.2 ++ if r.1 = true then [0] else [])
                    (by simp only [List.length_append, List.length_singleton]; omega)
                  simp only [List.length_append, List.length_singleton] at e2
                  rw [show pos + 2 = pos + (1 + 1) by omega, e2]
                  simp only [List.singleton_append, List.cons_append, List.append_assoc,
                    List.length_cons, List.length_append, List.nil_append]
                  congr 1
                  omega
              · rw [if_neg h5, if_neg h5, store_eq]
                by_cases h6 : buf.length - pos < 1
                · rw [if_pos h6, if_pos h6]; rfl
                · rw [if_neg h6, if_neg h6, Outcome.bind_ret, Outcome.bind_assoc]
                  have hb1 : (splice buf pos [c]).length = buf.length :=
                    splice_length _ _ _ (by simp only [List.length_singleton]; omega)
                  rw [ih _ _ _ _ (by rw [hb1]; omega), hb1]
                  rw [show buf.length - (pos + 1) = buf.length - pos - 1 by omega]
                  congr 1
                  funext r
                  rw [Outcome.bind_ret]
                  congr 1
                  unfold written
                  have e2 := splice_splice buf pos [c]
                    (r.2 ++ if r.1 = true then [0] else [])
                    (by simp only [List.length_singleton]; omega)
                  simp only [List.length_singleton] at e2
                  rw [e2]
                  simp only [List.singleton_append, List.cons_append, List.append_assoc,
                    List.length_cons, List.length_append, List.nil_append]
                  congr 1
                  omega

/-! ## The byte column -/

theorem hex_eq_hex_digit (d : Nat) (h : d < 16) : hex d = hex_digit d := by
  interval_cases d <;> rfl

theorem splice_append (pre x rest d : List Byte) (h : d.length = x.length) :
    splice (pre ++ x ++ rest) pre.length d = pre ++ d ++ rest := by
  unfold splice
  have h1 : (pre ++ x ++ rest).take pre.length = pre := by
    rw [List.append_assoc, List.take_left]
  have h2 : (pre ++ x ++ rest).drop (pre.length + d.length) = rest := by
    rw [h, ← List.length_append, List.drop_left]
  rw [h1, h2, List.append_assoc]

theorem drop_eq_cons_of_lt (src : List Byte) (s : Nat) (h : s < src.length) :
    src.drop s = src.get ⟨s, h⟩ :: src.drop (s + 1) := by
  simp

theorem column_rec_length : ∀ (bs : List Byte) (room : Nat), (column_rec room bs).length = room
  | [], room => by simp [column_rec]
  | b :: bs, room => by
    unfold column_rec
    split
    · simp
    · split
      · simp [hex_pair]; omega
      · have := column_rec_length bs (room - 3)
        simp [hex_pair, this]; omega

/-- The loop of `fmt_bytes` writes `column_rec` into the blank slots. -/
theorem fmt_bytes_loop_eq (src : List Byte) :
    ∀ (count : Nat) (pre : List Byte) (room : Nat) (rest : List Byte) (s : Nat),
      (count = 0 ∨ s + min count (room / 3 + 1) ≤ src.length) →
      fmt_bytes_loop src count (pre ++ List.replicate room 0x20 ++ rest) pre.length room s =
        .ret (pre ++ column_rec room ((src.drop s).take count) ++ rest) := by
  intro count
  induction count with
  | zero =>
    intro pre room rest s _
    simp [fmt_bytes_loop, column_rec]
  | succ count ih =>
    intro pre room rest s hs
    have hlt : s < src.length := by omega
    have hd := drop_eq_cons_of_lt src s hlt
    rw [fmt_bytes_loop, load_of_drop hd, Outcome.bind_ret, hd, List.take_succ_cons]
    have hx1 : hex ((src.get ⟨s, hlt⟩).val / 16) = hex_digit ((src.get ⟨s, hlt⟩).val / 16) :=
      hex_eq_hex_digit _ (by have := (src.get ⟨s, hlt⟩).isLt; omega)
    have hx2 : hex ((src.get ⟨s, hlt⟩).val % 16) = hex_digit ((src.get ⟨s, hlt⟩).val % 16) :=
      hex_eq_hex_digit _ (by omega)
    rw [hx1, hx2]
    generalize src.get ⟨s, hlt⟩ = b
    by_cases h2 : room < 2
    · rw [if_pos (by omega)]
      simp [column_rec, h2]
    · rw [if_neg (by omega)]
      have hlen : (pre ++ List.replicate room 0x20 ++ rest).length =
          pre.length + room + rest.length := by simp; omega
      have hb1 : (splice (pre ++ List.replicate room 0x20 ++ rest) pre.length
          [hex_digit (b.val / 16)]).length = pre.length + room + rest.length := by
        rw [splice_length _ _ _ (by rw [hlen]; simp; omega), hlen]
      have e1 := splice_splice (pre ++ List.replicate room 0x20 ++ rest) pre.length
        [hex_digit (b.val / 16)] [hex_digit (b.val % 16)] (by rw [hlen]; simp; omega)
      simp only [List.length_singleton] at e1
      by_cases h3 : room = 2
      · subst h3
        rw [if_pos (by rfl), store_eq_splice _ _ _ (by rw [hlen]; omega), Outcome.bind_ret,
          store_eq_splice _ _ _ (by rw [hb1]; omega), Outcome.bind_ret, e1]
        rw [splice_append pre _ rest _ (by simp)]
        simp [column_rec, hex_pair]
      · rw [if_neg (by omega), store_eq_splice _ _ _ (by rw [hlen]; omega), Outcome.bind_ret,
          store_eq_splice _ _ _ (by rw [hb1]; omega), Outcome.bind_ret, e1]
        have hb2 : (splice (pre ++ List.replicate room 0x20 ++ rest) pre.length
            ([hex_digit (b.val / 16)] ++ [hex_digit (b.val % 16)])).length =
            pre.length + room + rest.length := by
          rw [splice_length _ _ _ (by rw [hlen]; simp; omega), hlen]
        rw [store_eq_splice _ _ _ (by rw [hb2]; omega), Outcome.bind_ret]
        have e2 := splice_splice (pre ++ List.replicate room 0x20 ++ rest) pre.length
          ([hex_digit (b.val / 16)] ++ [hex_digit (b.val % 16)]) [0x20]
          (by rw [hlen]; simp; omega)
        simp only [List.length_append, List.length_singleton] at e2
        rw [show pre.length + 2 = pre.length + (1 + 1) by omega, e2]
        have hrep : List.replicate room (0x20 : Byte) =
            List.replicate 3 0x20 ++ List.replicate (room - 3) 0x20 := by
          rw [← List.replicate_add]; congr 1; omega
        have hsp : splice (pre ++ List.replicate room 0x20 ++ rest) pre.length
            ([hex_digit (b.val / 16)] ++ [hex_digit (b.val % 16)] ++ [0x20]) =
            (pre ++ hex_pair b ++ [0x20]) ++ List.replicate (room - 3) 0x20 ++ rest := by
          rw [hrep]
          have := splice_append pre (List.replicate 3 0x20)
            (List.replicate (room - 3) 0x20 ++ rest)
            ([hex_digit (b.val / 16)] ++ [hex_digit (b.val % 16)] ++ [0x20]) (by simp)
          simp only [List.append_assoc] at this ⊢
          rw [this]
          simp [hex_pair]
        rw [hsp]
        have hpos : pre.length + (1 + 1) + 1 = (pre ++ hex_pair b ++ [0x20]).length := by
          simp [hex_pair]
        have hroom : (room : Int) - 3 = ((room - 3 : Nat) : Int) := by omega
        rw [show pre.length + 3 = pre.length + (1 + 1) + 1 by omega, hpos, hroom,
          ih _ _ _ _ (by omega)]
        simp [column_rec, h2, h3, List.append_assoc]

theorem hex_pairs_spaced_cons (b : Byte) (bs : List Byte) :
    hex_pairs_spaced (b :: bs) =
      hex_pair b ++ (if bs = [] then [] else 0x20 :: hex_pairs_spaced bs) := by
  cases bs with
  | nil => simp [hex_pairs_spaced]
  | cons b2 bs => simp [hex_pairs_spaced]

/-- The loop's output in closed form: the first `(room + 1) / 3` bytes as spaced
hex pairs, padded with blanks. -/
theorem column_rec_eq : ∀ (bs : List Byte) (room : Nat),
    column_rec room bs = byte_column (room + 1) (bs.take ((room + 1) / 3))
  | [], room => by simp [column_rec, byte_column, hex_pairs_spaced]
  | b :: bs, room => by
    unfold column_rec
    by_cases h2 : room < 2
    · have : (room + 1) / 3 = 0 := by omega
      simp [h2, this, byte_column, hex_pairs_spaced]
    · by_cases h3 : room = 2
      · subst h3
        simp [byte_column, hex_pairs_spaced, hex_pair]
      · have hk : (room + 1) / 3 = (room - 3 + 1) / 3 + 1 := by omega
        have ih := column_rec_eq bs (room - 3)
        rw [if_neg h2, if_neg h3, ih, hk, List.take_succ_cons]
        unfold byte_column
        rw [hex_pairs_spaced_cons]
        by_cases he : bs.take ((room - 3 + 1) / 3) = []
        · rw [he]
          simp only [hex_pairs_spaced, if_true, List.append_nil, List.length_nil,
            List.nil_append, hex_pair, List.length_cons]
          rw [show room + 1 - 1 - (0 + 1 + 1) = (room - 3 + 1 - 1 - 0) + 1 by omega,
            List.replicate_succ]
        · rw [if_neg he]
          simp only [hex_pair, List.length_append, List.length_cons, List.length_nil,
            List.append_assoc, List.cons_append, List.nil_append]
          have hn : ∀ L : Nat, room - 3 + 1 - 1 - L = room + 1 - 1 - (L + 1 + 1 + 1) := by
            intro L; omega
          rw [hn]

theorem hex_pairs_spaced_length (l : List Byte) :
    (hex_pairs_spaced l).length = 3 * l.length - 1 := by
  induction l with
  | nil => rfl
  | cons b bs ih =>
    rw [hex_pairs_spaced_cons]
    by_cases he : bs = []
    · simp [he, hex_pair]
    · have : 1 ≤ bs.length := by
        cases bs with
        | nil => exact absurd rfl he
        | cons _ _ => simp
      simp only [if_neg he, List.length_append, List.length_cons, ih, hex_pair,
        List.length_nil]
      omega

/-- The reference column has exactly `width - 1` characters when the bytes
shown are at most `width / 3`. -/
theorem byte_column_length (width : Nat) (shown : List Byte) (hw : 1 ≤ width)
    (h : shown.length ≤ width / 3) : (byte_column width shown).length = width - 1 := by
  unfold byte_column
  rw [List.length_append, List.length_replicate, hex_pairs_spaced_length]
  omega

/-- When the loop of `fmt_bytes` returns, the bytes it read were there: it reads
one byte per iteration and makes at most `room / 3 + 1` iterations. -/
theorem fmt_bytes_loop_reads (src : List Byte) :
    ∀ (count : Nat) (buf : List Byte) (pos room s : Nat) (out : List Byte),
      fmt_bytes_loop src count buf pos room s = .ret out →
      count = 0 ∨ s + min count (room / 3 + 1) ≤ src.length := by
  intro count
  induction count with
  | zero => intro buf pos room s out _; exact Or.inl rfl
  | succ count ih =>
    intro buf pos room s out h
    rw [fmt_bytes_loop] at h
    obtain ⟨b, hb, h⟩ := Outcome.bind_eq_ret h
    have hlt : s < src.length := by
      unfold load at hb
      cases hg : src[s]? with
      | none => rw [hg] at hb; cases hb
      | some x => exact (List.getElem?_eq_some_iff.1 hg).1
    right
    by_cases h2 : (room : Int) < 2
    · omega
    · rw [if_neg h2] at h
      by_cases h3 : (room : Int) = 2
      · omega
      · rw [if_neg h3] at h
        obtain ⟨b1, _, h⟩ := Outcome.bind_eq_ret h
        obtain ⟨b2, _, h⟩ := Outcome.bind_eq_ret h
        obtain ⟨b3, _, h⟩ := Outcome.bind_eq_ret h
        have hroom : (room : Int) - 3 = ((room - 3 : Nat) : Int) := by omega
        rw [hroom] at h
        have := ih _ _ _ _ _ h
        omega

/-- The function `fmt_bytes` computes the reference column of the first `min n (W / 3)`
source bytes, terminates it at index `W - 1` and leaves the rest alone. -/
theorem fmt_bytes_eq_byte_column (W n : Nat) (buf src : List Byte) (s : Nat)
    (hW : 1 ≤ W) (hWint : W < 2147483648) (hbuf : W ≤ buf.length)
    (hsrc : n = 0 ∨ s + min n ((W - 1) / 3 + 1) ≤ src.length) :
    fmt_bytes buf W src s n =
      .ret (byte_column W ((src.drop s).take (min n (W / 3))) ++ 0 :: buf.drop W) := by
  obtain ⟨w, rfl⟩ : ∃ w, W = w + 1 := ⟨W - 1, by omega⟩
  have hms : memset buf 0x20 ((w + 1 : Nat) : Int) =
      .ret (List.replicate (w + 1) 0x20 ++ buf.drop (w + 1)) := by
    unfold memset
    rw [if_neg (by omega), Int.toNat_ofNat, if_pos hbuf]
  have hwrap : wrap32 (((w + 1 : Nat) : Int) - 1) = (w : Int) := by
    rw [wrap32_of_range _ (by omega) (by omega)]; omega
  unfold fmt_bytes
  rw [hms, Outcome.bind_ret]
  simp only [hwrap]
  rw [if_neg (by omega), Int.toNat_ofNat, Int.toNat_ofNat]
  have hst : store (List.replicate (w + 1) 0x20 ++ buf.drop (w + 1)) w 0 =
      .ret ([] ++ List.replicate w 0x20 ++ 0 :: buf.drop (w + 1)) := by
    rw [store_eq_splice _ _ _ (by simp; omega)]
    have := splice_append (List.replicate w 0x20) [0x20] (buf.drop (w + 1)) [0] rfl
    rw [List.length_replicate] at this
    rw [List.replicate_succ', this]
    simp
  rw [hst, Outcome.bind_ret]
  have := fmt_bytes_loop_eq src n [] w (0 :: buf.drop (w + 1)) s hsrc
  simp only [List.length_nil] at this
  rw [this, column_rec_eq, List.take_take, Nat.min_comm]
  simp

/-- C3. Reference definition of `fmt_bytes`: for every width `W >= 1` (an `int`),
every count `n >= 0` and every `n` readable source bytes, `fmt_bytes` returns,
the buffer then holds the `W - 1` characters of the reference column for the
first `min n (W / 3)` source bytes (lowercase hex pairs, high nibble first,
joined by single spaces, left-justified, blank-padded), the zero terminator at
index `W - 1`, and unchanged bytes from index `W` on. -/
theorem fmt_bytes_reference (W n : Nat) (buf src : List Byte) (s : Nat)
    (hW : 1 ≤ W) (hWint : W < 2147483648) (hbuf : W ≤ buf.length)
    (hsrc : s + n ≤ src.length) :
    fmt_bytes buf W src s n =
      .ret (byte_column W ((src.drop s).take (min n (W / 3))) ++ 0 :: buf.drop W) ∧
    (byte_column W ((src.drop s).take (min n (W / 3)))).length = W - 1 := by
  refine ⟨fmt_bytes_eq_byte_column W n buf src s hW hWint hbuf (Or.inr (by omega)), ?_⟩
  apply byte_column_length _ _ hW
  rw [List.length_take]
  omega

/-- C3, witness: five bytes into a column of width 16. -/
theorem fmt_bytes_reference_witness :
    fmt_bytes (List.replicate 17 0xff) (16 : Nat) [0xb8, 0x01, 0x23, 0xcd, 0xef] 0 (5 : Nat) =
      .ret (byte_column 16
        ((([0xb8, 0x01, 0x23, 0xcd, 0xef] : List Byte).drop 0).take (min 5 (16 / 3))) ++
          0 :: (List.replicate 17 0xff).drop 16) ∧
    (byte_column 16
      ((([0xb8, 0x01, 0x23, 0xcd, 0xef] : List Byte).drop 0).take (min 5 (16 / 3)))).length =
        16 - 1 :=
  fmt_bytes_reference 16 5 (List.replicate 17 0xff) [0xb8, 0x01, 0x23, 0xcd, 0xef] 0
    (by decide) (by decide) (by decide) (by decide)

/-! ## One record of the report -/

theorem Outcome.bind_congr {α β : Type} (x : Outcome α) (f g : α → Outcome β)
    (h : ∀ a, f a = g a) : x.bind f = x.bind g := by
  cases x with
  | ret a => exact h a
  | undefined => rfl
  | outOfFuel => rfl

/-- The text `%s` prints for a buffer that holds `t`, a zero and anything after:
`t` up to its first zero byte. -/
theorem cstr_append_zero (t rest : List Byte) :
    cstr (t ++ 0 :: rest) = .ret (t.takeWhile fun b => b ≠ 0) := by
  induction t with
  | nil => simp [cstr]
  | cons b t ih =>
    by_cases hb : b = 0
    · simp [cstr, hb]
    · simp [cstr, hb, ih]

theorem cstr_placeholder (rest : List Byte) : cstr (placeholder ++ 0 :: rest) = .ret placeholder := by
  rw [cstr_append_zero]
  rfl

/-- What `decode_loop` returns fits the room it was given, terminator included. -/
theorem decode_loop_fits (src : List Byte) :
    ∀ (fuel room : Nat) (len : Int) (tokens : Nat) (r : Bool × List Byte),
      decode_loop src fuel room len tokens = .ret r →
      r.2.length + (if r.1 then 1 else 0) ≤ room := by
  intro fuel
  induction fuel with
  | zero => intro room len tokens r h; simp [decode_loop] at h
  | succ fuel ih =>
    intro room len tokens r h
    rw [decode_loop] at h
    cases hc : load src tokens with
    | undefined => rw [hc] at h; simp at h
    | outOfFuel => rw [hc] at h; simp at h
    | ret c =>
      rw [hc, Outcome.bind_ret] at h
      by_cases h1 : c = 0x1a
      · rw [if_pos h1] at h
        cases hl : load src (tokens + 1) with
        | undefined => rw [hl] at h; simp at h
        | outOfFuel => rw [hl] at h; simp at h
        | ret l =>
          rw [hl, Outcome.bind_ret] at h
          generalize sx8 l = tlen at h
          simp only [] at h
          generalize wrap32 (len - (tlen + 1)) = len2 at h
          by_cases h2 : tlen + 1 ≥ len
          · rw [if_pos h2] at h
            cases h; simp
          · rw [if_neg h2] at h
            by_cases h3 : room < 1
            · rw [if_pos h3] at h; cases h
            · rw [if_neg h3] at h
              by_cases h4 : tlen < 0
              · rw [if_pos h4] at h; cases h
              · rw [if_neg h4] at h
                by_cases h5 : tokens + 2 + tlen.toNat ≤ src.length ∧ 1 + tlen.toNat ≤ room
                · rw [if_pos h5] at h
                  cases hr : decode_loop src fuel (room - (1 + tlen.toNat)) len2
                      (tokens + 2 + tlen.toNat) with
                  | undefined => rw [hr] at h; cases h
                  | outOfFuel => rw [hr] at h; cases h
                  | ret r' =>
                    rw [hr, Outcome.bind_ret] at h
                    have := ih _ _ _ _ hr
                    cases h
                    simp only [List.length_cons, List.length_append, List.length_take,
                      List.length_drop]
                    omega
                · rw [if_neg h5] at h; cases h
      · rw [if_neg h1] at h
        by_cases h2 : c = 0x22
        · rw [if_pos h2] at h
          cases hl : load_int src (tokens + 1) with
          | undefined => rw [hl] at h; simp at h
          | outOfFuel => rw [hl] at h; simp at h
          | ret tlen =>
            rw [hl, Outcome.bind_ret] at h
            generalize wrap32 (tlen + 2) = w2 at h
            generalize wrap32 (len - wrap32 (tlen + 3)) = len2 at h
            by_cases h3 : w2 ≥ len
            · rw [if_pos h3] at h
              cases h; simp
            · rw [if_neg h3] at h
              by_cases h4 : room < 2
              · rw [if_pos h4] at h; cases h
              · rw [if_neg h4] at h
                by_cases h5 : tlen < 0
                · rw [if_pos h5] at h; cases h
                · rw [if_neg h5] at h
                  by_cases h6 : tokens + 5 + tlen.toNat ≤ src.length ∧
                      2 + tlen.toNat + 1 ≤ room
                  · rw [if_pos h6] at h
                    cases hr : decode_loop src fuel (room - (2 + tlen.toNat + 1)) len2
                        (tokens + 5 + tlen.toNat) with
                    | undefined => rw [hr] at h; cases h
                    | outOfFuel => rw [hr] at h; cases h
                    | ret r' =>
                      rw [hr, Outcome.bind_ret] at h
                      have := ih _ _ _ _ hr
                      cases h
                      simp only [List.length_cons, List.length_append, List.length_take,
                        List.length_drop]
                      omega
                  · rw [if_neg h6] at h; cases h
        · rw [if_neg h2] at h
          by_cases h3 : c = 0x3b ∨ c = 0
          · rw [if_pos h3] at h
            by_cases h4 : room < 1
            · rw [if_pos h4] at h; cases h
            · rw [if_neg h4] at h
              cases h
              simp only [List.length_nil, if_true]
              omega
          · rw [if_neg h3] at h
            by_cases h4 : len ≤ 2
            · rw [if_pos h4] at h
              cases h; simp
            · rw [if_neg h4] at h
              generalize wrap32 (wrap32 (len - 1) - 1) = len2 at h
              generalize wrap32 (len - 1) = len1 at h
              by_cases h5 : c ≠ 0x2c ∧ c ≠ 0x3a
              · rw [if_pos h5] at h
                by_cases h6 : room < 2
                · rw [if_pos h6] at h; cases h
                · rw [if_neg h6] at h
                  cases hr : decode_loop src fuel (room - 2) len2 (tokens + 1) with
                  | undefined => rw [hr] at h; cases h
                  | outOfFuel => rw [hr] at h; cases h
                  | ret r' =>
                    rw [hr, Outcome.bind_ret] at h
                    have := ih _ _ _ _ hr
                    cases h
                    simp only [List.length_cons]
                    omega
              · rw [if_neg h5] at h
                by_cases h6 : room < 1
                · rw [if_pos h6] at h; cases h
                · rw [if_neg h6] at h
                  cases hr : decode_loop src fuel (room - 1) len1 (tokens + 1) with
                  | undefined => rw [hr] at h; cases h
                  | outOfFuel => rw [hr] at h; cases h
                  | ret r' =>
                    rw [hr, Outcome.bind_ret] at h
                    have := ih _ _ _ _ hr
                    cases h
                    simp only [List.length_cons]
                    omega

theorem Outcome.bind_ret_outOfFuel {α β : Type} {x : Outcome α} {f : α → β}
    (h : (x.bind fun a => .ret (f a)) = .outOfFuel) : x = .outOfFuel := by
  cases x with
  | ret a => cases h
  | undefined => cases h
  | outOfFuel => rfl

theorem load_lt {src : List Byte} {p : Nat} {b : Byte} (h : load src p = .ret b) :
    p < src.length := by
  unfold load at h
  cases hg : src[p]? with
  | none => rw [hg] at h; cases h
  | some x => exact (List.getElem?_eq_some_iff.1 hg).1

/-- The fuel `src.length - tokens + 1` is enough: the loop never runs out of it,
since every iteration moves `tokens` forward inside `src`. -/
theorem decode_loop_fuel (src : List Byte) :
    ∀ (fuel room : Nat) (len : Int) (tokens : Nat), src.length - tokens + 1 ≤ fuel →
      decode_loop src fuel room len tokens ≠ .outOfFuel := by
  intro fuel
  induction fuel with
  | zero => intro room len tokens h; omega
  | succ fuel ih =>
    intro room len tokens hf h
    rw [decode_loop] at h
    cases hc : load src tokens with
    | undefined => rw [hc] at h; cases h
    | outOfFuel => simp [load] at hc; split at hc <;> cases hc
    | ret c =>
      have hlt := load_lt hc
      rw [hc, Outcome.bind_ret] at h
      by_cases h1 : c = 0x1a
      · rw [if_pos h1] at h
        cases hl : load src (tokens + 1) with
        | undefined => rw [hl] at h; cases h
        | outOfFuel => simp [load] at hl; split at hl <;> cases hl
        | ret l =>
          rw [hl, Outcome.bind_ret] at h
          generalize sx8 l = tlen at h
          simp only [] at h
          generalize wrap32 (len - (tlen + 1)) = len2 at h
          by_cases h2 : tlen + 1 ≥ len
          · rw [if_pos h2] at h; cases h
          · rw [if_neg h2] at h
            by_cases h3 : room < 1
            · rw [if_pos h3] at h; cases h
            · rw [if_neg h3] at h
              by_cases h4 : tlen < 0
              · rw [if_pos h4] at h; cases h
              · rw [if_neg h4] at h
                by_cases h5 : tokens + 2 + tlen.toNat ≤ src.length ∧ 1 + tlen.toNat ≤ room
                · rw [if_pos h5] at h
                  exact ih _ _ _ (by omega) (Outcome.bind_ret_outOfFuel h)
                · rw [if_neg h5] at h; cases h
      · rw [if_neg h1] at h
        by_cases h2 : c = 0x22
        · rw [if_pos h2] at h
          cases hl : load_int src (tokens + 1) with
          | undefined => rw [hl] at h; cases h
          | outOfFuel =>
            simp only [load_int, load_dd, load_bytes] at hl
            split at hl <;> cases hl
          | ret tlen =>
            rw [hl, Outcome.bind_ret] at h
            generalize wrap32 (tlen + 2) = w2 at h
            generalize wrap32 (len - wrap32 (tlen + 3)) = len2 at h
            by_cases h3 : w2 ≥ len
            · rw [if_pos h3] at h; cases h
            · rw [if_neg h3] at h
              by_cases h4 : room < 2
              · rw [if_pos h4] at h; cases h
              · rw [if_neg h4] at h
                by_cases h5 : tlen < 0
                · rw [if_pos h5] at h; cases h
                · rw [if_neg h5] at h
                  by_cases h6 : tokens + 5 + tlen.toNat ≤ src.length ∧
                      2 + tlen.toNat + 1 ≤ room
                  · rw [if_pos h6] at h
                    exact ih _ _ _ (by omega) (Outcome.bind_ret_outOfFuel h)
                  · rw [if_neg h6] at h; cases h
        · rw [if_neg h2] at h
          by_cases h3 : c = 0x3b ∨ c = 0
          · rw [if_pos h3] at h
            by_cases h4 : room < 1
            · rw [if_pos h4] at h; cases h
            · rw [if_neg h4] at h; cases h
          · rw [if_neg h3] at h
            by_cases h4 : len ≤ 2
            · rw [if_pos h4] at h; cases h
            · rw [if_neg h4] at h
              generalize wrap32 (wrap32 (len - 1) - 1) = len2 at h
              generalize wrap32 (len - 1) = len1 at h
              by_cases h5 : c ≠ 0x2c ∧ c ≠ 0x3a
              · rw [if_pos h5] at h
                by_cases h6 : room < 2
                · rw [if_pos h6] at h; cases h
                · rw [if_neg h6] at h
                  exact ih _ _ _ (by omega) (Outcome.bind_ret_outOfFuel h)
              · rw [if_neg h5] at h
                by_cases h6 : room < 1
                · rw [if_pos h6] at h; cases h
                · rw [if_neg h6] at h
                  exact ih _ _ _ (by omega) (Outcome.bind_ret_outOfFuel h)

/-- The call `fmt_preprocessed` returns or has undefined behaviour: the fuel of
its loop model never runs out. -/
theorem fmt_preprocessed_ne_outOfFuel (buf : List Byte) (len : Int) (src : List Byte)
    (tokens : Nat) : fmt_preprocessed buf len src tokens ≠ .outOfFuel := by
  unfold fmt_preprocessed
  rw [fmt_preprocessed_loop_eq_decode src _ buf 0 len tokens (Nat.zero_le _)]
  intro h
  exact decode_loop_fuel src _ _ _ _ (Nat.le_refl _) (Outcome.bind_ret_outOfFuel h)

theorem fmt_preprocessed_eq_decode (buf : List Byte) (len : Int) (src : List Byte)
    (tokens : Nat) :
    fmt_preprocessed buf len src tokens =
      (decode_loop src (src.length - tokens + 1) buf.length len tokens).bind fun r =>
        .ret (written buf 0 r) := by
  unfold fmt_preprocessed
  rw [fmt_preprocessed_loop_eq_decode src _ buf 0 len tokens (Nat.zero_le _), Nat.sub_zero]

theorem store_length {buf buf1 : List Byte} {pos : Nat} {v : Byte}
    (h : store buf pos v = .ret buf1) : buf1.length = buf.length := by
  unfold store at h
  split at h
  · cases h; simp
  · cases h

theorem fmt_bytes_loop_length (src : List Byte) :
    ∀ (count : Nat) (buf : List Byte) (pos : Nat) (buflen : Int) (s : Nat) (out : List Byte),
      fmt_bytes_loop src count buf pos buflen s = .ret out → out.length = buf.length := by
  intro count
  induction count with
  | zero => intro buf pos buflen s out h; simp [fmt_bytes_loop] at h; rw [← h]
  | succ count ih =>
    intro buf pos buflen s out h
    rw [fmt_bytes_loop] at h
    cases hb : load src s with
    | undefined => rw [hb] at h; cases h
    | outOfFuel => rw [hb] at h; cases h
    | ret b =>
      rw [hb, Outcome.bind_ret] at h
      by_cases h2 : buflen < 2
      · rw [if_pos h2] at h; cases h; rfl
      · rw [if_neg h2] at h
        cases h1 : store buf pos (hex (b.val / 16)) with
        | undefined => simp [h1] at h
        | outOfFuel => simp [h1] at h
        | ret buf1 =>
          have l1 := store_length h1
          cases h2' : store buf1 (pos + 1) (hex (b.val % 16)) with
          | undefined => simp [h1, h2'] at h
          | outOfFuel => simp [h1, h2'] at h
          | ret buf2 =>
            have l2 := store_length h2'
            by_cases h3 : buflen = 2
            · rw [if_pos h3, h1, Outcome.bind_ret, h2', Outcome.bind_ret] at h
              cases h; omega
            · rw [if_neg h3, h1, Outcome.bind_ret, h2', Outcome.bind_ret] at h
              cases h3' : store buf2 (pos + 2) 0x20 with
              | undefined => simp [h3'] at h
              | outOfFuel => simp [h3'] at h
              | ret buf3 =>
                have l3 := store_length h3'
                rw [h3', Outcome.bind_ret] at h
                have := ih _ _ _ _ _ h
                omega

theorem memset_full (buf : List Byte) (v : Byte) (n : Nat) (h : buf.length = n) :
    memset buf v (n : Int) = .ret (List.replicate n v) := by
  unfold memset
  rw [if_neg (by omega), Int.toNat_ofNat, if_pos (by omega)]
  rw [List.drop_of_length_le (by omega)]
  simp

/-- The call of `fmt_bytes` on a buffer of exactly `buflen` bytes does not depend on what
the buffer held before. -/
theorem fmt_bytes_indep (buf buf' : List Byte) (n : Nat) (src : List Byte) (s : Nat)
    (count : Int) (h : buf.length = n) (h' : buf'.length = n) :
    fmt_bytes buf n src s count = fmt_bytes buf' n src s count := by
  unfold fmt_bytes
  rw [memset_full buf _ n h, memset_full buf' _ n h']

theorem fmt_bytes_length (buf : List Byte) (buflen : Int) (src : List Byte) (s : Nat)
    (count : Int) (out : List Byte) (h : fmt_bytes buf buflen src s count = .ret out) :
    out.length = buf.length := by
  unfold fmt_bytes at h
  cases hm : memset buf 0x20 buflen with
  | undefined => rw [hm] at h; cases h
  | outOfFuel => rw [hm] at h; cases h
  | ret buf1 =>
    have l1 : buf1.length = buf.length := by
      unfold memset at hm
      split at hm
      · cases hm
      · split at hm
        · cases hm
          simp only [List.length_append, List.length_replicate, List.length_drop]
          omega
        · cases hm
    rw [hm, Outcome.bind_ret] at h
    simp only [] at h
    generalize wrap32 (buflen - 1) = b1 at h
    by_cases hneg : b1 < 0
    · rw [if_pos hneg] at h; cases h
    · rw [if_neg hneg] at h
      cases hs : store buf1 b1.toNat 0 with
      | undefined => rw [hs] at h; cases h
      | outOfFuel => rw [hs] at h; cases h
      | ret buf2 =>
        rw [hs, Outcome.bind_ret] at h
        have := fmt_bytes_loop_length _ _ _ _ _ _ _ h
        have := store_length hs
        omega

/-- One iteration of `print_assembly` in terms of `decode_loop`; the line does
not depend on what the static buffers held before. -/
theorem print_assembly_step_eq (L O : List Byte) (as_off len i : Nat) (st : Scratch)
    (h80 : st.pbuf.length = 80) (h24 : st.obuf.length = 24) :
    print_assembly_step L O as_off len i st =
      (load_dd L 32).bind fun pp_off =>
      (load_dd L (as_off + 28 * i + 4)).bind fun offset_preprocessed =>
      (decode_loop L (L.length - (pp_off + offset_preprocessed + 16) + 1) 80 80
        (pp_off + offset_preprocessed + 16)).bind fun r =>
      (load_dd L (as_off + 28 * i)).bind fun output_file_offset =>
      (output_len L (as_off + 28 * i) len i output_file_offset).bind fun count =>
      (fmt_bytes (List.replicate 24 0) 24 O output_file_offset count).bind fun obuf =>
      (load_dq L (as_off + 28 * i + 8)).bind fun virtual_address =>
      (cstr obuf).bind fun otext =>
      .ret (⟨i, virtual_address, otext, line_text r⟩, ⟨pbuf_after st.pbuf r, obuf⟩) := by
  unfold print_assembly_step
  apply Outcome.bind_congr; intro pp_off
  apply Outcome.bind_congr; intro offpp
  show (fmt_preprocessed st.pbuf 80 L (pp_off + offpp + 16)).bind _ = _
  rw [fmt_preprocessed_eq_decode, h80, Outcome.bind_assoc]
  apply Outcome.bind_congr; intro r
  rw [Outcome.bind_ret]
  have hpb : (if (written st.pbuf 0 r).ok = true then Outcome.ret (written st.pbuf 0 r).buf
      else strcpy (written st.pbuf 0 r).buf placeholder) = .ret (pbuf_after st.pbuf r) := by
    unfold written pbuf_after
    cases hr : r.1
    · have hl : 15 + 1 ≤ (splice st.pbuf 0 r.2).length := by
        simp only [splice, List.take_zero, List.nil_append, List.length_append,
          List.length_drop, Nat.zero_add]
        omega
      simp [strcpy, placeholder, hl]
    · simp
  have hcs : cstr (pbuf_after st.pbuf r) = .ret (line_text r) := by
    unfold pbuf_after line_text
    cases hr : r.1
    · simp only [Bool.false_eq_true, if_false]
      exact cstr_placeholder _
    · simp only [if_true]
      have : splice st.pbuf 0 (r.2 ++ [0]) =
          r.2 ++ 0 :: st.pbuf.drop (0 + (r.2 ++ [0]).length) := by
        simp [splice]
      rw [this, cstr_append_zero]
  rw [hpb, Outcome.bind_ret]
  apply Outcome.bind_congr; intro ofo
  apply Outcome.bind_congr; intro count
  have hfb := fmt_bytes_indep st.obuf (List.replicate 24 0) 24 O ofo count h24 (by simp)
  rw [Nat.cast_ofNat] at hfb
  rw [hfb]
  apply Outcome.bind_congr; intro obuf
  apply Outcome.bind_congr; intro va
  apply Outcome.bind_congr; intro otext
  rw [hcs, Outcome.bind_ret]

theorem record_line_eq (L O : List Byte) (as_off len i : Nat) :
    record_line L O as_off len i =
      (load_dd L 32).bind fun pp_off =>
      (load_dd L (as_off + 28 * i + 4)).bind fun offset_preprocessed =>
      (decode_loop L (L.length - (pp_off + offset_preprocessed + 16) + 1) 80 80
        (pp_off + offset_preprocessed + 16)).bind fun r =>
      (load_dd L (as_off + 28 * i)).bind fun output_file_offset =>
      (output_len L (as_off + 28 * i) len i output_file_offset).bind fun count =>
      (fmt_bytes (List.replicate 24 0) 24 O output_file_offset count).bind fun obuf =>
      (load_dq L (as_off + 28 * i + 8)).bind fun virtual_address =>
      (cstr obuf).bind fun otext =>
      .ret ⟨i, virtual_address, otext, line_text r⟩ := by
  unfold record_line
  rw [print_assembly_step_eq L O as_off len i Scratch.initial (by simp [Scratch.initial])
    (by simp [Scratch.initial])]
  rw [Outcome.bind_assoc]; apply Outcome.bind_congr; intro pp_off
  rw [Outcome.bind_assoc]; apply Outcome.bind_congr; intro offpp
  rw [Outcome.bind_assoc]; apply Outcome.bind_congr; intro r
  rw [Outcome.bind_assoc]; apply Outcome.bind_congr; intro ofo
  rw [Outcome.bind_assoc]; apply Outcome.bind_congr; intro count
  rw [Outcome.bind_assoc]; apply Outcome.bind_congr; intro obuf
  rw [Outcome.bind_assoc]; apply Outcome.bind_congr; intro va
  rw [Outcome.bind_assoc]; apply Outcome.bind_congr; intro otext
  rfl

/-- The line of an iteration is the line of the record on its own, whatever the
static buffers held. -/
theorem print_assembly_step_line (L O : List Byte) (as_off len i : Nat) (st : Scratch)
    (h80 : st.pbuf.length = 80) (h24 : st.obuf.length = 24) :
    ((print_assembly_step L O as_off len i st).bind fun r => .ret r.1) =
      record_line L O as_off len i := by
  rw [record_line_eq, print_assembly_step_eq L O as_off len i st h80 h24]
  rw [Outcome.bind_assoc]; apply Outcome.bind_congr; intro pp_off
  rw [Outcome.bind_assoc]; apply Outcome.bind_congr; intro offpp
  rw [Outcome.bind_assoc]; apply Outcome.bind_congr; intro r
  rw [Outcome.bind_assoc]; apply Outcome.bind_congr; intro ofo
  rw [Outcome.bind_assoc]; apply Outcome.bind_congr; intro count
  rw [Outcome.bind_assoc]; apply Outcome.bind_congr; intro obuf
  rw [Outcome.bind_assoc]; apply Outcome.bind_congr; intro va
  rw [Outcome.bind_assoc]; apply Outcome.bind_congr; intro otext
  rfl

/-- The static buffers keep their sizes over an iteration. -/
theorem print_assembly_step_lengths (L O : List Byte) (as_off len i : Nat) (st : Scratch)
    (h80 : st.pbuf.length = 80) (h24 : st.obuf.length = 24) (l : ReportLine) (s1 : Scratch)
    (h : print_assembly_step L O as_off len i st = .ret (l, s1)) :
    s1.pbuf.length = 80 ∧ s1.obuf.length = 24 := by
  rw [print_assembly_step_eq L O as_off len i st h80 h24] at h
  obtain ⟨pp_off, _, h⟩ := Outcome.bind_eq_ret h
  obtain ⟨offpp, _, h⟩ := Outcome.bind_eq_ret h
  obtain ⟨r, hr, h⟩ := Outcome.bind_eq_ret h
  obtain ⟨ofo, _, h⟩ := Outcome.bind_eq_ret h
  obtain ⟨count, _, h⟩ := Outcome.bind_eq_ret h
  obtain ⟨obuf, hob, h⟩ := Outcome.bind_eq_ret h
  obtain ⟨va, _, h⟩ := Outcome.bind_eq_ret h
  obtain ⟨otext, _, h⟩ := Outcome.bind_eq_ret h
  cases h
  have hfit := decode_loop_fits _ _ _ _ _ _ hr
  have hol := fmt_bytes_length _ _ _ _ _ _ hob
  refine ⟨?_, by simpa using hol⟩
  show (pbuf_after st.pbuf r).length = 80
  unfold pbuf_after
  cases h1 : r.1
  · rw [h1] at hfit
    simp only [Bool.false_eq_true, if_false, List.length_append, List.length_cons,
      List.length_drop, splice, List.take_zero, List.nil_append, Nat.zero_add, placeholder,
      List.length_nil]
    simp only [Bool.false_eq_true, if_false] at hfit
    omega
  · rw [h1] at hfit
    simp only [if_true] at hfit ⊢
    rw [splice_length _ _ _ (by simp only [List.length_append, List.length_singleton]; omega)]
    exact h80

/-- The loop of `print_assembly` returns the lines `lines` exactly when every
record from `i` on, taken on its own, gives the line at its place. -/
theorem print_assembly_loop_iff (L O : List Byte) (as_off len : Nat) :
    ∀ (rem i : Nat) (st : Scratch) (lines : List ReportLine),
      st.pbuf.length = 80 → st.obuf.length = 24 →
      (print_assembly_loop L O as_off len rem i st = .ret lines ↔
        lines.length = rem ∧
          ∀ j, j < rem → ∃ l, lines[j]? = some l ∧ record_line L O as_off len (i + j) = .ret l) := by
  intro rem
  induction rem with
  | zero =>
    intro i st lines _ _
    simp only [print_assembly_loop]
    constructor
    · intro h; cases h; simp
    · rintro ⟨h, _⟩
      rw [List.length_eq_zero] at h
      rw [h]
  | succ rem ih =>
    intro i st lines h80 h24
    rw [print_assembly_loop]
    have hline := print_assembly_step_line L O as_off len i st h80 h24
    constructor
    · intro h
      obtain ⟨⟨l, s1⟩, hstep, h⟩ := Outcome.bind_eq_ret h
      obtain ⟨rest, hrest, h⟩ := Outcome.bind_eq_ret h
      cases h
      obtain ⟨l80, l24⟩ := print_assembly_step_lengths L O as_off len i st h80 h24 l s1 hstep
      rw [hstep, Outcome.bind_ret] at hline
      obtain ⟨hlen, hall⟩ := (ih (i + 1) s1 rest l80 l24).1 hrest
      refine ⟨by simp [hlen], ?_⟩
      intro j hj
      cases j with
      | zero => exact ⟨l, by simp, hline.symm⟩
      | succ j =>
        obtain ⟨l', hl', hr'⟩ := hall j (by omega)
        refine ⟨l', by simpa using hl', ?_⟩
        rw [show i + (j + 1) = i + 1 + j by omega]
        exact hr'
    · rintro ⟨hlen, hall⟩
      cases lines with
      | nil => simp at hlen
      | cons l0 rest =>
        obtain ⟨l, hl, hr⟩ := hall 0 (by omega)
        simp only [List.getElem?_cons_zero, Option.some.injEq] at hl
        subst hl
        rw [Nat.add_zero, ← hline] at hr
        obtain ⟨⟨l', s1⟩, hstep, h⟩ := Outcome.bind_eq_ret hr
        cases h
        obtain ⟨l80, l24⟩ := print_assembly_step_lengths L O as_off len i st h80 h24 _ s1 hstep
        have hrest : print_assembly_loop L O as_off len rem (i + 1) s1 = .ret rest := by
          rw [ih (i + 1) s1 rest l80 l24]
          refine ⟨by simpa using hlen, ?_⟩
          intro j hj
          obtain ⟨l2, hl2, hr2⟩ := hall (j + 1) (by omega)
          refine ⟨l2, by simpa using hl2, ?_⟩
          rw [show i + 1 + j = i + (j + 1) by omega]
          exact hr2
        rw [hstep, Outcome.bind_ret, hrest, Outcome.bind_ret]

/-! ## The fuel never runs out -/

theorem Outcome.bind_ne_outOfFuel {α β : Type} {x : Outcome α} {f : α → Outcome β}
    (hx : x ≠ .outOfFuel) (hf : ∀ a, f a ≠ .outOfFuel) : x.bind f ≠ .outOfFuel := by
  cases x with
  | ret a => exact hf a
  | undefined => intro h; cases h
  | outOfFuel => exact absurd rfl hx

theorem load_bytes_ne_outOfFuel (mem : List Byte) (p n : Nat) :
    load_bytes mem p n ≠ .outOfFuel := by
  unfold load_bytes; split <;> intro h <;> cases h

theorem load_dd_ne_outOfFuel (mem : List Byte) (p : Nat) : load_dd mem p ≠ .outOfFuel :=
  Outcome.bind_ne_outOfFuel (load_bytes_ne_outOfFuel _ _ _) (fun _ h => by cases h)

theorem load_dq_ne_outOfFuel (mem : List Byte) (p : Nat) : load_dq mem p ≠ .outOfFuel :=
  Outcome.bind_ne_outOfFuel (load_bytes_ne_outOfFuel _ _ _) (fun _ h => by cases h)

theorem load_ne_outOfFuel (mem : List Byte) (p : Nat) : load mem p ≠ .outOfFuel := by
  unfold load; split <;> intro h <;> cases h

theorem store_ne_outOfFuel (mem : List Byte) (p : Nat) (v : Byte) :
    store mem p v ≠ .outOfFuel := by
  unfold store; split <;> intro h <;> cases h

theorem cstr_ne_outOfFuel : ∀ buf : List Byte, cstr buf ≠ .outOfFuel
  | [] => by intro h; cases h
  | b :: bs => by
    unfold cstr
    split
    · intro h; cases h
    · exact Outcome.bind_ne_outOfFuel (cstr_ne_outOfFuel bs) (fun _ h => by cases h)

theorem fmt_bytes_loop_ne_outOfFuel (src : List Byte) :
    ∀ (count : Nat) (buf : List Byte) (pos : Nat) (buflen : Int) (s : Nat),
      fmt_bytes_loop src count buf pos buflen s ≠ .outOfFuel := by
  intro count
  induction count with
  | zero => intro buf pos buflen s h; cases h
  | succ count ih =>
    intro buf pos buflen s
    rw [fmt_bytes_loop]
    apply Outcome.bind_ne_outOfFuel (load_ne_outOfFuel _ _)
    intro b
    split
    · intro h; cases h
    · split
      · apply Outcome.bind_ne_outOfFuel (store_ne_outOfFuel _ _ _)
        intro b1
        apply Outcome.bind_ne_outOfFuel (store_ne_outOfFuel _ _ _)
        intro b2 h; cases h
      · apply Outcome.bind_ne_outOfFuel (store_ne_outOfFuel _ _ _)
        intro b1
        apply Outcome.bind_ne_outOfFuel (store_ne_outOfFuel _ _ _)
        intro b2
        apply Outcome.bind_ne_outOfFuel (store_ne_outOfFuel _ _ _)
        intro b3
        exact ih _ _ _ _

theorem fmt_bytes_ne_outOfFuel (buf : List Byte) (buflen : Int) (src : List Byte) (s : Nat)
    (count : Int) : fmt_bytes buf buflen src s count ≠ .outOfFuel := by
  unfold fmt_bytes
  apply Outcome.bind_ne_outOfFuel
  · unfold memset
    split
    · intro h; cases h
    · split <;> intro h <;> cases h
  · intro buf1
    simp only []
    split
    · intro h; cases h
    · exact Outcome.bind_ne_outOfFuel (store_ne_outOfFuel _ _ _)
        (fun _ => fmt_bytes_loop_ne_outOfFuel _ _ _ _ _ _)

theorem print_assembly_step_ne_outOfFuel (L O : List Byte) (as_off len i : Nat) (st : Scratch) :
    print_assembly_step L O as_off len i st ≠ .outOfFuel := by
  unfold print_assembly_step
  apply Outcome.bind_ne_outOfFuel (load_dd_ne_outOfFuel _ _); intro pp_off
  apply Outcome.bind_ne_outOfFuel (load_dd_ne_outOfFuel _ _); intro offpp
  apply Outcome.bind_ne_outOfFuel (fmt_preprocessed_ne_outOfFuel _ _ _ _); intro d
  apply Outcome.bind_ne_outOfFuel
  · split
    · intro h; cases h
    · unfold strcpy; split <;> intro h <;> cases h
  intro pbuf
  apply Outcome.bind_ne_outOfFuel (load_dd_ne_outOfFuel _ _); intro off
  apply Outcome.bind_ne_outOfFuel
  · unfold output_len
    split
    · exact Outcome.bind_ne_outOfFuel (load_dd_ne_outOfFuel _ _) (fun _ h => by cases h)
    · intro h; cases h
  intro count
  apply Outcome.bind_ne_outOfFuel (fmt_bytes_ne_outOfFuel _ _ _ _ _); intro obuf
  apply Outcome.bind_ne_outOfFuel (load_dq_ne_outOfFuel _ _); intro va
  apply Outcome.bind_ne_outOfFuel (cstr_ne_outOfFuel _); intro otext
  apply Outcome.bind_ne_outOfFuel (cstr_ne_outOfFuel _); intro ptext
  intro h; cases h

/-- The run of `print_assembly` returns its lines or has undefined behaviour:
the model never runs out of fuel. -/
theorem print_assembly_ne_outOfFuel (L O : List Byte) : print_assembly L O ≠ .outOfFuel := by
  have hloop : ∀ (as_off len rem i : Nat) (st : Scratch),
      print_assembly_loop L O as_off len rem i st ≠ .outOfFuel := by
    intro as_off len rem
    induction rem with
    | zero => intro i st h; cases h
    | succ rem ih =>
      intro i st
      rw [print_assembly_loop]
      apply Outcome.bind_ne_outOfFuel (print_assembly_step_ne_outOfFuel _ _ _ _ _ _)
      intro r
      exact Outcome.bind_ne_outOfFuel (ih _ _) (fun _ h => by cases h)
  unfold print_assembly
  apply Outcome.bind_ne_outOfFuel (load_dd_ne_outOfFuel _ _); intro as_off
  apply Outcome.bind_ne_outOfFuel
  · exact Outcome.bind_ne_outOfFuel (load_dd_ne_outOfFuel _ _) (fun _ h => by cases h)
  · intro len
    exact hloop _ _ _ _ _

/-- The run of `print_assembly` returns the lines `lines` exactly when the header
fields can be read and every record, taken on its own, gives the line at its
place. -/
theorem print_assembly_iff (L O : List Byte) (lines : List ReportLine) :
    print_assembly L O = .ret lines ↔
      ∃ as_off n, load_dd L 40 = .ret as_off ∧ record_count L = .ret n ∧ lines.length = n ∧
        ∀ j, j < n → ∃ l, lines[j]? = some l ∧ record_line L O as_off n j = .ret l := by
  unfold print_assembly
  constructor
  · intro h
    obtain ⟨as_off, h1, h⟩ := Outcome.bind_eq_ret h
    obtain ⟨n, h2, h⟩ := Outcome.bind_eq_ret h
    refine ⟨as_off, n, h1, h2, ?_⟩
    have := (print_assembly_loop_iff L O as_off n n 0 Scratch.initial lines
      (by simp [Scratch.initial]) (by simp [Scratch.initial])).1 h
    refine ⟨this.1, fun j hj => ?_⟩
    obtain ⟨l, hl, hr⟩ := this.2 j hj
    rw [Nat.zero_add] at hr
    exact ⟨l, hl, hr⟩
  · rintro ⟨as_off, n, h1, h2, hlen, hall⟩
    rw [h1, Outcome.bind_ret, h2, Outcome.bind_ret]
    rw [print_assembly_loop_iff L O as_off n n 0 Scratch.initial lines
      (by simp [Scratch.initial]) (by simp [Scratch.initial])]
    refine ⟨hlen, fun j hj => ?_⟩
    obtain ⟨l, hl, hr⟩ := hall j hj
    rw [Nat.zero_add]
    exact ⟨l, hl, hr⟩

theorem fmt_bytes_toNat (buf : List Byte) (buflen : Int) (src : List Byte) (s : Nat)
    (count : Int) :
    fmt_bytes buf buflen src s count = fmt_bytes buf buflen src s (count.toNat : Int) := by
  unfold fmt_bytes
  rw [Int.toNat_ofNat]

/-- When `fmt_bytes` returns, the source bytes it read were there. -/
theorem fmt_bytes_reads (buf : List Byte) (W : Nat) (src : List Byte) (s : Nat) (count : Int)
    (out : List Byte) (hW : 1 ≤ W) (hWint : W < 2147483648)
    (h : fmt_bytes buf W src s count = .ret out) :
    count.toNat = 0 ∨ s + min count.toNat ((W - 1) / 3 + 1) ≤ src.length := by
  unfold fmt_bytes at h
  obtain ⟨buf1, _, h⟩ := Outcome.bind_eq_ret h
  have hwrap : wrap32 ((W : Int) - 1) = ((W - 1 : Nat) : Int) := by
    rw [wrap32_of_range _ (by omega) (by omega)]; omega
  simp only [hwrap] at h
  rw [if_neg (by omega)] at h
  obtain ⟨buf2, _, h⟩ := Outcome.bind_eq_ret h
  exact fmt_bytes_loop_reads src _ _ _ _ _ _ h

theorem hex_digit_ne (d : Nat) (h : d < 16) : hex_digit d ≠ 0 ∧ hex_digit d ≠ 0x20 := by
  interval_cases d <;> decide

theorem mem_hex_pairs_spaced : ∀ (bs : List Byte) (x : Byte), x ∈ hex_pairs_spaced bs →
    x = 0x20 ∨ ∃ d, d < 16 ∧ x = hex_digit d
  | [], x, h => by simp [hex_pairs_spaced] at h
  | b :: bs, x, h => by
    rw [hex_pairs_spaced_cons] at h
    rcases List.mem_append.1 h with h | h
    · simp only [hex_pair, List.mem_cons, List.mem_singleton, List.not_mem_nil, or_false] at h
      rcases h with h | h
      · exact Or.inr ⟨b.val / 16, by have := b.isLt; omega, h⟩
      · exact Or.inr ⟨b.val % 16, by omega, h⟩
    · by_cases he : bs = []
      · simp [he] at h
      · rw [if_neg he] at h
        rcases List.mem_cons.1 h with h | h
        · exact Or.inl h
        · exact mem_hex_pairs_spaced bs x h

theorem byte_column_ne_zero (width : Nat) (bs : List Byte) (x : Byte)
    (h : x ∈ byte_column width bs) : x ≠ 0 := by
  unfold byte_column at h
  rcases List.mem_append.1 h with h | h
  · rcases mem_hex_pairs_spaced bs x h with h | ⟨d, hd, h⟩
    · rw [h]; decide
    · rw [h]; exact (hex_digit_ne d hd).1
  · rw [List.mem_replicate] at h
    rw [h.2]; decide

/-- The column `print_assembly` prints for a record: `fmt_bytes` into the 24-byte
buffer, read back as a string, is the reference column of the first
`min count 8` bytes. -/
theorem fmt_bytes_24_cstr (O : List Byte) (off : Nat) (count : Int) (obuf otext : List Byte)
    (h1 : fmt_bytes (List.replicate 24 0) 24 O off count = .ret obuf)
    (h2 : cstr obuf = .ret otext) :
    otext = byte_column 24 ((O.drop off).take (min count.toNat 8)) := by
  have hr := fmt_bytes_reads (List.replicate 24 0) 24 O off count obuf (by omega) (by omega)
    (by rw [Nat.cast_ofNat]; exact h1)
  have he := fmt_bytes_eq_byte_column 24 count.toNat (List.replicate 24 0) O off (by omega)
    (by omega) (by simp) hr
  rw [← fmt_bytes_toNat, Nat.cast_ofNat, h1] at he
  cases he
  rw [cstr_append_zero] at h2
  cases h2
  rw [List.takeWhile_eq_self_iff]
  intro x hx
  simpa using byte_column_ne_zero _ _ x hx

/-- What a line of a record, taken on its own, is made of. -/
theorem record_line_ret (L O : List Byte) (as_off n i : Nat) (l : ReportLine)
    (h : record_line L O as_off n i = .ret l) :
    ∃ pp_off offpp r off count obuf,
      load_dd L 32 = .ret pp_off ∧ load_dd L (as_off + 28 * i + 4) = .ret offpp ∧
      decode_loop L (L.length - (pp_off + offpp + 16) + 1) 80 80 (pp_off + offpp + 16) = .ret r ∧
      load_dd L (as_off + 28 * i) = .ret off ∧
      output_len L (as_off + 28 * i) n i off = .ret count ∧
      fmt_bytes (List.replicate 24 0) 24 O off count = .ret obuf ∧
      load_dq L (as_off + 28 * i + 8) = .ret l.virtual_address ∧
      cstr obuf = .ret l.obuf ∧ l.index = i ∧ l.pbuf = line_text r := by
  rw [record_line_eq] at h
  obtain ⟨pp_off, h1, h⟩ := Outcome.bind_eq_ret h
  obtain ⟨offpp, h2, h⟩ := Outcome.bind_eq_ret h
  obtain ⟨r, h3, h⟩ := Outcome.bind_eq_ret h
  obtain ⟨off, h4, h⟩ := Outcome.bind_eq_ret h
  obtain ⟨count, h5, h⟩ := Outcome.bind_eq_ret h
  obtain ⟨obuf, h6, h⟩ := Outcome.bind_eq_ret h
  obtain ⟨va, h7, h⟩ := Outcome.bind_eq_ret h
  obtain ⟨otext, h8, h⟩ := Outcome.bind_eq_ret h
  cases h
  exact ⟨pp_off, offpp, r, off, count, obuf, h1, h2, h3, h4, h5, h6, h7, h8, rfl, rfl⟩

theorem Outcome.ret_inj {α : Type} {a b : α} (h : Outcome.ret a = Outcome.ret b) : a = b := by
  cases h; rfl

/-- The byte column of the line of record `i`: `fmt_bytes` with width 24 at the
record's output offset with the count `output_len` gives, read as a string; it
is the reference column of the first `min count 8` bytes from that offset. -/
theorem print_assembly_column (L O : List Byte) (lines : List ReportLine) (as_off n i : Nat)
    (hrun : print_assembly L O = .ret lines)
    (has : load_dd L 40 = .ret as_off) (hn : record_count L = .ret n) (hi : i < n) :
    ∃ line off count, lines[i]? = some line ∧
      load_dd L (as_off + 28 * i) = .ret off ∧
      output_len L (as_off + 28 * i) n i off = .ret count ∧
      (∀ buf : List Byte, buf.length = 24 →
        (fmt_bytes buf 24 O off count).bind cstr = .ret line.obuf) ∧
      line.obuf = byte_column 24 ((O.drop off).take (min count.toNat 8)) := by
  obtain ⟨as_off', n', h1, h2, _, hall⟩ := (print_assembly_iff L O lines).1 hrun
  rw [has] at h1; rw [hn] at h2
  cases Outcome.ret_inj h1; cases Outcome.ret_inj h2
  obtain ⟨line, hline, hrec⟩ := hall i hi
  obtain ⟨_, _, _, off, count, obuf, _, _, _, e4, e5, e6, _, e8, _, _⟩ :=
    record_line_ret L O as_off n i line hrec
  refine ⟨line, off, count, hline, e4, e5, fun buf h24 => ?_, fmt_bytes_24_cstr O off count obuf _ e6 e8⟩
  have hfb := fmt_bytes_indep buf (List.replicate 24 0) 24 O off count h24 (by simp)
  rw [Nat.cast_ofNat] at hfb
  rw [hfb, e6, Outcome.bind_ret, e8]

theorem output_len_next (L : List Byte) (a n i off next : Nat) (hi : i + 1 < n)
    (hnext : load_dd L (a + 28) = .ret next) :
    output_len L a n i off = .ret (wrap32 (((next : Int) - off) % 4294967296)) := by
  unfold output_len
  rw [if_pos hi, hnext, Outcome.bind_ret]

theorem take_drop_of_take_eq (O O' : List Byte) (off next k : Nat) (hk : off + k ≤ next)
    (h : O'.take next = O.take next) : (O'.drop off).take k = (O.drop off).take k := by
  have e : ∀ X : List Byte, (X.drop off).take k = ((X.take next).drop off).take k := by
    intro X
    rw [List.drop_take, List.take_take, Nat.min_eq_left (by omega)]
  rw [e O, e O', h]

/-- C4 (amended). Byte span of a report line: whenever the run returns its lines,
for every non-last record `i` whose successor's `output_file_offset` is at least
its own and less than `2^31` above it, the byte column of line `i` is what
`fmt_bytes` with width 24 (on the 24-byte buffer, whatever it holds) gives for
the output bytes at the record's offset with count `next - off`; it is the
reference column of the first `min (next - off) 8` bytes from that offset, and a
run on an output file that agrees before the next record's offset prints the
same column. -/
theorem print_assembly_byte_span (L O : List Byte) (lines : List ReportLine)
    (as_off n i off next : Nat)
    (hrun : print_assembly L O = .ret lines)
    (has : load_dd L 40 = .ret as_off) (hn : record_count L = .ret n) (hi : i + 1 < n)
    (hoff : load_dd L (as_off + 28 * i) = .ret off)
    (hnext : load_dd L (as_off + 28 * (i + 1)) = .ret next)
    (hle : off ≤ next) (hspan : next - off < 2147483648) :
    ∃ line, lines[i]? = some line ∧
      (∀ buf : List Byte, buf.length = 24 →
        (fmt_bytes buf 24 O off ((next - off : Nat) : Int)).bind cstr = .ret line.obuf) ∧
      line.obuf = byte_column 24 ((O.drop off).take (min (next - off) 8)) ∧
      ∀ (O' : List Byte) (lines' : List ReportLine), print_assembly L O' = .ret lines' →
        O'.take next = O.take next →
        ∃ line', lines'[i]? = some line' ∧ line'.obuf = line.obuf := by
  have hnext' : load_dd L (as_off + 28 * i + 28) = .ret next := by
    rw [show as_off + 28 * i + 28 = as_off + 28 * (i + 1) by omega]; exact hnext
  have hcount : wrap32 (((next : Int) - off) % 4294967296) = ((next - off : Nat) : Int) := by
    have h1 : ((next : Int) - off) % 4294967296 = (next : Int) - off := by omega
    rw [h1, wrap32_of_range _ (by omega) (by omega)]; omega
  have key : ∀ (X : List Byte) (ls : List ReportLine), print_assembly L X = .ret ls →
      ∃ line, ls[i]? = some line ∧
        (∀ buf : List Byte, buf.length = 24 →
          (fmt_bytes buf 24 X off ((next - off : Nat) : Int)).bind cstr = .ret line.obuf) ∧
        line.obuf = byte_column 24 ((X.drop off).take (min (next - off) 8)) := by
    intro X ls hX
    obtain ⟨line, off', count, hl, e1, e2, e3, e4⟩ :=
      print_assembly_column L X ls as_off n i hX has hn (by omega)
    rw [hoff] at e1
    cases Outcome.ret_inj e1
    rw [output_len_next L _ n i off next hi hnext', hcount] at e2
    cases Outcome.ret_inj e2
    rw [Int.toNat_ofNat] at e4
    exact ⟨line, hl, e3, e4⟩
  obtain ⟨line, hl, e3, e4⟩ := key O lines hrun
  refine ⟨line, hl, e3, e4, fun O' lines' hrun' htake => ?_⟩
  obtain ⟨line', hl', _, e4'⟩ := key O' lines' hrun'
  refine ⟨line', hl', ?_⟩
  rw [e4, e4', take_drop_of_take_eq O O' off next _ (by omega) htake]

set_option maxRecDepth 20000 in
/-- C4, witness: record 0 of `sample_listing` (offsets `0x10` and `0x13`, output
bytes `B8 00 00 00` at `0x10`): the column is `b8 00 00`, blank-padded. -/
theorem print_assembly_byte_span_witness :
    ∃ line, sample_lines[0]? = some line ∧
      (∀ buf : List Byte, buf.length = 24 →
        (fmt_bytes buf 24 sample_output 0x10 ((0x13 - 0x10 : Nat) : Int)).bind cstr =
          .ret line.obuf) ∧
      line.obuf = byte_column 24 ((sample_output.drop 0x10).take (min (0x13 - 0x10) 8)) ∧
      ∀ (O' : List Byte) (lines' : List ReportLine),
        print_assembly sample_listing O' = .ret lines' →
        O'.take 0x13 = sample_output.take 0x13 →
        ∃ line', lines'[0]? = some line' ∧ line'.obuf = line.obuf :=
  print_assembly_byte_span sample_listing sample_output sample_lines 64 2 0 0x10 0x13
    (by decide) (by decide) (by decide) (by decide) (by decide) (by decide) (by decide)
    (by decide)

set_option maxRecDepth 20000 in
/-- C4, counterexample: in `wide_span_listing` the successor's offset
`0x80000000` is above record 0's offset `0`, the run returns, and the byte
column of line 0 is blank, whereas `fmt_bytes` with the count `next - off` shows
the eight bytes that fit. -/
theorem print_assembly_byte_span_counterexample :
    load_dd wide_span_listing 64 = .ret 0 ∧
    load_dd wide_span_listing 92 = .ret 0x80000000 ∧
    print_assembly wide_span_listing wide_span_output =
      .ret [⟨0, 0x401000, List.replicate 23 0x20, []⟩,
            ⟨1, 0x401003, List.replicate 23 0x20, []⟩] ∧
    (fmt_bytes (List.replicate 24 0) 24 wide_span_output 0
        ((0x80000000 - 0 : Nat) : Int)).bind cstr =
      .ret [0x62, 0x38, 0x20, 0x30, 0x30, 0x20, 0x30, 0x30, 0x20, 0x30, 0x30, 0x20,
            0x30, 0x30, 0x20, 0x30, 0x30, 0x20, 0x30, 0x30, 0x20, 0x30, 0x30] := by
  decide

theorem print_assembly_loop_defined (L O : List Byte) (as_off n : Nat) :
    ∀ (rem i : Nat) (st : Scratch), st.pbuf.length = 80 → st.obuf.length = 24 →
      (∀ j, j < rem → (record_line L O as_off n (i + j)).isRet = true) →
      ∃ lines, print_assembly_loop L O as_off n rem i st = .ret lines := by
  intro rem
  induction rem with
  | zero => intro i st _ _ _; exact ⟨[], rfl⟩
  | succ rem ih =>
    intro i st h80 h24 hall
    have h0 := hall 0 (by omega)
    rw [Nat.add_zero, ← print_assembly_step_line L O as_off n i st h80 h24] at h0
    cases hstep : print_assembly_step L O as_off n i st with
    | undefined => rw [hstep] at h0; cases h0
    | outOfFuel => rw [hstep] at h0; cases h0
    | ret r =>
      obtain ⟨l, s1⟩ := r
      obtain ⟨l80, l24⟩ := print_assembly_step_lengths L O as_off n i st h80 h24 l s1 hstep
      obtain ⟨rest, hrest⟩ := ih (i + 1) s1 l80 l24 (fun j hj => by
        have := hall (j + 1) (by omega)
        rw [show i + (j + 1) = i + 1 + j by omega] at this
        exact this)
      exact ⟨l :: rest, by
        rw [print_assembly_loop, hstep, Outcome.bind_ret, hrest, Outcome.bind_ret]⟩

/-- The run returns, with one line per record, when every record, taken on its
own, gives its line. -/
theorem print_assembly_returns (L O : List Byte) (as_off n : Nat)
    (has : load_dd L 40 = .ret as_off) (hn : record_count L = .ret n)
    (hall : ∀ j, j < n → (record_line L O as_off n j).isRet = true) :
    ∃ lines, print_assembly L O = .ret lines ∧ lines.length = n := by
  obtain ⟨lines, hl⟩ := print_assembly_loop_defined L O as_off n n 0 Scratch.initial
    (by simp [Scratch.initial]) (by simp [Scratch.initial])
    (fun j hj => by rw [Nat.zero_add]; exact hall j hj)
  refine ⟨lines, ?_, ?_⟩
  · unfold print_assembly
    rw [has, Outcome.bind_ret, hn, Outcome.bind_ret, hl]
  · exact ((print_assembly_loop_iff L O as_off n n 0 Scratch.initial lines
      (by simp [Scratch.initial]) (by simp [Scratch.initial])).1 hl).1

/-- C5 (amended). For every listing whose header gives the assembly table, and in
which every record, taken on its own, is processed without undefined behaviour
(its line is returned), `print_assembly` returns and emits exactly
`assembly.length / 28` lines, one `printf` call per record; and every run that
returns has emitted exactly that many lines. -/
theorem print_assembly_line_count (L O : List Byte) (as_off n : Nat)
    (has : load_dd L 40 = .ret as_off) (hn : record_count L = .ret n)
    (hall : ∀ j, j < n → (record_line L O as_off n j).isRet = true) :
    (∃ lines, print_assembly L O = .ret lines ∧ lines.length = n) ∧
    ∀ lines, print_assembly L O = .ret lines → lines.length = n := by
  refine ⟨print_assembly_returns L O as_off n has hn hall, fun lines hrun => ?_⟩
  obtain ⟨_, n', _, h2, hlen, _⟩ := (print_assembly_iff L O lines).1 hrun
  rw [hn] at h2
  cases Outcome.ret_inj h2
  exact hlen

set_option maxRecDepth 20000 in
/-- C5, witness: `sample_listing` has two records and gives two lines. -/
theorem print_assembly_line_count_witness :
    (∃ lines, print_assembly sample_listing sample_output = .ret lines ∧ lines.length = 2) ∧
    ∀ lines, print_assembly sample_listing sample_output = .ret lines → lines.length = 2 :=
  print_assembly_line_count sample_listing sample_output 64 2 (by decide) (by decide)
    (by decide)

set_option maxRecDepth 20000 in
/-- C5, counterexample: `far_offset_listing` has a well-formed table of one
record, whose `offset_preprocessed` makes `fmt_preprocessed` read the listing
two gigabytes past its end: the behaviour is undefined, and the run does not
give its one line. -/
theorem print_assembly_line_count_counterexample :
    load_dd far_offset_listing 44 = .ret 28 ∧
    record_count far_offset_listing = .ret 1 ∧
    print_assembly far_offset_listing [] = .undefined ∧
    ¬ ∃ lines, print_assembly far_offset_listing [] = .ret lines ∧ lines.length = 1 := by
  refine ⟨by decide, by decide, by decide, ?_⟩
  rintro ⟨lines, h, _⟩
  have hu : print_assembly far_offset_listing [] = .undefined := by decide
  rw [hu] at h
  cases h

theorem Outcome.isRet_bind {α β : Type} {x : Outcome α} {f : α → Outcome β}
    (h : (x.bind f).isRet = true) : ∃ a, x = .ret a ∧ (f a).isRet = true := by
  cases x with
  | ret a => exact ⟨a, rfl, h⟩
  | undefined => cases h
  | outOfFuel => cases h

theorem Outcome.isRet_iff {α : Type} {x : Outcome α} : x.isRet = true ↔ ∃ a, x = .ret a := by
  cases x with
  | ret a => exact ⟨fun _ => ⟨a, rfl⟩, fun _ => rfl⟩
  | undefined =>
    constructor
    · intro h; cases h
    · rintro ⟨_, h⟩; cases h
  | outOfFuel =>
    constructor
    · intro h; cases h
    · rintro ⟨_, h⟩; cases h

/-- When `fmt_preprocessed` returns `false` on some 80-byte buffer, `decode_loop`
returns `false`. -/
theorem decode_of_fmt_preprocessed_false (L : List Byte) (tokens : Nat)
    (hfail : ∃ (pbuf : List Byte) (d : Decoded), pbuf.length = 80 ∧
      fmt_preprocessed pbuf 80 L tokens = .ret d ∧ d.ok = false) :
    ∃ r, decode_loop L (L.length - tokens + 1) 80 80 tokens = .ret r ∧ r.1 = false := by
  obtain ⟨pbuf, d, h80, hd, hok⟩ := hfail
  rw [fmt_preprocessed_eq_decode, h80] at hd
  obtain ⟨r, hr, hw⟩ := Outcome.bind_eq_ret hd
  refine ⟨r, hr, ?_⟩
  cases Outcome.ret_inj hw
  exact hok

/-- C7. Per-record recovery: let `fmt_preprocessed` return `false` for the token
stream of record `k` (on some 80-byte buffer).  Then in every run that returns,
there is one line per record and line `k` has the placeholder as its source
text, the index `k`, the record's `virtual_address` and the byte column
`fmt_bytes` gives for the record's offset and count as usual; and the run does
return whenever the other records, each taken on its own, give their lines and
the offset, count, byte column and address of record `k` itself can be
computed: the failure neither aborts nor shortens the report. -/
theorem print_assembly_decode_failure (L O : List Byte) (as_off n k pp_off offpp : Nat)
    (has : load_dd L 40 = .ret as_off) (hn : record_count L = .ret n) (hk : k < n)
    (hpp : load_dd L 32 = .ret pp_off)
    (hoffpp : load_dd L (as_off + 28 * k + 4) = .ret offpp)
    (hfail : ∃ (pbuf : List Byte) (d : Decoded), pbuf.length = 80 ∧
      fmt_preprocessed pbuf 80 L (pp_off + offpp + 16) = .ret d ∧ d.ok = false) :
    (∀ lines, print_assembly L O = .ret lines →
      lines.length = n ∧
      ∃ line off count, lines[k]? = some line ∧ line.pbuf = placeholder ∧ line.index = k ∧
        load_dq L (as_off + 28 * k + 8) = .ret line.virtual_address ∧
        load_dd L (as_off + 28 * k) = .ret off ∧
        output_len L (as_off + 28 * k) n k off = .ret count ∧
        ∀ buf : List Byte, buf.length = 24 →
          (fmt_bytes buf 24 O off count).bind cstr = .ret line.obuf) ∧
    ((∀ j, j < n → j ≠ k → (record_line L O as_off n j).isRet = true) →
      ((load_dd L (as_off + 28 * k)).bind fun off =>
        (output_len L (as_off + 28 * k) n k off).bind fun count =>
        (fmt_bytes (List.replicate 24 0) 24 O off count).bind fun obuf =>
        (load_dq L (as_off + 28 * k + 8)).bind fun _ => cstr obuf).isRet = true →
      ∃ lines, print_assembly L O = .ret lines ∧ lines.length = n) := by
  obtain ⟨r, hr, hr1⟩ := decode_of_fmt_preprocessed_false L _ hfail
  constructor
  · intro lines hrun
    obtain ⟨as_off', n', h1, h2, hlen, hall⟩ := (print_assembly_iff L O lines).1 hrun
    rw [has] at h1; rw [hn] at h2
    cases Outcome.ret_inj h1; cases Outcome.ret_inj h2
    refine ⟨hlen, ?_⟩
    obtain ⟨line, hline, hrec⟩ := hall k hk
    obtain ⟨pp_off', offpp', r', off, count, obuf, e1, e2, e3, e4, e5, e6, e7, e8, e9, e10⟩ :=
      record_line_ret L O as_off n k line hrec
    rw [hpp] at e1; rw [hoffpp] at e2
    cases Outcome.ret_inj e1; cases Outcome.ret_inj e2
    rw [hr] at e3
    cases Outcome.ret_inj e3
    refine ⟨line, off, count, hline, ?_, e9, e7, e4, e5, fun buf h24 => ?_⟩
    · rw [e10]; simp [line_text, hr1]
    · have hfb := fmt_bytes_indep buf (List.replicate 24 0) 24 O off count h24 (by simp)
      rw [Nat.cast_ofNat] at hfb
      rw [hfb, e6, Outcome.bind_ret, e8]
  · intro hothers husual
    apply print_assembly_returns L O as_off n has hn
    intro j hj
    by_cases hjk : j = k
    · subst hjk
      obtain ⟨off, e4, husual⟩ := Outcome.isRet_bind husual
      obtain ⟨count, e5, husual⟩ := Outcome.isRet_bind husual
      obtain ⟨obuf, e6, husual⟩ := Outcome.isRet_bind husual
      obtain ⟨va, e7, husual⟩ := Outcome.isRet_bind husual
      obtain ⟨otext, e8⟩ := Outcome.isRet_iff.1 husual
      rw [record_line_eq, hpp, Outcome.bind_ret, hoffpp, Outcome.bind_ret, hr, Outcome.bind_ret,
        e4, Outcome.bind_ret, e5, Outcome.bind_ret, e6, Outcome.bind_ret, e7, Outcome.bind_ret,
        e8, Outcome.bind_ret]
      rfl
    · exact hothers j hj hjk

set_option maxRecDepth 20000 in
/-- C7, witness: record 0 of `long_line_listing` does not fit the line buffer;
both lines are printed, the first with the placeholder. -/
theorem print_assembly_decode_failure_witness :
    (∀ lines, print_assembly long_line_listing sample_output = .ret lines →
      lines.length = 2 ∧
      ∃ line off count, lines[0]? = some line ∧ line.pbuf = placeholder ∧ line.index = 0 ∧
        load_dq long_line_listing (64 + 28 * 0 + 8) = .ret line.virtual_address ∧
        load_dd long_line_listing (64 + 28 * 0) = .ret off ∧
        output_len long_line_listing (64 + 28 * 0) 2 0 off = .ret count ∧
        ∀ buf : List Byte, buf.length = 24 →
          (fmt_bytes buf 24 sample_output off count).bind cstr = .ret line.obuf) ∧
    ((∀ j, j < 2 → j ≠ 0 → (record_line long_line_listing sample_output 64 2 j).isRet = true) →
      ((load_dd long_line_listing (64 + 28 * 0)).bind fun off =>
        (output_len long_line_listing (64 + 28 * 0) 2 0 off).bind fun count =>
        (fmt_bytes (List.replicate 24 0) 24 sample_output off count).bind fun obuf =>
        (load_dq long_line_listing (64 + 28 * 0 + 8)).bind fun _ => cstr obuf).isRet = true →
      ∃ lines, print_assembly long_line_listing sample_output = .ret lines ∧
        lines.length = 2) :=
  print_assembly_decode_failure long_line_listing sample_output 64 2 0 120 0
    (by decide) (by decide) (by decide) (by decide) (by decide)
    ⟨List.replicate 80 0, ⟨false, List.replicate 80 0, 0⟩, by decide, by decide, by decide⟩

theorem hex_pairs_followed_eq (bs : List Byte) (h : bs ≠ []) :
    hex_pairs_followed bs = hex_pairs_spaced bs ++ [0x20] := by
  induction bs with
  | nil => exact absurd rfl h
  | cons b bs ih =>
    rw [hex_pairs_spaced_cons]
    by_cases he : bs = []
    · simp [he, hex_pairs_followed]
    · rw [if_neg he]
      simp [hex_pairs_followed, ih he]

theorem hex_pairs_spaced_digits (bs : List Byte) :
    ((hex_pairs_spaced bs).filter fun c => c ≠ 0x20).length = 2 * bs.length := by
  induction bs with
  | nil => rfl
  | cons b bs ih =>
    have h1 := (hex_digit_ne (b.val / 16) (by have := b.isLt; omega)).2
    have h2 := (hex_digit_ne (b.val % 16) (by omega)).2
    rw [hex_pairs_spaced_cons]
    by_cases he : bs = []
    · simp [he, hex_pair, List.filter_cons, h1, h2]
    · rw [if_neg he]
      simp only [hex_pair, List.cons_append, List.nil_append, List.filter_cons, h1, h2,
        ne_eq, not_false_eq_true, decide_True, if_true, not_true_eq_false, decide_False,
        if_false, List.length_cons]
      simp only [ne_eq] at ih
      rw [if_neg (by decide), ih]
      omega

theorem byte_column_digits (W : Nat) (bs : List Byte) :
    ((byte_column W bs).filter fun c => c ≠ 0x20).length = 2 * bs.length := by
  unfold byte_column
  rw [List.filter_append, List.length_append, hex_pairs_spaced_digits]
  have : (List.replicate (W - 1 - (hex_pairs_spaced bs).length) (0x20 : Byte)).filter
      (fun c => c ≠ 0x20) = [] := by
    rw [List.filter_eq_nil_iff]
    intro a ha
    rw [List.mem_replicate] at ha
    simp [ha.2]
  rw [this]
  rfl

/-- C9. Truncation boundary of `fmt_bytes`: for every `n >= 1` and `n` source
bytes, a buffer of width `3n + 1` shows all `n` hex pairs, each followed by one
space; a buffer of width `3n` shows all `n` hex pairs, joined by single spaces,
without the space after the last one; and for every width and count the column
holds an even number of hex digits (characters other than a blank): no pair is
cut. -/
theorem fmt_bytes_truncation_boundary (n : Nat) (buf src : List Byte) (s : Nat)
    (hn : 1 ≤ n) (hint : 3 * n + 1 < 2147483648) (hbuf : 3 * n + 1 ≤ buf.length)
    (hsrc : s + n ≤ src.length) :
    fmt_bytes buf ((3 * n + 1 : Nat) : Int) src s n =
      .ret (hex_pairs_followed ((src.drop s).take n) ++ 0 :: buf.drop (3 * n + 1)) ∧
    fmt_bytes buf ((3 * n : Nat) : Int) src s n =
      .ret (hex_pairs_spaced ((src.drop s).take n) ++ 0 :: buf.drop (3 * n)) ∧
    ∀ (W m : Nat) (buf2 src2 : List Byte) (s2 : Nat), 1 ≤ W → W < 2147483648 →
      W ≤ buf2.length → s2 + m ≤ src2.length →
      ∃ col, fmt_bytes buf2 W src2 s2 m = .ret (col ++ 0 :: buf2.drop W) ∧
        col.length = W - 1 ∧ 2 ∣ (col.filter fun c => c ≠ 0x20).length := by
  have hlen : ((src.drop s).take n).length = n := by
    rw [List.length_take, List.length_drop]; omega
  have hne : (src.drop s).take n ≠ [] := by
    intro h; rw [h] at hlen; simp at hlen; omega
  refine ⟨?_, ?_, ?_⟩
  · rw [fmt_bytes_eq_byte_column (3 * n + 1) n buf src s (by omega) hint hbuf
      (Or.inr (by omega))]
    rw [show min n ((3 * n + 1) / 3) = n by omega, hex_pairs_followed_eq _ hne]
    unfold byte_column
    rw [hex_pairs_spaced_length, hlen, show 3 * n + 1 - 1 - (3 * n - 1) = 1 by omega]
    rfl
  · rw [fmt_bytes_eq_byte_column (3 * n) n buf src s (by omega) (by omega) (by omega)
      (Or.inr (by omega))]
    rw [show min n (3 * n / 3) = n by omega]
    unfold byte_column
    rw [hex_pairs_spaced_length, hlen, show 3 * n - 1 - (3 * n - 1) = 0 by omega]
    simp
  · intro W m buf2 src2 s2 hW hWint hb hs
    refine ⟨_, fmt_bytes_eq_byte_column W m buf2 src2 s2 hW hWint hb (Or.inr (by omega)), ?_, ?_⟩
    · apply byte_column_length _ _ hW
      rw [List.length_take]; omega
    · rw [byte_column_digits]
      exact Dvd.intro _ rfl

/-- C9, witness: five bytes into widths 16 and 15. -/
theorem fmt_bytes_truncation_boundary_witness :
    fmt_bytes (List.replicate 16 0xff) ((3 * 5 + 1 : Nat) : Int)
        [0xb8, 0x01, 0x23, 0xcd, 0xef] 0 (5 : Nat) =
      .ret (hex_pairs_followed ((([0xb8, 0x01, 0x23, 0xcd, 0xef] : List Byte).drop 0).take 5) ++
        0 :: (List.replicate 16 0xff).drop (3 * 5 + 1)) ∧
    fmt_bytes (List.replicate 16 0xff) ((3 * 5 : Nat) : Int)
        [0xb8, 0x01, 0x23, 0xcd, 0xef] 0 (5 : Nat) =
      .ret (hex_pairs_spaced ((([0xb8, 0x01, 0x23, 0xcd, 0xef] : List Byte).drop 0).take 5) ++
        0 :: (List.replicate 16 0xff).drop (3 * 5)) ∧
    ∀ (W m : Nat) (buf2 src2 : List Byte) (s2 : Nat), 1 ≤ W → W < 2147483648 →
      W ≤ buf2.length → s2 + m ≤ src2.length →
      ∃ col, fmt_bytes buf2 W src2 s2 m = .ret (col ++ 0 :: buf2.drop W) ∧
        col.length = W - 1 ∧ 2 ∣ (col.filter fun c => c ≠ 0x20).length :=
  fmt_bytes_truncation_boundary 5 (List.replicate 16 0xff) [0xb8, 0x01, 0x23, 0xcd, 0xef] 0
    (by decide) (by decide) (by decide) (by decide)

/-! ## The layout of a report line -/

theorem digits_rev_length (base : Nat) :
    ∀ (fuel n k : Nat), 1 ≤ k → k ≤ fuel → n < base ^ k →
      (digits_rev base fuel n).length ≤ k := by
  intro fuel
  induction fuel with
  | zero => intro n k h1 h2 _; omega
  | succ fuel ih =>
    intro n k h1 h2 hn
    unfold digits_rev
    by_cases hlt : n < base
    · rw [if_pos hlt]; simpa using h1
    · rw [if_neg hlt]
      have hk : 2 ≤ k := by
        by_contra hcon
        have : k = 1 := by omega
        rw [this, pow_one] at hn
        exact hlt hn
      have hdiv : n / base < base ^ (k - 1) := by
        apply Nat.div_lt_of_lt_mul
        rw [← pow_succ', show k - 1 + 1 = k by omega]
        exact hn
      have := ih (n / base) (k - 1) (by omega) (by omega) hdiv
      simp only [List.length_cons]
      omega

theorem pad_left_length (c : Byte) (width : Nat) (t : List Byte) (h : t.length ≤ width) :
    (pad_left c width t).length = width := by
  unfold pad_left
  rw [List.length_append, List.length_replicate]
  omega

/-- Every byte column a run prints has 23 characters. -/
theorem print_assembly_column_length (L O : List Byte) (lines : List ReportLine)
    (hrun : print_assembly L O = .ret lines) (i : Nat) (line : ReportLine)
    (hl : lines[i]? = some line) : line.obuf.length = 23 := by
  obtain ⟨as_off, n, h1, h2, hlen, _⟩ := (print_assembly_iff L O lines).1 hrun
  have hi : i < n := by
    rw [← hlen]
    exact (List.getElem?_eq_some_iff.1 hl).1
  obtain ⟨line', off, count, hl', _, _, _, e4⟩ :=
    print_assembly_column L O lines as_off n i hrun h1 h2 hi
  rw [hl] at hl'
  cases hl'
  rw [e4, byte_column_length 24 _ (by omega) (by rw [List.length_take]; omega)]

/-- C10 (amended). Layout of a report line: the line is the index field, one
space, the address field, ` | `, the byte column, ` | `, the source text and a
newline.  For an index below `10^8` and a `virtual_address` below `2^32` both
fields have exactly 8 characters, so the byte column begins at character 20 of
the line and, the column having 23 characters, the source text at character
46; and the byte column of every line a run prints has 23 characters. -/
theorem printf_line_layout (l : ReportLine) (hi : l.index < 100000000)
    (hv : l.virtual_address < 4294967296) :
    printf_line l =
      pad_left 0x20 8 (digit_chars 10 l.index) ++ [0x20] ++
      pad_left 0x30 8 (digit_chars 16 l.virtual_address) ++ [0x20, 0x7c, 0x20] ++
      l.obuf ++ [0x20, 0x7c, 0x20] ++ l.pbuf ++ [0x0a] ∧
    (pad_left 0x20 8 (digit_chars 10 l.index)).length = 8 ∧
    (pad_left 0x30 8 (digit_chars 16 l.virtual_address)).length = 8 ∧
    (printf_line l).drop 20 = l.obuf ++ [0x20, 0x7c, 0x20] ++ l.pbuf ++ [0x0a] ∧
    (l.obuf.length = 23 → (printf_line l).drop 46 = l.pbuf ++ [0x0a]) ∧
    ∀ (L O : List Byte) (lines : List ReportLine) (i : Nat) (line : ReportLine),
      print_assembly L O = .ret lines → lines[i]? = some line → line.obuf.length = 23 := by
  have h1 : (pad_left 0x20 8 (digit_chars 10 l.index)).length = 8 := by
    apply pad_left_length
    unfold digit_chars
    rw [List.length_map, List.length_reverse]
    exact digits_rev_length 10 64 _ 8 (by omega) (by omega) (by norm_num; exact hi)
  have h2 : (pad_left 0x30 8 (digit_chars 16 l.virtual_address)).length = 8 := by
    apply pad_left_length
    unfold digit_chars
    rw [List.length_map, List.length_reverse]
    exact digits_rev_length 16 64 _ 8 (by omega) (by omega) (by norm_num; exact hv)
  have h20 : (pad_left 0x20 8 (digit_chars 10 l.index) ++ [0x20] ++
      pad_left 0x30 8 (digit_chars 16 l.virtual_address) ++ [0x20, 0x7c, 0x20]).length = 20 := by
    simp only [List.length_append, h1, h2, List.length_cons, List.length_nil]
  refine ⟨rfl, h1, h2, ?_, ?_, fun L O lines i line hrun hl =>
    print_assembly_column_length L O lines hrun i line hl⟩
  · have e : printf_line l =
        (pad_left 0x20 8 (digit_chars 10 l.index) ++ [0x20] ++
          pad_left 0x30 8 (digit_chars 16 l.virtual_address) ++ [0x20, 0x7c, 0x20]) ++
        (l.obuf ++ [0x20, 0x7c, 0x20] ++ l.pbuf ++ [0x0a]) := by
      unfold printf_line
      simp only [List.append_assoc]
    rw [e, ← h20, List.drop_left]
  · intro h23
    have h46 : (pad_left 0x20 8 (digit_chars 10 l.index) ++ [0x20] ++
        pad_left 0x30 8 (digit_chars 16 l.virtual_address) ++ [0x20, 0x7c, 0x20] ++
        l.obuf ++ [0x20, 0x7c, 0x20]).length = 46 := by
      simp only [List.length_append, h1, h2, h23, List.length_cons, List.length_nil]
    have e : printf_line l =
        (pad_left 0x20 8 (digit_chars 10 l.index) ++ [0x20] ++
          pad_left 0x30 8 (digit_chars 16 l.virtual_address) ++ [0x20, 0x7c, 0x20] ++
          l.obuf ++ [0x20, 0x7c, 0x20]) ++ (l.pbuf ++ [0x0a]) := by
      unfold printf_line
      simp only [List.append_assoc]
    rw [e, ← h46, List.drop_left]

/-- C10, witness: the line of index 1 and address `0x401003`. -/
theorem printf_line_layout_witness :
    printf_line ⟨1, 0x401003, List.replicate 23 0x20, [0x20, 0x6d]⟩ =
      pad_left 0x20 8 (digit_chars 10 1) ++ [0x20] ++
      pad_left 0x30 8 (digit_chars 16 0x401003) ++ [0x20, 0x7c, 0x20] ++
      List.replicate 23 0x20 ++ [0x20, 0x7c, 0x20] ++ [0x20, 0x6d] ++ [0x0a] ∧
    (pad_left 0x20 8 (digit_chars 10 1)).length = 8 ∧
    (pad_left 0x30 8 (digit_chars 16 0x401003)).length = 8 ∧
    (printf_line ⟨1, 0x401003, List.replicate 23 0x20, [0x20, 0x6d]⟩).drop 20 =
      List.replicate 23 0x20 ++ [0x20, 0x7c, 0x20] ++ [0x20, 0x6d] ++ [0x0a] ∧
    ((List.replicate 23 (0x20 : Byte)).length = 23 →
      (printf_line ⟨1, 0x401003, List.replicate 23 0x20, [0x20, 0x6d]⟩).drop 46 =
        [0x20, 0x6d] ++ [0x0a]) ∧
    ∀ (L O : List Byte) (lines : List ReportLine) (i : Nat) (line : ReportLine),
      print_assembly L O = .ret lines → lines[i]? = some line → line.obuf.length = 23 :=
  printf_line_layout ⟨1, 0x401003, List.replicate 23 0x20, [0x20, 0x6d]⟩
    (by decide) (by decide)

/-- C10, counterexample: with the `virtual_address` `2^32` the address field has
nine characters, and the byte column `b8` begins at character 21 of the line
instead of character 20, where it begins for the address `0x1000`. -/
theorem printf_line_layout_counterexample :
    printf_line ⟨0, 0x1000, [0x62, 0x38], []⟩ =
      [0x20, 0x20, 0x20, 0x20, 0x20, 0x20, 0x20, 0x30, 0x20,
       0x30, 0x30, 0x30, 0x30, 0x31, 0x30, 0x30, 0x30,
       0x20, 0x7c, 0x20, 0x62, 0x38, 0x20, 0x7c, 0x20, 0x0a] ∧
    printf_line ⟨1, 0x100000000, [0x62, 0x38], []⟩ =
      [0x20, 0x20, 0x20, 0x20, 0x20, 0x20, 0x20, 0x31, 0x20,
       0x31, 0x30, 0x30, 0x30, 0x30, 0x30, 0x30, 0x30, 0x30,
       0x20, 0x7c, 0x20, 0x62, 0x38, 0x20, 0x7c, 0x20, 0x0a] ∧
    (printf_line ⟨0, 0x1000, [0x62, 0x38], []⟩).drop 20 = [0x62, 0x38, 0x20, 0x7c, 0x20, 0x0a] ∧
    (printf_line ⟨1, 0x100000000, [0x62, 0x38], []⟩).drop 20 ≠
      [0x62, 0x38, 0x20, 0x7c, 0x20, 0x0a] := by
  decide

/-! ## Lengths read as signed numbers, tables and header fields taken as they are -/

theorem load_succ_of_drop {src : List Byte} {p : Nat} {x y : Byte} {r : List Byte}
    (h : src.drop p = x :: y :: r) : load src (p + 1) = .ret y := by
  have := drop_add_of_drop (b := [x]) (by simpa using h)
  exact load_of_drop (by simpa using this)

/-- C11, the code on an identifier whose length byte is 128 or more: read through
the signed `char` the length is negative, it passes the check
`tlen + 1 >= len` for every capacity `len >= 1`, and `memcpy` is called with a
negative size: the behaviour is undefined, whatever the capacity and the bytes
that follow. -/
theorem fmt_preprocessed_identifier_length_negative (buf src : List Byte) (len : Int)
    (tokens : Nat) (l : Byte) (rest : List Byte)
    (hsrc : src.drop tokens = 0x1a :: l :: rest) (hl : 128 ≤ l.val) (hlen : 1 ≤ len) :
    sx8 l = (l.val : Int) - 256 ∧ fmt_preprocessed buf len src tokens = .undefined := by
  have hsx : sx8 l = (l.val : Int) - 256 := by
    unfold sx8; rw [if_neg (by omega)]
  refine ⟨hsx, ?_⟩
  rw [fmt_preprocessed_eq_decode, decode_loop, load_of_drop hsrc, Outcome.bind_ret,
    if_pos rfl, load_succ_of_drop hsrc, Outcome.bind_ret]
  simp only [hsx]
  have hb := l.isLt
  rw [if_neg (by omega)]
  by_cases hroom : buf.length < 1
  · rw [if_pos hroom]; rfl
  · rw [if_neg hroom, if_pos (by omega)]; rfl

set_option maxRecDepth 20000 in
/-- C11, witness: the length byte `0x80` with capacity 80, followed by 128 bytes
and a terminator. -/
theorem fmt_preprocessed_identifier_length_negative_witness :
    sx8 (0x80 : Byte) = ((0x80 : Byte).val : Int) - 256 ∧
    fmt_preprocessed (List.replicate 80 0) 80
      ([0x1a, 0x80] ++ (List.replicate 128 0x41 ++ [0])) 0 = .undefined :=
  fmt_preprocessed_identifier_length_negative (List.replicate 80 0)
    ([0x1a, 0x80] ++ (List.replicate 128 0x41 ++ [0])) 80 0 0x80
    (List.replicate 128 0x41 ++ [0]) (by decide) (by decide) (by decide)

theorem load_int_of_drop {src : List Byte} {p : Nat} {b0 b1 b2 b3 : Byte} {r : List Byte}
    (h : src.drop p = b0 :: b1 :: b2 :: b3 :: r) :
    load_int src p = .ret (wrap32 (le_value [b0, b1, b2, b3])) := by
  have hl := length_of_drop h
  simp only [List.length_cons] at hl
  have hle : p + 4 ≤ src.length := by omega
  unfold load_int load_dd load_bytes
  rw [if_pos hle, h]
  rfl

/-- C12, the code on a string literal whose 4-byte length is `2^31` or more: read
as an `int` the length is negative, it passes the check `tlen + 2 >= len` for
every capacity `len >= 2`, and `memcpy` is called with a negative size: the
behaviour is undefined; the decode does not fail with `LineTooLong`. -/
theorem fmt_preprocessed_string_length_negative (buf src : List Byte) (len : Int)
    (tokens : Nat) (b0 b1 b2 b3 : Byte) (rest : List Byte)
    (hsrc : src.drop tokens = 0x22 :: b0 :: b1 :: b2 :: b3 :: rest)
    (hN : 2147483648 ≤ le_value [b0, b1, b2, b3]) (hlen : 2 ≤ len) :
    fmt_preprocessed buf len src tokens = .undefined := by
  have hld : load_int src (tokens + 1) = .ret (wrap32 (le_value [b0, b1, b2, b3])) := by
    apply load_int_of_drop (r := rest)
    have := drop_add_of_drop (b := [0x22]) (by simpa using hsrc)
    simpa using this
  have hv : le_value [b0, b1, b2, b3] < 4294967296 := by
    simp only [le_value]
    have := b0.isLt; have := b1.isLt; have := b2.isLt; have := b3.isLt
    omega
  have hw : wrap32 (le_value [b0, b1, b2, b3]) = (le_value [b0, b1, b2, b3] : Int) - 4294967296 := by
    unfold wrap32; omega
  rw [fmt_preprocessed_eq_decode, decode_loop, load_of_drop hsrc, Outcome.bind_ret,
    if_neg (by decide), if_pos rfl, hld, Outcome.bind_ret, hw]
  have hN2 : (2147483648 : Int) ≤ (le_value [b0, b1, b2, b3] : Int) := by omega
  have hv2 : (le_value [b0, b1, b2, b3] : Int) < 4294967296 := by omega
  generalize (le_value [b0, b1, b2, b3] : Int) = N at hN2 hv2 ⊢
  rw [wrap32_of_range (N - 4294967296 + 2) (by omega) (by omega)]
  generalize wrap32 (len - wrap32 (N - 4294967296 + 3)) = len2
  rw [if_neg (by omega)]
  by_cases hroom : buf.length < 2
  · rw [if_pos hroom]; rfl
  · rw [if_neg hroom, if_pos (by omega)]; rfl

/-- C12, witness: the length bytes `00 00 00 80` (`N = 2^31`) with capacity 80. -/
theorem fmt_preprocessed_string_length_negative_witness :
    fmt_preprocessed (List.replicate 80 0) 80 [0x22, 0, 0, 0, 0x80, 0x41, 0] 0 = .undefined :=
  fmt_preprocessed_string_length_negative (List.replicate 80 0) [0x22, 0, 0, 0, 0x80, 0x41, 0]
    80 0 0 0 0 0x80 [0x41, 0] (by decide) (by decide) (by decide)

set_option maxRecDepth 20000 in
/-- C13, counterexample: the assembly table of `partial_table_listing` has the
length 29, not a multiple of 28, and the run returns the line of its one
complete record. -/
theorem print_assembly_partial_table_counterexample :
    load_dd partial_table_listing 44 = .ret 29 ∧ 29 % 28 ≠ 0 ∧
    print_assembly partial_table_listing sample_output =
      .ret [⟨0, 0x401000, List.replicate 23 0x20, [0x20, 0x6d, 0x6f, 0x76]⟩] := by
  decide

/-- C13 (amended). For every listing whose assembly table length is not a
multiple of 28, `print_assembly` takes the `length / 28` complete records and
leaves the trailing bytes out: when each of those records, taken on its own,
gives its line, the run returns exactly `length / 28` lines, which cover fewer
than `length` bytes of the table. -/
theorem print_assembly_partial_table (L O : List Byte) (as_off length : Nat)
    (has : load_dd L 40 = .ret as_off) (hlen : load_dd L 44 = .ret length)
    (hpart : length % 28 ≠ 0)
    (hall : ∀ j, j < length / 28 → (record_line L O as_off (length / 28) j).isRet = true) :
    record_count L = .ret (length / 28) ∧
    ∃ lines, print_assembly L O = .ret lines ∧ lines.length = length / 28 ∧
      28 * lines.length < length := by
  have hn : record_count L = .ret (length / 28) := by
    unfold record_count; rw [hlen, Outcome.bind_ret]
  refine ⟨hn, ?_⟩
  obtain ⟨lines, h1, h2⟩ := print_assembly_returns L O as_off (length / 28) has hn hall
  refine ⟨lines, h1, h2, ?_⟩
  rw [h2]; omega

set_option maxRecDepth 20000 in
/-- C13, witness: `partial_table_listing`, length 29. -/
theorem print_assembly_partial_table_witness :
    record_count partial_table_listing = .ret (29 / 28) ∧
    ∃ lines, print_assembly partial_table_listing sample_output = .ret lines ∧
      lines.length = 29 / 28 ∧ 28 * lines.length < 29 :=
  print_assembly_partial_table partial_table_listing sample_output 64 29
    (by decide) (by decide) (by decide) (by decide)

/-- The offsets of `struct header` that the models of `print_assembly` and `main`
use. -/
theorem header_offsets :
    header_offsetof .output_file_string_offset = 12 ∧
    header_offsetof .strings_offset = 16 ∧ header_offsetof .strings_length = 20 ∧
    header_offsetof .symbols_offset = 24 ∧ header_offsetof .preprocessed_offset = 32 ∧
    header_offsetof .assembly_offset = 40 ∧ header_offsetof .assembly_length = 44 ∧
    header_offsetof .section_names_offset = 48 ∧
    header_offsetof .symbol_references_offset = 56 ∧ header_sizeof = 64 := by
  decide

/-- C14. Output-file name derivation: `struct header` has 64 bytes, with
`output_file_string_offset` at bytes 12..15 and the six table descriptors at 16,
24, 32, 40, 48 and 56 in the order strings, symbols, preprocessed, assembly,
section names, symbol references; the name `main` opens is the string read at
listing offset `strings.offset + output_file_string_offset`, the two fields
being the little-endian `dd` at bytes 16 and 12; and when the listing holds at
that offset the bytes `name` without a zero, followed by a zero, the name is
`name`. -/
theorem output_fname_derivation (L : List Byte) :
    (header_offsetof .output_file_string_offset = 12 ∧
      header_offsetof .strings_offset = 16 ∧ header_offsetof .symbols_offset = 24 ∧
      header_offsetof .preprocessed_offset = 32 ∧ header_offsetof .assembly_offset = 40 ∧
      header_offsetof .section_names_offset = 48 ∧
      header_offsetof .symbol_references_offset = 56 ∧ header_sizeof = 64) ∧
    output_fname L =
      ((load_bytes L 16 4).bind fun s => (load_bytes L 12 4).bind fun o =>
        cstr (L.drop (le_value s + le_value o))) ∧
    ∀ (strings_offset name_offset : Nat) (name rest : List Byte),
      load_dd L 16 = .ret strings_offset → load_dd L 12 = .ret name_offset →
      L.drop (strings_offset + name_offset) = name ++ 0 :: rest → (∀ b ∈ name, b ≠ 0) →
      output_fname L = .ret name := by
  have h12 : header_offsetof .output_file_string_offset = 12 := by decide
  have h16 : header_offsetof .strings_offset = 16 := by decide
  refine ⟨by decide, ?_, ?_⟩
  · unfold output_fname load_dd
    rw [h12, h16, Outcome.bind_assoc]
    apply Outcome.bind_congr; intro s
    rw [Outcome.bind_ret, Outcome.bind_assoc]
    apply Outcome.bind_congr; intro o
    rw [Outcome.bind_ret]
  · intro so oo name rest hs ho hdrop hnz
    unfold output_fname
    rw [h12, h16, hs, Outcome.bind_ret, ho, Outcome.bind_ret, hdrop, cstr_append_zero]
    congr 1
    rw [List.takeWhile_eq_self_iff]
    intro b hb
    simpa using hnz b hb

set_option maxRecDepth 20000 in
/-- C14, witness: a header whose strings table is at 64 and whose output-file
name offset is 2, with the name `a.o` at offset 66. -/
theorem output_fname_derivation_witness :
    output_fname (List.replicate 12 0 ++ le_bytes 4 2 ++ le_bytes 4 64 ++ List.replicate 44 0 ++
      [0x78, 0, 0x61, 0x2e, 0x6f, 0, 0x7a]) = .ret [0x61, 0x2e, 0x6f] :=
  (output_fname_derivation (List.replicate 12 0 ++ le_bytes 4 2 ++ le_bytes 4 64 ++
      List.replicate 44 0 ++ [0x78, 0, 0x61, 0x2e, 0x6f, 0, 0x7a])).2.2 64 2 [0x61, 0x2e, 0x6f]
    [0x7a] (by decide) (by decide) (by decide) (by decide)

set_option maxRecDepth 20000 in
/-- C15, counterexample: the symbols table descriptor of
`unchecked_header_listing` has offset and length `0xffffffff`, far beyond the
171 bytes of the listing, and the run returns its two lines. -/
theorem print_assembly_unchecked_header_counterexample :
    unchecked_header_listing.length = 171 ∧
    load_dd unchecked_header_listing 24 = .ret 0xffffffff ∧
    load_dd unchecked_header_listing 28 = .ret 0xffffffff ∧
    print_assembly unchecked_header_listing sample_output = .ret sample_lines := by
  decide

/-- C15 (amended). The header is read without validation: `print_assembly` reads
`assembly.offset` and `assembly.length` at bytes 40 and 44; a listing shorter
than 48 bytes makes it read past the end of the buffer (undefined behaviour,
no error is reported); and for every listing in which the two fields can be
read and every record, taken on its own, gives its line, the run returns one
line per record, whatever the other descriptors and the length of the buffer
are. -/
theorem print_assembly_unchecked_header (L O : List Byte) :
    (L.length < 48 → print_assembly L O = .undefined) ∧
    ∀ (as_off length : Nat), load_dd L 40 = .ret as_off → load_dd L 44 = .ret length →
      (∀ j, j < length / 28 → (record_line L O as_off (length / 28) j).isRet = true) →
      ∃ lines, print_assembly L O = .ret lines ∧ lines.length = length / 28 := by
  constructor
  · intro hshort
    have h44 : load_dd L 44 = .undefined := by
      unfold load_dd load_bytes
      rw [if_neg (by omega)]; rfl
    unfold print_assembly record_count
    rw [h44]
    cases h40 : load_dd L 40 with
    | ret a => rfl
    | undefined => rfl
    | outOfFuel => exact absurd h40 (load_dd_ne_outOfFuel _ _)
  · intro as_off length has hlen hall
    have hn : record_count L = .ret (length / 28) := by
      unfold record_count; rw [hlen, Outcome.bind_ret]
    exact print_assembly_returns L O as_off (length / 28) has hn hall

set_option maxRecDepth 20000 in
/-- C15, witness: `unchecked_header_listing` gives its two lines. -/
theorem print_assembly_unchecked_header_witness :
    ∃ lines, print_assembly unchecked_header_listing sample_output = .ret lines ∧
      lines.length = 56 / 28 :=
  (print_assembly_unchecked_header unchecked_header_listing sample_output).2 64 56
    (by decide) (by decide) (by decide)

theorem load_undefined {src : List Byte} {p : Nat} (h : src.length ≤ p) :
    load src p = .undefined := by
  unfold load
  rw [List.getElem?_eq_none h]

theorem memcpy_undefined_of_short (dst : List Byte) (d : Nat) (src : List Byte) (s : Nat)
    (n : Int) (h : src.length < s + n.toNat) : memcpy dst d src s n = .undefined := by
  unfold memcpy
  by_cases hn : n < 0
  · rw [if_pos hn]
  · rw [if_neg hn, if_neg (by omega)]

set_option maxRecDepth 20000 in
/-- C16, counterexample: the token stream of `truncated_listing` is an identifier
that declares 5 bytes, 2 bytes before the end of the listing; `fmt_preprocessed`
copies past the end of the listing, the behaviour is undefined, and so is that
of the run: no placeholder line is printed. -/
theorem fmt_preprocessed_truncated_counterexample :
    truncated_listing.length = 112 ∧
    fmt_preprocessed (List.replicate 80 0) 80 truncated_listing (92 + 0 + 16) = .undefined ∧
    print_assembly truncated_listing sample_output = .undefined := by
  decide

/-- C16 (amended). The decoder does not know where the listing ends.  In an
iteration of its loop: when the token stream has reached the end of the listing
the read of the next byte is outside it; so is the read of an identifier length
or of a string length that the listing does not hold in full; an identifier or
string whose byte run extends past the end is copied from outside the listing
when its length passes the capacity check, and is answered with `false` (the
placeholder line) when it does not.  Outside the listing the behaviour is
undefined. -/
theorem fmt_preprocessed_past_end (src buf : List Byte) (fuel pos : Nat) (len : Int)
    (tokens : Nat) :
    (src.length ≤ tokens →
      fmt_preprocessed_loop src (fuel + 1) buf pos len tokens = .undefined) ∧
    (load src tokens = .ret 0x1a → src.length ≤ tokens + 1 →
      fmt_preprocessed_loop src (fuel + 1) buf pos len tokens = .undefined) ∧
    (∀ l : Byte, load src tokens = .ret 0x1a → load src (tokens + 1) = .ret l →
      src.length < tokens + 2 + (sx8 l).toNat →
      (sx8 l + 1 < len →
        fmt_preprocessed_loop src (fuel + 1) buf pos len tokens = .undefined) ∧
      (sx8 l + 1 ≥ len →
        fmt_preprocessed_loop src (fuel + 1) buf pos len tokens = .ret ⟨false, buf, pos⟩)) ∧
    (load src tokens = .ret 0x22 → src.length < tokens + 5 →
      fmt_preprocessed_loop src (fuel + 1) buf pos len tokens = .undefined) ∧
    (∀ tlen : Int, load src tokens = .ret 0x22 → load_int src (tokens + 1) = .ret tlen →
      src.length < tokens + 5 + tlen.toNat →
      (wrap32 (tlen + 2) < len →
        fmt_preprocessed_loop src (fuel + 1) buf pos len tokens = .undefined) ∧
      (wrap32 (tlen + 2) ≥ len →
        fmt_preprocessed_loop src (fuel + 1) buf pos len tokens = .ret ⟨false, buf, pos⟩)) := by
  refine ⟨?_, ?_, ?_, ?_, ?_⟩
  · intro h
    rw [fmt_preprocessed_loop, load_undefined h]; rfl
  · intro hc h
    rw [fmt_preprocessed_loop, hc, Outcome.bind_ret, if_pos rfl, load_undefined h]; rfl
  · intro l hc hl hshort
    constructor
    · intro hfit
      rw [fmt_preprocessed_loop, hc, Outcome.bind_ret, if_pos rfl, hl, Outcome.bind_ret]
      simp only []
      rw [if_neg (by omega)]
      cases hs : store buf pos 0x20 with
      | undefined => rfl
      | outOfFuel => exact absurd hs (store_ne_outOfFuel _ _ _)
      | ret buf1 => rw [Outcome.bind_ret, memcpy_undefined_of_short _ _ _ _ _ hshort]; rfl
    · intro hfail
      rw [fmt_preprocessed_loop, hc, Outcome.bind_ret, if_pos rfl, hl, Outcome.bind_ret]
      simp only []
      rw [if_pos hfail]
  · intro hc h
    have hli : load_int src (tokens + 1) = .undefined := by
      unfold load_int load_dd load_bytes
      rw [if_neg (by omega)]; rfl
    rw [fmt_preprocessed_loop, hc, Outcome.bind_ret, if_neg (by decide), if_pos rfl, hli]; rfl
  · intro tlen hc hl hshort
    constructor
    · intro hfit
      rw [fmt_preprocessed_loop, hc, Outcome.bind_ret, if_neg (by decide), if_pos rfl, hl,
        Outcome.bind_ret]
      generalize wrap32 (tlen + 2) = w2 at hfit ⊢
      generalize wrap32 (len - wrap32 (tlen + 3)) = len2
      rw [if_neg (by omega)]
      cases hs : store buf pos 0x20 with
      | undefined => rfl
      | outOfFuel => exact absurd hs (store_ne_outOfFuel _ _ _)
      | ret buf1 =>
        rw [Outcome.bind_ret]
        cases hs2 : store buf1 (pos + 1) 0x22 with
        | undefined => rfl
        | outOfFuel => exact absurd hs2 (store_ne_outOfFuel _ _ _)
        | ret buf2 => rw [Outcome.bind_ret, memcpy_undefined_of_short _ _ _ _ _ hshort]; rfl
    · intro hfail
      rw [fmt_preprocessed_loop, hc, Outcome.bind_ret, if_neg (by decide), if_pos rfl, hl,
        Outcome.bind_ret]
      generalize wrap32 (tlen + 2) = w2 at hfail ⊢
      rw [if_pos hfail]

/-- C16, witness: the token stream `1A 05 41 41` with nothing after it. -/
theorem fmt_preprocessed_past_end_witness :
    fmt_preprocessed_loop [0x1a, 5, 0x41, 0x41] (4 + 1) (List.replicate 80 0) 0 80 0 =
      .undefined :=
  ((fmt_preprocessed_past_end [0x1a, 5, 0x41, 0x41] (List.replicate 80 0) 4 0 80 0).2.2.1 5
    (by decide) (by decide) (by decide)).1 (by decide)

theorem render_length_pos (t : Token) : 1 ≤ t.render.length := by
  cases t with
  | identifier b => simp [Token.render]
  | stringLiteral b => simp [Token.render]
  | literalChar c => simp only [Token.render]; split <;> simp

theorem render_tokens_length_pos (t : Token) (ts : List Token) :
    1 ≤ (render_tokens (t :: ts)).length := by
  have := render_length_pos t
  simp only [render_tokens, List.length_append]
  omega

/-- The answer for a line is the answer for its tail with the rendering of the
head put before, except for a line that is a single `,` or `:`. -/
theorem expected_decode_cons (t : Token) (ts : List Token) (len : Int)
    (h : ts ≠ [] ∨ t.is_punct = false) :
    expected_decode (t :: ts) len =
      ((expected_decode ts (len - t.render.length)).1,
        t.render ++ (expected_decode ts (len - t.render.length)).2) := by
  cases ts with
  | nil =>
    have hp : t.is_punct = false := by
      rcases h with h | h
      · exact absurd rfl h
      · exact h
    simp [expected_decode, ends_with_punct, hp, render_tokens]
  | cons t2 ts =>
    have hpos := render_tokens_length_pos t2 ts
    unfold expected_decode
    have hew : ends_with_punct (t :: t2 :: ts) = ends_with_punct (t2 :: ts) := rfl
    have hlen : (((render_tokens (t :: t2 :: ts)).length : Int) + 1 = len) ↔
        (((render_tokens (t2 :: ts)).length : Int) + 1 = len - t.render.length) := by
      simp only [render_tokens, List.length_append]
      push_cast
      omega
    rw [hew]
    by_cases hc : ((render_tokens (t2 :: ts)).length : Int) + 1 = len - t.render.length ∧
        ends_with_punct (t2 :: ts) = true
    · rw [if_pos hc, if_pos ⟨hlen.2 hc.1, hc.2⟩]
      simp [render_tokens, List.dropLast]
    · rw [if_neg hc, if_neg (fun hh => hc ⟨hlen.1 hh.1, hh.2⟩)]
      simp [render_tokens]

/-- The decoder on an encoded line of tokens whose rendering and terminator fit
the capacity: it answers `expected_decode`. -/
theorem decode_loop_tokens (src : List Byte) (term : Byte) (trailing : List Byte)
    (hterm : term = 0x3b ∨ term = 0) :
    ∀ (ts : List Token) (fuel room : Nat) (len : Int) (tokens : Nat),
      (∀ t ∈ ts, t.wf) → ts.length < fuel → len < 2147483648 →
      ((render_tokens ts).length : Int) + 1 ≤ len → len ≤ room →
      src.drop tokens = encode_tokens ts ++ term :: trailing →
      decode_loop src fuel room len tokens = .ret (expected_decode ts len) := by
  intro ts
  induction ts with
  | nil =>
    intro fuel room len tokens _ hfuel hlen hr hroom hsrc
    obtain ⟨fuel, rfl⟩ : ∃ f, fuel = f + 1 := ⟨fuel - 1, by simp at hfuel; omega⟩
    simp only [encode_tokens, List.nil_append] at hsrc
    simp only [render_tokens, List.length_nil] at hr
    have hexp : expected_decode [] len = (true, []) := by
      simp [expected_decode, ends_with_punct, render_tokens]
    rw [decode_loop, load_of_drop hsrc, Outcome.bind_ret, hexp]
    have hc1 : term ≠ 0x1a := by rcases hterm with h | h <;> rw [h] <;> decide
    have hc2 : term ≠ 0x22 := by rcases hterm with h | h <;> rw [h] <;> decide
    rw [if_neg hc1, if_neg hc2, if_pos hterm, if_neg (by omega)]
  | cons t ts ih =>
    intro fuel room len tokens hwf hfuel hlen hr hroom hsrc
    obtain ⟨fuel, rfl⟩ : ∃ f, fuel = f + 1 := ⟨fuel - 1, by simp at hfuel; omega⟩
    have hwf2 : ∀ t ∈ ts, t.wf := fun t ht => hwf t (List.mem_cons_of_mem _ ht)
    have hfuel2 : ts.length < fuel := by simp at hfuel; omega
    have hwt := hwf t (List.mem_cons_self _ _)
    cases t with
    | identifier b =>
      simp only [Token.wf] at hwt
      simp only [encode_tokens, Token.encode, List.cons_append] at hsrc
      have hrl : (Token.identifier b).render.length = 1 + b.length := by
        simp [Token.render]; omega
      have hr2 : ((render_tokens ts).length : Int) + 1 + (1 + b.length) ≤ len := by
        simp only [render_tokens, List.length_append, hrl] at hr
        push_cast at hr
        omega
      have h1 : src.drop (tokens + 1) =
          Fin.ofNat b.length :: (b ++ (encode_tokens ts ++ term :: trailing)) := by
        have := drop_add_of_drop (b := [0x1a]) (by simpa using hsrc)
        simpa [List.append_assoc] using this
      have h2 : src.drop (tokens + 2) = b ++ (encode_tokens ts ++ term :: trailing) := by
        have := drop_add_of_drop (b := [0x1a, Fin.ofNat b.length]) (by simpa using hsrc)
        simpa [List.append_assoc] using this
      have h3 : src.drop (tokens + 2 + b.length) = encode_tokens ts ++ term :: trailing :=
        drop_add_of_drop h2
      have hsx : sx8 (Fin.ofNat b.length : Byte) = (b.length : Int) := by
        have : b.length % 256 = b.length := by omega
        simp [sx8, Fin.ofNat, this]
        omega
      have hlt2 : tokens + 2 + b.length ≤ src.length := by
        have := length_of_drop h2
        simp only [List.length_append, List.length_cons] at this
        omega
      have htake : (src.drop (tokens + 2)).take b.length = b := by
        rw [h2, List.take_left]
      rw [decode_loop, load_of_drop hsrc, Outcome.bind_ret, if_pos rfl, load_of_drop h1,
        Outcome.bind_ret]
      simp only [hsx]
      rw [if_neg (by omega), if_neg (by omega), if_neg (by omega), Int.toNat_ofNat,
        if_pos ⟨hlt2, by omega⟩, wrap32_of_range _ (by omega) (by omega)]
      rw [ih fuel _ _ _ hwf2 hfuel2 (by omega) (by omega) (by omega) h3, Outcome.bind_ret,
        htake, expected_decode_cons (Token.identifier b) ts len (Or.inr rfl), hrl]
      have e : len - ((b.length : Int) + 1) = len - ((1 + b.length : Nat) : Int) := by
        push_cast; omega
      rw [e]
      rfl
    | stringLiteral b =>
      simp only [encode_tokens, Token.encode, List.cons_append] at hsrc
      have hrl : (Token.stringLiteral b).render.length = b.length + 3 := by
        simp [Token.render]
      have hr2 : ((render_tokens ts).length : Int) + 1 + (b.length + 3) ≤ len := by
        simp only [render_tokens, List.length_append, hrl] at hr
        push_cast at hr
        omega
      have h1 : src.drop (tokens + 1) =
          le_bytes 4 b.length ++ (b ++ (encode_tokens ts ++ term :: trailing)) := by
        have := drop_add_of_drop (b := [0x22]) (by simpa using hsrc)
        simpa [List.append_assoc] using this
      have h2 : src.drop (tokens + 5) = b ++ (encode_tokens ts ++ term :: trailing) := by
        have := drop_add_of_drop h1
        rw [le_bytes_length] at this
        exact this
      have h3 : src.drop (tokens + 5 + b.length) = encode_tokens ts ++ term :: trailing :=
        drop_add_of_drop h2
      have hlt5 : tokens + 5 + b.length ≤ src.length := by
        have := length_of_drop h2
        simp only [List.length_append, List.length_cons] at this
        omega
      have hld : load_int src (tokens + 1) = .ret (b.length : Int) := by
        have hl4 : load_bytes src (tokens + 1) 4 = .ret (le_bytes 4 b.length) := by
          have hle : tokens + 1 + 4 ≤ src.length := by omega
          have ht : (src.drop (tokens + 1)).take 4 = le_bytes 4 b.length := by
            rw [h1]
            have := List.take_left (le_bytes 4 b.length)
              (b ++ (encode_tokens ts ++ term :: trailing))
            rw [le_bytes_length] at this
            exact this
          simp [load_bytes, hle, ht]
        have hmod : b.length % 256 ^ 4 = b.length := by
          apply Nat.mod_eq_of_lt
          norm_num
          omega
        simp only [load_int, load_dd, hl4, Outcome.bind_ret, le_value_le_bytes, hmod]
        rw [wrap32_of_range _ (by omega) (by omega)]
      have htake : (src.drop (tokens + 5)).take b.length = b := by
        rw [h2, List.take_left]
      rw [decode_loop, load_of_drop hsrc, Outcome.bind_ret, if_neg (by decide), if_pos rfl,
        hld, Outcome.bind_ret]
      rw [wrap32_of_range ((b.length : Int) + 2) (by omega) (by omega),
        wrap32_of_range ((b.length : Int) + 3) (by omega) (by omega),
        wrap32_of_range (len - ((b.length : Int) + 3)) (by omega) (by omega)]
      rw [if_neg (by omega), if_neg (by omega), if_neg (by omega), Int.toNat_ofNat,
        if_pos ⟨hlt5, by omega⟩]
      rw [ih fuel _ _ _ hwf2 hfuel2 (by omega) (by omega) (by omega) h3, Outcome.bind_ret,
        htake, expected_decode_cons (Token.stringLiteral b) ts len (Or.inr rfl), hrl]
      have e : len - ((b.length : Int) + 3) = len - ((b.length + 3 : Nat) : Int) := by
        push_cast; omega
      rw [e]
      simp [Token.render]
    | literalChar c =>
      simp only [Token.wf] at hwt
      obtain ⟨hc1, hc2, hc3, hc4⟩ := hwt
      simp only [encode_tokens, Token.encode, List.cons_append, List.nil_append] at hsrc
      have h3 : src.drop (tokens + 1) = encode_tokens ts ++ term :: trailing := by
        have := drop_add_of_drop (b := [c]) (by simpa using hsrc)
        simpa using this
      rw [decode_loop, load_of_drop hsrc, Outcome.bind_ret, if_neg hc1, if_neg hc2,
        if_neg (by simp [hc3, hc4])]
      by_cases hpunct : c = 0x2c ∨ c = 0x3a
      · have hnp : ¬ (c ≠ 0x2c ∧ c ≠ 0x3a) := by
          rcases hpunct with h | h <;> simp [h]
        have hrd : (Token.literalChar c).render = [c] := by simp [Token.render, hpunct]
        have hrl : (Token.literalChar c).render.length = 1 := by rw [hrd]; rfl
        have hr2 : ((render_tokens ts).length : Int) + 1 + 1 ≤ len := by
          simp only [render_tokens, List.length_append, hrl] at hr
          push_cast at hr
          omega
        cases ts with
        | nil =>
          simp only [render_tokens, List.length_nil] at hr2
          by_cases h2 : len ≤ 2
          · have hl2 : len = 2 := by omega
            rw [if_pos h2]
            simp [expected_decode, ends_with_punct, Token.is_punct, hpunct, render_tokens, hrd,
              hl2]
          · rw [if_neg h2, if_neg hnp, if_neg (by omega),
              wrap32_of_range _ (by omega) (by omega)]
            rw [ih fuel _ _ _ hwf2 hfuel2 (by omega)
              (by simp only [render_tokens, List.length_nil]; omega) (by omega) h3,
              Outcome.bind_ret]
            have hne : ¬ ((2 : Int) = len) := by omega
            simp [expected_decode, ends_with_punct, render_tokens, hrd, hne]
        | cons t2 ts2 =>
          have hpos := render_tokens_length_pos t2 ts2
          rw [if_neg (by omega), if_neg hnp, if_neg (by omega),
            wrap32_of_range _ (by omega) (by omega)]
          rw [ih fuel _ _ _ hwf2 hfuel2 (by omega) (by omega) (by omega) h3, Outcome.bind_ret,
            expected_decode_cons (Token.literalChar c) (t2 :: ts2) len
              (Or.inl (List.cons_ne_nil _ _)), hrl, hrd]
          rfl
      · have hnp : c ≠ 0x2c ∧ c ≠ 0x3a := by
          constructor
          · intro h; exact hpunct (Or.inl h)
          · intro h; exact hpunct (Or.inr h)
        have hrd : (Token.literalChar c).render = [0x20, c] := by simp [Token.render, hpunct]
        have hrl : (Token.literalChar c).render.length = 2 := by rw [hrd]; rfl
        have hr2 : ((render_tokens ts).length : Int) + 1 + 2 ≤ len := by
          simp only [render_tokens, List.length_append, hrl] at hr
          push_cast at hr
          omega
        have hip : (Token.literalChar c).is_punct = false := by
          simp [Token.is_punct, hpunct]
        rw [if_neg (by omega), if_pos hnp, if_neg (by omega),
          wrap32_of_range (len - 1) (by omega) (by omega),
          wrap32_of_range _ (by omega) (by omega)]
        rw [ih fuel _ _ _ hwf2 hfuel2 (by omega) (by omega) (by omega) h3, Outcome.bind_ret,
          expected_decode_cons (Token.literalChar c) ts len (Or.inr hip), hrl, hrd]
        have e : len - 1 - 1 = len - ((2 : Nat) : Int) := by push_cast; omega
        rw [e]
        rfl


/-- C18, what the code does with a line that fits: for every capacity `cap`
below `2^31` not larger than the destination, every terminated stream of
well-formed tokens whose rendering has at most `cap - 1` characters is decoded
without undefined behaviour, and the decoder succeeds with exactly the rendering
and its zero terminator in every case but one: when the rendering has exactly
`cap - 1` characters and the line ends with a `,` or `:` literal, the guard
`len <= 2`, which asks for the room of a literal with its leading space, rejects
that last literal and the decoder returns `false`, leaving the text before it in
the buffer. -/
theorem fmt_preprocessed_exact_fit (ts : List Token) (term : Byte)
    (before trailing buf : List Byte) (cap : Nat)
    (hwf : ∀ t ∈ ts, t.wf) (hterm : term = 0x3b ∨ term = 0)
    (hcap : cap < 2147483648) (hbuf : cap ≤ buf.length)
    (hfit : (render_tokens ts).length + 1 ≤ cap) :
    fmt_preprocessed buf cap (before ++ (encode_tokens ts ++ term :: trailing)) before.length =
      .ret (if (render_tokens ts).length + 1 = cap ∧ ends_with_punct ts = true then
          ⟨false, render_tokens ts.dropLast ++ buf.drop (render_tokens ts.dropLast).length,
            (render_tokens ts.dropLast).length⟩
        else
          ⟨true, render_tokens ts ++ 0 :: buf.drop ((render_tokens ts).length + 1),
            (render_tokens ts).length⟩) := by
  have hsrc : (before ++ (encode_tokens ts ++ term :: trailing)).drop before.length =
      encode_tokens ts ++ term :: trailing := List.drop_left _ _
  have hfuel : ts.length <
      (before ++ (encode_tokens ts ++ term :: trailing)).length - before.length + 1 := by
    have := encode_tokens_length_ge ts
    simp only [List.length_append, List.length_cons]
    omega
  rw [fmt_preprocessed_eq_decode,
    decode_loop_tokens _ term trailing hterm ts _ buf.length cap before.length hwf hfuel
      (by omega) (by omega) (by omega) hsrc, Outcome.bind_ret]
  unfold expected_decode
  by_cases h : (render_tokens ts).length + 1 = cap ∧ ends_with_punct ts = true
  · have h2 : ((render_tokens ts).length : Int) + 1 = (cap : Int) ∧
        ends_with_punct ts = true := ⟨by omega, h.2⟩
    rw [if_pos h, if_pos h2]
    simp [written, splice]
  · have h2 : ¬ (((render_tokens ts).length : Int) + 1 = (cap : Int) ∧
        ends_with_punct ts = true) := by
      intro h3
      exact h ⟨by omega, h3.2⟩
    rw [if_neg h, if_neg h2]
    simp [written, splice, List.append_assoc]

set_option maxRecDepth 20000 in
/-- C18, at the failing input: an identifier of 77 letters followed by a `,`
literal renders to 79 characters, which with the zero terminator fill the 80
bytes of the line buffer exactly, yet the decoder returns `false`, after writing
the 78 characters of the identifier; with one letter less it succeeds. -/
theorem fmt_preprocessed_exact_fit_witness :
    (render_tokens [.identifier (List.replicate 77 0x41), .literalChar 0x2c]).length + 1 = 80 ∧
    fmt_preprocessed (List.replicate 80 0) 80
        (0x1a :: 77 :: (List.replicate 77 0x41 ++ [0x2c, 0])) 0 =
      .ret ⟨false, 0x20 :: (List.replicate 77 0x41 ++ [0, 0]), 78⟩ ∧
    fmt_preprocessed (List.replicate 80 0) 80
        (0x1a :: 76 :: (List.replicate 76 0x41 ++ [0x2c, 0])) 0 =
      .ret ⟨true, 0x20 :: (List.replicate 76 0x41 ++ [0x2c, 0, 0]), 78⟩ :=
  ⟨by decide,
    fmt_preprocessed_exact_fit [.identifier (List.replicate 77 0x41), .literalChar 0x2c]
      0 [] [] (List.replicate 80 0) 80
      (by decide) (by decide) (by decide) (by decide) (by decide),
    fmt_preprocessed_exact_fit [.identifier (List.replicate 76 0x41), .literalChar 0x2c]
      0 [] [] (List.replicate 80 0) 80
      (by decide) (by decide) (by decide) (by decide) (by decide)⟩

-- THEOREMS
/-! ## The capacity bounds the number of iterations -/

theorem wrap32_range (x : Int) : -2147483648 ≤ wrap32 x ∧ wrap32 x < 2147483648 := by
  unfold wrap32; omega

theorem load_int_range {src : List Byte} {p : Nat} {v : Int}
    (h : load_int src p = .ret v) : -2147483648 ≤ v ∧ v < 2147483648 := by
  unfold load_int at h
  obtain ⟨a, _, ha⟩ := Outcome.bind_eq_ret h
  rw [← Outcome.ret.inj ha]
  exact wrap32_range _

theorem Outcome.bind_mono {α β : Type} {x y : Outcome α} (f : α → Outcome β)
    (h : x ≠ .outOfFuel → y = x) : x.bind f ≠ .outOfFuel → y.bind f = x.bind f := by
  intro hb
  have hx : x ≠ .outOfFuel := by
    intro e
    rw [e] at hb
    exact hb rfl
  rw [h hx]

/-- One more unit of fuel does not change an outcome that did not run out of
fuel. -/
theorem decode_loop_fuel_succ (src : List Byte) :
    ∀ (fuel room : Nat) (len : Int) (tokens : Nat),
      decode_loop src fuel room len tokens ≠ .outOfFuel →
      decode_loop src (fuel + 1) room len tokens = decode_loop src fuel room len tokens := by
  intro fuel
  induction fuel with
  | zero => intro room len tokens h; exact absurd rfl h
  | succ fuel ih =>
    intro room len tokens h
    conv_lhs => rw [decode_loop]
    conv_rhs => rw [decode_loop]
    rw [decode_loop] at h
    revert h
    cases hc : load src tokens with
    | undefined => intro _; rfl
    | outOfFuel => intro _; rfl
    | ret c =>
      rw [Outcome.bind_ret, Outcome.bind_ret]
      by_cases h1 : c = 0x1a
      · rw [if_pos h1, if_pos h1]
        cases hl : load src (tokens + 1) with
        | undefined => intro _; rfl
        | outOfFuel => intro _; rfl
        | ret l =>
          rw [Outcome.bind_ret, Outcome.bind_ret]
          generalize sx8 l = tlen
          dsimp only
          generalize wrap32 (len - (tlen + 1)) = len2
          by_cases h2 : tlen + 1 ≥ len
          · rw [if_pos h2, if_pos h2]; intro _; rfl
          · rw [if_neg h2, if_neg h2]
            by_cases h3 : room < 1
            · rw [if_pos h3, if_pos h3]; intro _; rfl
            · rw [if_neg h3, if_neg h3]
              by_cases h4 : tlen < 0
              · rw [if_pos h4, if_pos h4]; intro _; rfl
              · rw [if_neg h4, if_neg h4]
                by_cases h5 : tokens + 2 + tlen.toNat ≤ src.length ∧ 1 + tlen.toNat ≤ room
                · rw [if_pos h5, if_pos h5]
                  exact Outcome.bind_mono _ (ih _ _ _)
                · rw [if_neg h5, if_neg h5]; intro _; rfl
      · rw [if_neg h1, if_neg h1]
        by_cases h2 : c = 0x22
        · rw [if_pos h2, if_pos h2]
          cases hl : load_int src (tokens + 1) with
          | undefined => intro _; rfl
          | outOfFuel => intro _; rfl
          | ret tlen =>
            rw [Outcome.bind_ret, Outcome.bind_ret]
            generalize wrap32 (tlen + 2) = w2
            generalize wrap32 (len - wrap32 (tlen + 3)) = len2
            by_cases h3 : w2 ≥ len
            · rw [if_pos h3, if_pos h3]; intro _; rfl
            · rw [if_neg h3, if_neg h3]
              by_cases h4 : room < 2
              · rw [if_pos h4, if_pos h4]; intro _; rfl
              · rw [if_neg h4, if_neg h4]
                by_cases h5 : tlen < 0
                · rw [if_pos h5, if_pos h5]; intro _; rfl
                · rw [if_neg h5, if_neg h5]
                  by_cases h6 : tokens + 5 + tlen.toNat ≤ src.length ∧
                      2 + tlen.toNat + 1 ≤ room
                  · rw [if_pos h6, if_pos h6]
                    exact Outcome.bind_mono _ (ih _ _ _)
                  · rw [if_neg h6, if_neg h6]; intro _; rfl
        · rw [if_neg h2, if_neg h2]
          by_cases h3 : c = 0x3b ∨ c = 0
          · rw [if_pos h3, if_pos h3]; intro _; rfl
          · rw [if_neg h3, if_neg h3]
            by_cases h4 : len ≤ 2
            · rw [if_pos h4, if_pos h4]; intro _; rfl
            · rw [if_neg h4, if_neg h4]
              generalize wrap32 (wrap32 (len - 1) - 1) = len2
              generalize wrap32 (len - 1) = len1
              by_cases h5 : c ≠ 0x2c ∧ c ≠ 0x3a
              · rw [if_pos h5, if_pos h5]
                by_cases h6 : room < 2
                · rw [if_pos h6, if_pos h6]; intro _; rfl
                · rw [if_neg h6, if_neg h6]
                  exact Outcome.bind_mono _ (ih _ _ _)
              · rw [if_neg h5, if_neg h5]
                by_cases h6 : room < 1
                · rw [if_pos h6, if_pos h6]; intro _; rfl
                · rw [if_neg h6, if_neg h6]
                  exact Outcome.bind_mono _ (ih _ _ _)

theorem decode_loop_fuel_add (src : List Byte) (fuel room : Nat) (len : Int) (tokens : Nat)
    (h : decode_loop src fuel room len tokens ≠ .outOfFuel) :
    ∀ k, decode_loop src (fuel + k) room len tokens = decode_loop src fuel room len tokens := by
  intro k
  induction k with
  | zero => rfl
  | succ k ih =>
    rw [← Nat.add_assoc, decode_loop_fuel_succ src _ _ _ _ (by rw [ih]; exact h), ih]

/-- Two amounts of fuel that both suffice give the same outcome. -/
theorem decode_loop_fuel_irrelevant (src : List Byte) (f1 f2 room : Nat) (len : Int)
    (tokens : Nat) (h1 : decode_loop src f1 room len tokens ≠ .outOfFuel)
    (h2 : decode_loop src f2 room len tokens ≠ .outOfFuel) :
    decode_loop src f1 room len tokens = decode_loop src f2 room len tokens := by
  rcases Nat.le_total f1 f2 with h | h
  · obtain ⟨k, rfl⟩ := Nat.exists_eq_add_of_le h
    exact (decode_loop_fuel_add src f1 room len tokens h1 k).symm
  · obtain ⟨k, rfl⟩ := Nat.exists_eq_add_of_le h
    exact decode_loop_fuel_add src f2 room len tokens h2 k

theorem sx8_lt (l : Byte) : sx8 l < 128 := by
  unfold sx8
  have := l.isLt
  split <;> omega

/-- A budget of `max len 1` iterations is enough when the destination has fewer
than `2^31` bytes: an accepted token leaves a capacity that is smaller and not
negative, and no token is accepted at a capacity below 2. -/
theorem decode_loop_capacity (src : List Byte) :
    ∀ (fuel room : Nat) (len : Int) (tokens : Nat),
      0 ≤ len → len < 2147483648 → room < 2147483648 → len ≤ fuel → 1 ≤ fuel →
      decode_loop src fuel room len tokens ≠ .outOfFuel := by
  intro fuel
  induction fuel with
  | zero => intro room len tokens _ _ _ _ h; omega
  | succ fuel ih =>
    intro room len tokens h0 hlen hroom hfuel _ h
    rw [decode_loop] at h
    cases hc : load src tokens with
    | undefined => rw [hc] at h; cases h
    | outOfFuel => simp [load] at hc; split at hc <;> cases hc
    | ret c =>
      rw [hc, Outcome.bind_ret] at h
      by_cases h1 : c = 0x1a
      · rw [if_pos h1] at h
        cases hl : load src (tokens + 1) with
        | undefined => rw [hl] at h; cases h
        | outOfFuel => simp [load] at hl; split at hl <;> cases hl
        | ret l =>
          rw [hl, Outcome.bind_ret] at h
          have hsx := sx8_lt l
          generalize sx8 l = tlen at h hsx
          simp only [] at h
          by_cases h2 : tlen + 1 ≥ len
          · rw [if_pos h2] at h; cases h
          · rw [if_neg h2] at h
            by_cases h3 : room < 1
            · rw [if_pos h3] at h; cases h
            · rw [if_neg h3] at h
              by_cases h4 : tlen < 0
              · rw [if_pos h4] at h; cases h
              · rw [if_neg h4] at h
                by_cases h5 : tokens + 2 + tlen.toNat ≤ src.length ∧ 1 + tlen.toNat ≤ room
                · rw [if_pos h5, wrap32_of_range _ (by omega) (by omega)] at h
                  exact ih _ _ _ (by omega) (by omega) (by omega) (by omega) (by omega)
                    (Outcome.bind_ret_outOfFuel h)
                · rw [if_neg h5] at h; cases h
      · rw [if_neg h1] at h
        by_cases h2 : c = 0x22
        · rw [if_pos h2] at h
          cases hl : load_int src (tokens + 1) with
          | undefined => rw [hl] at h; cases h
          | outOfFuel =>
            simp only [load_int, load_dd, load_bytes] at hl
            split at hl <;> cases hl
          | ret tlen =>
            rw [hl, Outcome.bind_ret] at h
            have hr := load_int_range hl
            by_cases h5 : tlen < 0
            · generalize wrap32 (tlen + 2) = w2 at h
              generalize wrap32 (len - wrap32 (tlen + 3)) = len2 at h
              by_cases h3 : w2 ≥ len
              · rw [if_pos h3] at h; cases h
              · rw [if_neg h3] at h
                by_cases h4 : room < 2
                · rw [if_pos h4] at h; cases h
                · rw [if_neg h4, if_pos h5] at h; cases h
            · by_cases h6 : tokens + 5 + tlen.toNat ≤ src.length ∧ 2 + tlen.toNat + 1 ≤ room
              · have ht : (tlen.toNat : Int) = tlen := Int.toNat_of_nonneg (by omega)
                rw [wrap32_of_range (tlen + 2) (by omega) (by omega),
                  wrap32_of_range (tlen + 3) (by omega) (by omega)] at h
                by_cases h3 : tlen + 2 ≥ len
                · rw [if_pos h3] at h; cases h
                · rw [if_neg h3, wrap32_of_range _ (by omega) (by omega)] at h
                  by_cases h4 : room < 2
                  · rw [if_pos h4] at h; cases h
                  · rw [if_neg h4, if_neg h5, if_pos h6] at h
                    exact ih _ _ _ (by omega) (by omega) (by omega) (by omega) (by omega)
                      (Outcome.bind_ret_outOfFuel h)
              · generalize wrap32 (tlen + 2) = w2 at h
                generalize wrap32 (len - wrap32 (tlen + 3)) = len2 at h
                by_cases h3 : w2 ≥ len
                · rw [if_pos h3] at h; cases h
                · rw [if_neg h3] at h
                  by_cases h4 : room < 2
                  · rw [if_pos h4] at h; cases h
                  · rw [if_neg h4, if_neg h5, if_neg h6] at h; cases h
        · rw [if_neg h2] at h
          by_cases h3 : c = 0x3b ∨ c = 0
          · rw [if_pos h3] at h
            by_cases h4 : room < 1
            · rw [if_pos h4] at h; cases h
            · rw [if_neg h4] at h; cases h
          · rw [if_neg h3] at h
            by_cases h4 : len ≤ 2
            · rw [if_pos h4] at h; cases h
            · rw [if_neg h4, wrap32_of_range (len - 1) (by omega) (by omega),
                wrap32_of_range (len - 1 - 1) (by omega) (by omega)] at h
              by_cases h5 : c ≠ 0x2c ∧ c ≠ 0x3a
              · rw [if_pos h5] at h
                by_cases h6 : room < 2
                · rw [if_pos h6] at h; cases h
                · rw [if_neg h6] at h
                  exact ih _ _ _ (by omega) (by omega) (by omega) (by omega) (by omega)
                    (Outcome.bind_ret_outOfFuel h)
              · rw [if_neg h5] at h
                by_cases h6 : room < 1
                · rw [if_pos h6] at h; cases h
                · rw [if_neg h6] at h
                  exact ih _ _ _ (by omega) (by omega) (by omega) (by omega) (by omega)
                    (Outcome.bind_ret_outOfFuel h)

/-- The loop of `fmt_preprocessed` is over within `len` iterations, whatever the
input holds: for every capacity `len` with `1 ≤ len` (below `2^31`, as an `int`
is), every destination of fewer than `2^31` bytes and every input, terminated or
not, the loop run with a budget of `len` iterations or more never exhausts the
budget, and its outcome is the outcome of the call, a return or undefined
behaviour. -/
theorem fmt_preprocessed_loop_budget (buf : List Byte) (len : Int) (src : List Byte)
    (tokens fuel : Nat) (h1 : 1 ≤ len) (h2 : len < 2147483648)
    (hbuf : buf.length < 2147483648) (hfuel : len.toNat ≤ fuel) :
    fmt_preprocessed_loop src fuel buf 0 len tokens ≠ .outOfFuel ∧
    fmt_preprocessed_loop src fuel buf 0 len tokens = fmt_preprocessed buf len src tokens := by
  have hcap : decode_loop src fuel buf.length len tokens ≠ .outOfFuel :=
    decode_loop_capacity src fuel buf.length len tokens (by omega) h2 hbuf (by omega) (by omega)
  have hfull : decode_loop src (src.length - tokens + 1) buf.length len tokens ≠ .outOfFuel :=
    decode_loop_fuel src _ _ _ _ (Nat.le_refl _)
  have e := decode_loop_fuel_irrelevant src _ _ _ _ _ hcap hfull
  have e1 := fmt_preprocessed_loop_eq_decode src fuel buf 0 len tokens (Nat.zero_le _)
  rw [Nat.sub_zero] at e1
  constructor
  · rw [e1]
    exact Outcome.bind_ne_outOfFuel hcap (fun _ h => by cases h)
  · rw [e1, fmt_preprocessed_eq_decode, e]

/-! ## The decoder reads its token stream only -/

theorem drop_add_of_segment {src stream rest : List Byte} {t s : Nat} (k : Nat)
    (h : src.drop t = stream.drop s ++ rest) (hk : s + k ≤ stream.length) :
    src.drop (t + k) = stream.drop (s + k) ++ rest := by
  rw [← List.drop_drop, h, List.drop_append_of_le_length (by rw [List.length_drop]; omega),
    List.drop_drop]

theorem length_of_segment {src stream rest : List Byte} {t s : Nat}
    (h : src.drop t = stream.drop s ++ rest) :
    src.length - t = stream.length - s + rest.length := by
  have := length_of_drop h
  simp only [List.length_append, List.length_drop] at this
  omega

theorem load_of_segment {src stream rest : List Byte} {t s : Nat} {c : Byte}
    (h : src.drop t = stream.drop s ++ rest) (hc : load stream s = .ret c) :
    load src t = .ret c := by
  have hg : stream[s]? = some c := by
    unfold load at hc
    split at hc
    · next b hb => cases hc; exact hb
    · cases hc
  obtain ⟨hlt, hget⟩ := List.getElem?_eq_some_iff.1 hg
  rw [List.drop_eq_getElem_cons hlt, hget] at h
  exact load_of_drop h

theorem load_bytes_of_segment {src stream rest : List Byte} {t s : Nat} (n : Nat)
    (h : src.drop t = stream.drop s ++ rest) (hn : s + n ≤ stream.length) (h1 : 1 ≤ n) :
    load_bytes src t n = load_bytes stream s n := by
  have hl := length_of_segment h
  unfold load_bytes
  rw [if_pos hn, if_pos (by omega), h,
    List.take_append_of_le_length (by rw [List.length_drop]; omega)]

theorem load_int_of_segment {src stream rest : List Byte} {t s : Nat} {v : Int}
    (h : src.drop t = stream.drop s ++ rest) (hv : load_int stream s = .ret v) :
    load_int src t = .ret v := by
  have hn : s + 4 ≤ stream.length := by
    by_contra hn
    simp [load_int, load_dd, load_bytes, hn, Outcome.bind] at hv
  unfold load_int load_dd at hv ⊢
  rw [load_bytes_of_segment 4 h hn (by omega)]
  exact hv

/-- The decoder reads its token stream only: when it returns on the stream taken
on its own, it returns the same on every object that holds the stream at the
token pointer, whatever comes before and after. -/
theorem decode_loop_of_segment (stream rest src : List Byte) :
    ∀ (fuel room : Nat) (len : Int) (s t : Nat) (r : Bool × List Byte),
      src.drop t = stream.drop s ++ rest →
      decode_loop stream fuel room len s = .ret r →
      decode_loop src fuel room len t = .ret r := by
  intro fuel
  induction fuel with
  | zero => intro room len s t r _ h; cases h
  | succ fuel ih =>
    intro room len s t r hsrc h
    have hlen := length_of_segment hsrc
    rw [decode_loop] at h ⊢
    cases hc : load stream s with
    | undefined => rw [hc] at h; cases h
    | outOfFuel => rw [hc] at h; cases h
    | ret c =>
      have hs := load_lt hc
      rw [hc, Outcome.bind_ret] at h
      rw [load_of_segment hsrc hc, Outcome.bind_ret]
      by_cases h1 : c = 0x1a
      · rw [if_pos h1] at h ⊢
        cases hl : load stream (s + 1) with
        | undefined => rw [hl] at h; cases h
        | outOfFuel => rw [hl] at h; cases h
        | ret l =>
          have hs1 := load_lt hl
          rw [hl, Outcome.bind_ret] at h
          rw [load_of_segment (drop_add_of_segment 1 hsrc (by omega)) hl, Outcome.bind_ret]
          generalize sx8 l = tlen at h ⊢
          simp only [] at h ⊢
          generalize wrap32 (len - (tlen + 1)) = len2 at h ⊢
          by_cases h2 : tlen + 1 ≥ len
          · rw [if_pos h2] at h ⊢; exact h
          · rw [if_neg h2] at h ⊢
            by_cases h3 : room < 1
            · rw [if_pos h3] at h; cases h
            · rw [if_neg h3] at h ⊢
              by_cases h4 : tlen < 0
              · rw [if_pos h4] at h; cases h
              · rw [if_neg h4] at h ⊢
                by_cases h5 : s + 2 + tlen.toNat ≤ stream.length ∧ 1 + tlen.toNat ≤ room
                · rw [if_pos h5] at h
                  rw [if_pos ⟨by omega, h5.2⟩]
                  obtain ⟨r2, hr2, hh⟩ := Outcome.bind_eq_ret h
                  have hd := drop_add_of_segment (2 + tlen.toNat) hsrc (by omega)
                  rw [← Nat.add_assoc, ← Nat.add_assoc] at hd
                  rw [ih _ _ _ _ _ hd hr2, Outcome.bind_ret,
                    drop_add_of_segment 2 hsrc (by omega),
                    List.take_append_of_le_length (by rw [List.length_drop]; omega)]
                  exact hh
                · rw [if_neg h5] at h; cases h
      · rw [if_neg h1] at h ⊢
        by_cases h2 : c = 0x22
        · rw [if_pos h2] at h ⊢
          cases hl : load_int stream (s + 1) with
          | undefined => rw [hl] at h; cases h
          | outOfFuel => rw [hl] at h; cases h
          | ret tlen =>
            rw [hl, Outcome.bind_ret] at h
            rw [load_int_of_segment (drop_add_of_segment 1 hsrc (by omega)) hl, Outcome.bind_ret]
            generalize wrap32 (tlen + 2) = w2 at h ⊢
            generalize wrap32 (len - wrap32 (tlen + 3)) = len2 at h ⊢
            by_cases h3 : w2 ≥ len
            · rw [if_pos h3] at h ⊢; exact h
            · rw [if_neg h3] at h ⊢
              by_cases h4 : room < 2
              · rw [if_pos h4] at h; cases h
              · rw [if_neg h4] at h ⊢
                by_cases h5 : tlen < 0
                · rw [if_pos h5] at h; cases h
                · rw [if_neg h5] at h ⊢
                  by_cases h6 : s + 5 + tlen.toNat ≤ stream.length ∧ 2 + tlen.toNat + 1 ≤ room
                  · rw [if_pos h6] at h
                    rw [if_pos ⟨by omega, h6.2⟩]
                    obtain ⟨r2, hr2, hh⟩ := Outcome.bind_eq_ret h
                    have hd := drop_add_of_segment (5 + tlen.toNat) hsrc (by omega)
                    rw [← Nat.add_assoc, ← Nat.add_assoc] at hd
                    rw [ih _ _ _ _ _ hd hr2, Outcome.bind_ret,
                      drop_add_of_segment 5 hsrc (by omega),
                      List.take_append_of_le_length (by rw [List.length_drop]; omega)]
                    exact hh
                  · rw [if_neg h6] at h; cases h
        · rw [if_neg h2] at h ⊢
          by_cases h3 : c = 0x3b ∨ c = 0
          · rw [if_pos h3] at h ⊢; exact h
          · rw [if_neg h3] at h ⊢
            by_cases h4 : len ≤ 2
            · rw [if_pos h4] at h ⊢; exact h
            · rw [if_neg h4] at h ⊢
              generalize wrap32 (wrap32 (len - 1) - 1) = len2 at h ⊢
              generalize wrap32 (len - 1) = len1 at h ⊢
              have hd := drop_add_of_segment 1 hsrc (by omega)
              by_cases h5 : c ≠ 0x2c ∧ c ≠ 0x3a
              · rw [if_pos h5] at h ⊢
                by_cases h6 : room < 2
                · rw [if_pos h6] at h; cases h
                · rw [if_neg h6] at h ⊢
                  obtain ⟨r2, hr2, hh⟩ := Outcome.bind_eq_ret h
                  rw [ih _ _ _ _ _ hd hr2, Outcome.bind_ret]
                  exact hh
              · rw [if_neg h5] at h ⊢
                by_cases h6 : room < 1
                · rw [if_pos h6] at h; cases h
                · rw [if_neg h6] at h ⊢
                  obtain ⟨r2, hr2, hh⟩ := Outcome.bind_eq_ret h
                  rw [ih _ _ _ _ _ hd hr2, Outcome.bind_ret]
                  exact hh

/-- What the decoder returns at the token pointer of an object that holds, from
there on, a stream on which the decoder returns when run on the stream alone. -/
theorem decode_loop_of_stream (L stream rest : List Byte) (t : Nat)
    (r r0 : Bool × List Byte)
    (hstream : L.drop t = stream ++ rest)
    (h0 : decode_loop stream (stream.length + 1) 80 80 0 = .ret r0)
    (h : decode_loop L (L.length - t + 1) 80 80 t = .ret r) : r = r0 := by
  have hp := decode_loop_of_segment stream rest L (stream.length + 1) 80 80 0 t r0
    (by rw [List.drop_zero]; exact hstream) h0
  have e := decode_loop_fuel_irrelevant L (stream.length + 1) (L.length - t + 1) 80 80 t
    (by rw [hp]; intro x; cases x) (by rw [h]; intro x; cases x)
  rw [hp, h] at e
  exact (Outcome.ret_inj e).symm

/-- C17. Independence of report lines.  Take two runs of `print_assembly` that
return, on the listings `L1`, `L2` with the output files `O1`, `O2`, and a record
with a successor in each (index `i1` in the first, `i2` in the second; the two
listings and the two indices may be the same or not).  When the two records have
the same `output_file_offset`, their successors the same `output_file_offset`,
the token pointers of both point at the same token stream (a byte sequence on
which the decoder, run on it alone, returns), and the two output files hold the
same bytes in the span of the record, then the two lines printed have the same
source text and the same byte column, whatever the other records are.  Moreover
the line of a record does not depend on what the two static buffers hold when
its iteration starts. -/
theorem print_assembly_line_independent (L1 O1 L2 O2 : List Byte)
    (lines1 lines2 : List ReportLine)
    (as1 n1 i1 pp1 offpp1 as2 n2 i2 pp2 offpp2 off next : Nat)
    (stream rest1 rest2 : List Byte)
    (hrun1 : print_assembly L1 O1 = .ret lines1) (hrun2 : print_assembly L2 O2 = .ret lines2)
    (has1 : load_dd L1 40 = .ret as1) (has2 : load_dd L2 40 = .ret as2)
    (hn1 : record_count L1 = .ret n1) (hn2 : record_count L2 = .ret n2)
    (hi1 : i1 + 1 < n1) (hi2 : i2 + 1 < n2)
    (hoff1 : load_dd L1 (as1 + 28 * i1) = .ret off)
    (hoff2 : load_dd L2 (as2 + 28 * i2) = .ret off)
    (hnext1 : load_dd L1 (as1 + 28 * (i1 + 1)) = .ret next)
    (hnext2 : load_dd L2 (as2 + 28 * (i2 + 1)) = .ret next)
    (hpp1 : load_dd L1 32 = .ret pp1) (hpp2 : load_dd L2 32 = .ret pp2)
    (hoffpp1 : load_dd L1 (as1 + 28 * i1 + 4) = .ret offpp1)
    (hoffpp2 : load_dd L2 (as2 + 28 * i2 + 4) = .ret offpp2)
    (hstream1 : L1.drop (pp1 + offpp1 + 16) = stream ++ rest1)
    (hstream2 : L2.drop (pp2 + offpp2 + 16) = stream ++ rest2)
    (hself : (fmt_preprocessed (List.replicate 80 0) 80 stream 0).isRet = true)
    (hbytes : (O1.drop off).take (wrap32 (((next : Int) - off) % 4294967296)).toNat =
      (O2.drop off).take (wrap32 (((next : Int) - off) % 4294967296)).toNat) :
    (∃ l1 l2, lines1[i1]? = some l1 ∧ lines2[i2]? = some l2 ∧
      l1.pbuf = l2.pbuf ∧ l1.obuf = l2.obuf) ∧
    (∀ st st2 : Scratch, st.pbuf.length = 80 → st.obuf.length = 24 →
      st2.pbuf.length = 80 → st2.obuf.length = 24 →
      ((print_assembly_step L2 O2 as2 n2 i2 st).bind fun r => .ret r.1) =
        ((print_assembly_step L2 O2 as2 n2 i2 st2).bind fun r => .ret r.1)) := by
  constructor
  · rw [fmt_preprocessed_eq_decode] at hself
    obtain ⟨r0, h0, _⟩ := Outcome.isRet_bind hself
    rw [Nat.sub_zero, List.length_replicate] at h0
    obtain ⟨as1b, n1b, e1, e2, _, hall1⟩ := (print_assembly_iff L1 O1 lines1).1 hrun1
    rw [has1] at e1; rw [hn1] at e2
    cases Outcome.ret_inj e1; cases Outcome.ret_inj e2
    obtain ⟨as2b, n2b, e1, e2, _, hall2⟩ := (print_assembly_iff L2 O2 lines2).1 hrun2
    rw [has2] at e1; rw [hn2] at e2
    cases Outcome.ret_inj e1; cases Outcome.ret_inj e2
    obtain ⟨l1, hl1, hrec1⟩ := hall1 i1 (by omega)
    obtain ⟨l2, hl2, hrec2⟩ := hall2 i2 (by omega)
    obtain ⟨p1, q1, r1, o1, c1, ob1, a1, a2, a3, a4, a5, a6, _, a8, _, a10⟩ :=
      record_line_ret L1 O1 as1 n1 i1 l1 hrec1
    obtain ⟨p2, q2, r2, o2, c2, ob2, b1, b2, b3, b4, b5, b6, _, b8, _, b10⟩ :=
      record_line_ret L2 O2 as2 n2 i2 l2 hrec2
    rw [hpp1] at a1; rw [hoffpp1] at a2; rw [hoff1] at a4
    rw [hpp2] at b1; rw [hoffpp2] at b2; rw [hoff2] at b4
    cases Outcome.ret_inj a1; cases Outcome.ret_inj a2; cases Outcome.ret_inj a4
    cases Outcome.ret_inj b1; cases Outcome.ret_inj b2; cases Outcome.ret_inj b4
    rw [output_len_next L1 _ n1 i1 off next hi1 (by rw [← hnext1]; congr 1)] at a5
    rw [output_len_next L2 _ n2 i2 off next hi2 (by rw [← hnext2]; congr 1)] at b5
    have hc1 := Outcome.ret_inj a5
    have hc2 := Outcome.ret_inj b5
    have ho1 := fmt_bytes_24_cstr O1 off c1 ob1 l1.obuf a6 a8
    have ho2 := fmt_bytes_24_cstr O2 off c2 ob2 l2.obuf b6 b8
    rw [← hc1] at ho1; rw [← hc2] at ho2
    have htake : ∀ (x : List Byte) (c : Nat), x.take (min c 8) = (x.take c).take 8 := by
      intro x c
      rw [List.take_take, Nat.min_comm]
    refine ⟨l1, l2, hl1, hl2, ?_, ?_⟩
    · rw [a10, b10, decode_loop_of_stream L1 stream rest1 _ r1 r0 hstream1 h0 a3,
        decode_loop_of_stream L2 stream rest2 _ r2 r0 hstream2 h0 b3]
    · rw [ho1, ho2, htake, htake, hbytes]
  · intro st st2 h80 h24 h80b h24b
    rw [print_assembly_step_line L2 O2 as2 n2 i2 st h80 h24,
      print_assembly_step_line L2 O2 as2 n2 i2 st2 h80b h24b]

set_option maxRecDepth 40000 in
/-- C17, witness: record 0 of `sample_listing` and record 1 of
`repeated_listing`, both run with `sample_output`: the same output offset `0x10`,
the same successor offset `0x13`, the same token stream `1A 03 6D 6F 76 00` (at
136 in the first listing, at 283 in the second).  The second is printed after a
record whose line is the placeholder and whose column shows eight bytes; both
lines read ` mov` with the column `b8 00 00`. -/
theorem print_assembly_line_independent_witness :
    ∃ l1 l2, sample_lines[0]? = some l1 ∧ repeated_lines[1]? = some l2 ∧
      l1.pbuf = l2.pbuf ∧ l1.obuf = l2.obuf :=
  (print_assembly_line_independent sample_listing sample_output repeated_listing sample_output
    sample_lines repeated_lines 64 2 0 120 0 64 3 1 148 119 0x10 0x13
    [0x1a, 3, 0x6d, 0x6f, 0x76, 0]
    (List.replicate 16 0 ++ [0x1a, 3, 0x6d, 0x6f, 0x76, 0x1a, 3, 0x65, 0x61, 0x78, 0x2c, 0x31, 0x3b])
    []
    (by decide) (by decide) (by decide) (by decide) (by decide) (by decide)
    (by decide) (by decide) (by decide) (by decide) (by decide) (by decide)
    (by decide) (by decide) (by decide) (by decide) (by decide) (by decide)
    (by decide) (by decide)).1

-- THEOREMS
/-! ## Lines longer than the capacity -/

end ListC
